import Mathlib

/-!
Advent of Code 2015, day 9: the Held-Karp path solver.

A shallow embedding of `src/2015/day09/main.cpp`: the graph builder of `main`
(lines 78-127), the recursive memoised search `held_karp` (lines 151-177) and
the multi-start driver loop of `main` (lines 129-143). Three small pieces of
other days follow in namespaces of their own: `check_hash` of
`src/2015/day04/main.cpp`, the lambda `is_nice` of `src/2015/day05/main.cpp` and
the scan between the quotes of `src/2015/day08/main.cpp`.

Modelling conventions.

* `int` values are `Int`; the only arithmetic the solver performs on them is
  the addition `dist[current][i] + result`, embedded as `addInt`, which wraps
  to 32 bits.
* `mask`, `current`, `n` and loop counters are `Nat`, and the shifts `1 << i`
  are the powers of two `1 <<< i`. In the source they are 32-bit `int`s: the
  two agree exactly when `n <= 30`, where `1 << n`, `(1 << n) - 1`, every
  `1 << i` with `i < n` and every mask are non-negative and below `2^31`
  (`shiftOne_of_le`). For `n = 31` the `int` `1 << n` is `INT_MIN`, so
  `(1 << n) - 1` overflows and line 119 asks for a memo table of
  `2^64 - 2^31` rows; for `n >= 32` the shift is undefined. The entry points
  `held_karp_int` and `driver_int` evaluate these `int` expressions first and
  are the runs of `held_karp` and `driver` when `n <= 30`; the general
  statements are about them and carry the hypothesis `n <= 30`.
* `std::vector<std::vector<int>>` is `Table = List (List Int)`; an index
  outside the vector is the fault `outOfBounds`.
* The recursion of `held_karp` is driven by a fuel argument; running out of
  fuel is the fault `outOfFuel`.
* Every run records a ghost trace of its calls and table accesses; the trace
  never influences a computed value.
* The iteration order of the `std::unordered_map` named `cities` is a parameter
  of the driver (`order`); `adjacency_list` is traversed in insertion order.
-/

namespace Day09

/-! ## Machine integers -/

/-- The constant `INT_MAX` of `<climits>`. -/
def INT_MAX : Int := 2147483647

/-- The constant `INT_MIN` of `<climits>`. -/
def INT_MIN : Int := -2147483648

/-- Reduction of an integer to the 32-bit two's complement range. -/
def wrap32 (x : Int) : Int := (x + 2147483648) % 4294967296 - 2147483648

/-- Addition of two `int` values. -/
def addInt (a b : Int) : Int := wrap32 (a + b)

/-! ## Tables -/

/-- Ways in which a run of the embedding can fail: the fuel is used up, an
index is outside a vector, an `int` expression of the source has no defined
value (a shift by 32 or more, a result outside the range of `int`), or the
constructor of a vector throws `std::length_error`. -/
inductive Fault where
  | outOfFuel
  | outOfBounds
  | undefinedInt
  | lengthError
  deriving DecidableEq, Repr

/-- A `std::vector<std::vector<int>>`. -/
abbrev Table := List (List Int)

/-- The access `t[r][c]` as an rvalue. -/
def Table.read (t : Table) (r c : Nat) : Except Fault Int :=
  match t[r]? with
  | none => .error .outOfBounds
  | some row =>
    match row[c]? with
    | none => .error .outOfBounds
    | some v => .ok v

/-- The assignment `t[r][c] = v`. -/
def Table.write (t : Table) (r c : Nat) (v : Int) : Except Fault Table :=
  match t[r]? with
  | none => .error .outOfBounds
  | some row =>
    if c < row.length then .ok (t.set r (row.set c v)) else .error .outOfBounds

/-- The constructor `std::vector<std::vector<int>>(rows, std::vector<int>(cols, v))`. -/
def Table.filled (rows cols : Nat) (v : Int) : Table :=
  List.replicate rows (List.replicate cols v)

/-- The call `std::fill(t.begin(), t.end(), std::vector<int>(cols, v))`. -/
def Table.fill (t : Table) (cols : Nat) (v : Int) : Table :=
  t.map (fun _ => List.replicate cols v)

/-! ## The search -/

/-- Ghost events recorded by a run of `held_karp`. -/
inductive Event where
  | call (mask current : Nat)
  | memoRead (mask current : Nat)
  | memoWrite (mask current : Nat)
  | distRead (row col : Nat)
  deriving DecidableEq, Repr

/-- The comparator `std::less<int>{}`. -/
def less (a b : Int) : Bool := decide (a < b)

/-- The comparator `std::greater<int>{}`. -/
def greater (a b : Int) : Bool := decide (a > b)

/-- What a call of `held_karp` leaves behind: the returned value, the memo
table afterwards and the ghost trace of the call. -/
structure Outcome where
  value : Int
  memo : Table
  trace : List Event
  deriving DecidableEq, Repr

/-- The `for (int i{}; i < n; ++i)` loop of `held_karp` (lines 164-173), run
over the remaining values of `i`; `recurse m c memo` stands for the recursive
call `held_karp(m, c, n, dist, memo, init_limit, comparator)` and the
`Outcome` carries the loop variable `best`. The natural numbers `1 <<< i` and
`mask ||| (1 <<< i)` are the `int`s `1 << i` and `mask | (1 << i)` of the
source for `i <= 30` and `mask < 2^31`, hence for every `i < n` when
`n <= 30`. -/
def hkLoop (recurse : Nat → Nat → Table → Except Fault Outcome)
    (mask current : Nat) (dist : Table) (init_limit : Int)
    (comparator : Int → Int → Bool) : List Nat → Outcome → Except Fault Outcome
  | [], st => .ok st
  | i :: rest, st =>
    if mask &&& (1 <<< i) = 0 then
      match dist.read current i with
      | .error e => .error e
      | .ok d =>
        if d ≠ init_limit then
          match recurse (mask ||| (1 <<< i)) i st.memo with
          | .error e => .error e
          | .ok r =>
            if r.value ≠ init_limit ∧ comparator r.value st.value = true then
              hkLoop recurse mask current dist init_limit comparator rest
                { value := addInt d r.value, memo := r.memo,
                  trace := st.trace ++ [Event.distRead current i] ++ r.trace
                    ++ [Event.distRead current i] }
            else
              hkLoop recurse mask current dist init_limit comparator rest
                { value := st.value, memo := r.memo,
                  trace := st.trace ++ [Event.distRead current i] ++ r.trace }
        else
          hkLoop recurse mask current dist init_limit comparator rest
            { st with trace := st.trace ++ [Event.distRead current i] }
    else
      hkLoop recurse mask current dist init_limit comparator rest st

/-- The function `held_karp` (lines 151-177). The natural number
`(1 <<< n) - 1` is the `int` `(1 << n) - 1` of line 155 for `n <= 30`; the
embedding is meant for `n <= 30` only (for `n = 31` the `int` expression
overflows, for `n >= 32` the shift is undefined). -/
def held_karp : Nat → Nat → Nat → Nat → Table → Table → Int → (Int → Int → Bool) →
    Except Fault Outcome
  | 0, _, _, _, _, _, _, _ => .error .outOfFuel
  | fuel + 1, mask, current, n, dist, memo, init_limit, comparator =>
    if mask = (1 <<< n) - 1 then
      .ok { value := 0, memo := memo, trace := [Event.call mask current] }
    else
      match memo.read mask current with
      | .error e => .error e
      | .ok m =>
        if m ≠ -1 then
          .ok { value := m, memo := memo,
                trace := [Event.call mask current, Event.memoRead mask current,
                          Event.memoRead mask current] }
        else
          match hkLoop (fun m c t => held_karp fuel m c n dist t init_limit comparator)
              mask current dist init_limit comparator (List.range n)
              { value := init_limit, memo := memo,
                trace := [Event.call mask current, Event.memoRead mask current] } with
          | .error e => .error e
          | .ok st =>
            match st.memo.write mask current st.value with
            | .error e => .error e
            | .ok memo' =>
              .ok { value := st.value, memo := memo',
                    trace := st.trace ++ [Event.memoWrite mask current] }

/-- The value returned by a run, when it returned. -/
def valueOf (r : Except Fault Outcome) : Option Int :=
  match r with
  | .ok o => some o.value
  | .error _ => none

/-- The states `(mask, current)` on which `held_karp` was invoked during a run,
in call order. -/
def callsOf (r : Except Fault Outcome) : List (Nat × Nat) :=
  match r with
  | .ok o => o.trace.filterMap (fun e => match e with
      | Event.call m c => some (m, c)
      | _ => none)
  | .error _ => []

/-! ## The graph builder of `main` -/

/-- One parsed input line `from to to = distance`. -/
abbrev Triplet := String × String × Int

/-- The variables of the input loop of `main` (lines 78-112): the map `cities`
with its insertion counter `index`, and `adjacency_list`. Both maps are kept as
association lists in insertion order. -/
structure Parsed where
  cities : List (String × Nat)
  index : Nat
  adjacency_list : List (String × List (String × Int))
  deriving DecidableEq, Repr

/-- The statement `if (!cities.contains(name)) cities[name] = index++;`. -/
def addCity (st : Parsed) (name : String) : Parsed :=
  if (st.cities.lookup name).isSome then st
  else { st with cities := st.cities ++ [(name, st.index)], index := st.index + 1 }

/-- The statement `adjacency_list[a].emplace_back(b, distance);`. -/
def emplaceEdge (adj : List (String × List (String × Int))) (a b : String) (distance : Int) :
    List (String × List (String × Int)) :=
  match adj with
  | [] => [(a, [(b, distance)])]
  | (k, conns) :: rest =>
    if k = a then (k, conns ++ [(b, distance)]) :: rest
    else (k, conns) :: emplaceEdge rest a b distance

/-- One iteration of the input loop (lines 100-109) on a parsed line. -/
def readTriplet (st : Parsed) (t : Triplet) : Parsed :=
  let st1 := addCity st t.1
  let st2 := addCity st1 t.2.1
  { st2 with adjacency_list :=
      emplaceEdge (emplaceEdge st2.adjacency_list t.1 t.2.1 t.2.2) t.2.1 t.1 t.2.2 }

/-- The input loop of `main` over all parsed lines. -/
def readInput (triplets : List Triplet) : Parsed :=
  triplets.foldl readTriplet { cities := [], index := 0, adjacency_list := [] }

/-- The call `cities.at(name)`; a missing key is a fault. -/
def citiesAt (cities : List (String × Nat)) (name : String) : Except Fault Nat :=
  match cities.lookup name with
  | some i => .ok i
  | none => .error .outOfBounds

/-- The inner loop of lines 124-126 over the connections of one city. -/
def fillRow (cities : List (String × Nat)) (from_ : String) :
    List (String × Int) → Table → Except Fault Table
  | [], dist => .ok dist
  | (to_, distance) :: rest, dist =>
    match citiesAt cities from_, citiesAt cities to_ with
    | .ok a, .ok b =>
      match dist.write a b distance with
      | .ok dist' => fillRow cities from_ rest dist'
      | .error e => .error e
    | .error e, _ => .error e
    | _, .error e => .error e

/-- The outer loop of lines 123-127 over `adjacency_list`, taken in insertion
order of the keys; each key writes only the row of its own city. -/
def fillDist (cities : List (String × Nat)) :
    List (String × List (String × Int)) → Table → Except Fault Table
  | [], dist => .ok dist
  | (from_, connections) :: rest, dist =>
    match fillRow cities from_ connections dist with
    | .ok dist' => fillDist cities rest dist'
    | .error e => .error e

/-- The graph data of `main` after line 127. -/
structure Graph where
  n : Nat
  dist : Table
  cities : List (String × Nat)
  deriving DecidableEq, Repr

/-- Lines 78-127 of `main`: from the parsed lines to `n`, `dist` and `cities`
(the memo table of line 119 is created by `driver`). -/
def buildGraph (triplets : List Triplet) : Except Fault Graph :=
  let st := readInput triplets
  let n := st.cities.length
  match fillDist st.cities st.adjacency_list (Table.filled n n INT_MAX) with
  | .ok dist =>
    .ok { n := n, dist := dist, cities := st.cities }
  | .error e => .error e

/-- The distance matrix built from the parsed lines, when the build succeeded. -/
def distOf (triplets : List Triplet) : Option Table :=
  match buildGraph triplets with
  | .ok g => some g.dist
  | .error _ => none

/-! ## The multi-start driver of `main` -/

/-- The memo table `main` creates for `n <= 30` locations (lines 119-120):
`1 << n` rows, every entry the unknown marker `-1`. For `n = 31` the `int`
`1 << n` is negative and the constructor of line 119 cannot build the table;
for `n >= 32` the shift is undefined. -/
def freshMemo (n : Nat) : Table := Table.filled (1 <<< n) n (-1)

/-- Ghost record of one top-level call of `held_karp` made by the driver: the
direction, the root and the memo table handed to the call. -/
structure TopCall where
  minimize : Bool
  root : Nat
  memo : Table
  deriving DecidableEq, Repr

/-- The variables of the driver loop (lines 129-143), with the ghost list of
top-level calls made so far. -/
structure DriverState where
  shortest_distance : Int
  longest_distance : Int
  memo : Table
  calls : List TopCall
  deriving DecidableEq, Repr

/-- The body of the driver loop (lines 132-142) for the root `curr`. -/
def driverStep (n : Nat) (dist : Table) (st : DriverState) (curr : Nat) :
    Except Fault DriverState :=
  match held_karp (n + 1) (1 <<< curr) curr n dist st.memo INT_MAX less with
  | .error e => .error e
  | .ok r1 =>
    let memo2 := r1.memo.fill n (-1)
    match held_karp (n + 1) (1 <<< curr) curr n dist memo2 INT_MIN greater with
    | .error e => .error e
    | .ok r2 =>
      .ok { shortest_distance := min st.shortest_distance r1.value,
            longest_distance := max st.longest_distance r2.value,
            memo := r2.memo,
            calls := st.calls ++ [⟨true, curr, st.memo⟩, ⟨false, curr, memo2⟩] }

/-- The driver loop over the roots in the order `order`. -/
def driverLoop (n : Nat) (dist : Table) : List Nat → DriverState → Except Fault DriverState
  | [], st => .ok st
  | curr :: rest, st =>
    match driverStep n dist st curr with
    | .error e => .error e
    | .ok st' => driverLoop n dist rest st'

/-- Lines 119-143 of `main`: the memo table is created once, then the loop
runs over the roots in the iteration order `order` of `cities`. -/
def driver (n : Nat) (dist : Table) (order : List Nat) : Except Fault DriverState :=
  driverLoop n dist order
    { shortest_distance := INT_MAX, longest_distance := INT_MIN,
      memo := freshMemo n, calls := [] }

/-- The pair `(shortest_distance, longest_distance)` printed by `main`. -/
def answerOf (r : Except Fault DriverState) : Option (Int × Int) :=
  match r with
  | .ok st => some (st.shortest_distance, st.longest_distance)
  | .error _ => none

/-- The ghost list of top-level calls of a driver run. -/
def topCallsOf (r : Except Fault DriverState) : List TopCall :=
  match r with
  | .ok st => st.calls
  | .error _ => []

/-- The function `main` from the parsed lines on: the graph is built, then the
driver runs over the roots in the order `order`. -/
def solve (triplets : List Triplet) (order : List Nat) : Except Fault DriverState :=
  match buildGraph triplets with
  | .ok g => driver g.n g.dist order
  | .error e => .error e

/-! ## Specification vocabulary -/

/-- The entry `t[r][c]` of a table, `0` outside the table. -/
def Table.get (t : Table) (r c : Nat) : Int := (t.getD r []).getD c 0

/-- A table has `rows` rows of `cols` entries each. -/
def Table.Dims (rows cols : Nat) (t : Table) : Prop :=
  t.length = rows ∧ ∀ row ∈ t, row.length = cols

/-- Consecutive locations of `p` are joined by an existing edge: the matrix
entry is not the no-edge value `INT_MAX` written by the builder. -/
def IsPath (dist : Table) : List Nat → Prop
  | [] => True
  | [_] => True
  | a :: b :: rest => dist.get a b ≠ INT_MAX ∧ IsPath dist (b :: rest)

instance (dist : Table) : (p : List Nat) → Decidable (IsPath dist p)
  | [] => isTrue trivial
  | [_] => isTrue trivial
  | a :: b :: rest =>
    have : Decidable (IsPath dist (b :: rest)) := instDecidableIsPath dist (b :: rest)
    inferInstanceAs (Decidable (dist.get a b ≠ INT_MAX ∧ IsPath dist (b :: rest)))

/-- The total distance of a path: the sum of the matrix entries of its
consecutive pairs (no return edge). -/
def pathCost (dist : Table) : List Nat → Int
  | [] => 0
  | [_] => 0
  | a :: b :: rest => dist.get a b + pathCost dist (b :: rest)

/-- The list `p` is a Hamiltonian path of the graph on `[0, n)` that starts at
`s`: it visits every location exactly once along existing edges. -/
def HamPathFrom (n : Nat) (dist : Table) (s : Nat) (p : List Nat) : Prop :=
  p.head? = some s ∧ p.Perm (List.range n) ∧ IsPath dist p

instance (n : Nat) (dist : Table) (s : Nat) (p : List Nat) :
    Decidable (HamPathFrom n dist s p) :=
  inferInstanceAs (Decidable (p.head? = some s ∧ p.Perm (List.range n) ∧ IsPath dist p))

/-- The list `p` is a Hamiltonian path of the graph on `[0, n)`. -/
def HamPath (n : Nat) (dist : Table) (p : List Nat) : Prop :=
  p.Perm (List.range n) ∧ IsPath dist p

instance (n : Nat) (dist : Table) (p : List Nat) : Decidable (HamPath n dist p) :=
  inferInstanceAs (Decidable (p.Perm (List.range n) ∧ IsPath dist p))

/-- The matrix `dist'` is `dist` with its indices renamed by `p`:
`dist'[p a][p b] = dist[a][b]`. -/
def Relabelled (n : Nat) (p : Nat → Nat) (dist dist' : Table) : Prop :=
  ∀ a, a < n → ∀ b, b < n → dist'.get (p a) (p b) = dist.get a b

instance (n : Nat) (p : Nat → Nat) (dist dist' : Table) :
    Decidable (Relabelled n p dist dist') :=
  inferInstanceAs (Decidable (∀ a, a < n → ∀ b, b < n → dist'.get (p a) (p b) = dist.get a b))

/-- The triplets of the A, B, C scenario: A-B = 1, B-C = 1, A-C = 5. -/
def tripletsABC : List Triplet := [("A", "B", 1), ("B", "C", 1), ("A", "C", 5)]

/-- The matrix of the A, B, C scenario with A = 0, B = 1, C = 2. -/
def distABC : Table := [[INT_MAX, 1, 5], [1, INT_MAX, 1], [5, 1, INT_MAX]]

/-- The matrix of the A, B, C scenario with B = 0, A = 1, C = 2; it is what
the builder produces from the lines B-A = 1, B-C = 1, A-C = 5. -/
def distBAC : Table := [[INT_MAX, 1, 1], [1, INT_MAX, 5], [1, 5, INT_MAX]]

/-- Two locations with no edge between them. -/
def distNoEdge2 : Table := [[INT_MAX, INT_MAX], [INT_MAX, INT_MAX]]

/-- The chain A-B = 1, B-C = 1 with no edge between A and C. -/
def tripletsChain : List Triplet := [("A", "B", 1), ("B", "C", 1)]

/-- The matrix the builder produces from `tripletsChain`. -/
def distChain : Table := [[INT_MAX, 1, INT_MAX], [1, INT_MAX, 1], [INT_MAX, 1, INT_MAX]]

/-- The chain A-B = 0, B-C = 0 with no edge between A and C. -/
def tripletsZeroChain : List Triplet := [("A", "B", 0), ("B", "C", 0)]

/-- The matrix the builder produces from `tripletsZeroChain`. -/
def distZeroChain : Table := [[INT_MAX, 0, INT_MAX], [0, INT_MAX, 0], [INT_MAX, 0, INT_MAX]]

/-- The exchange of the indices `0` and `1`. -/
def swap01 (v : Nat) : Nat := if v = 0 then 1 else if v = 1 then 0 else v

/-- The matrix of the single line A-B = 1. -/
def distAB : Table := [[INT_MAX, 1], [1, INT_MAX]]

/-- The six iteration orders of three roots. -/
def orders3 : List (List Nat) :=
  [[0, 1, 2], [0, 2, 1], [1, 0, 2], [1, 2, 0], [2, 0, 1], [2, 1, 0]]

/-- The state `(mask, current)` is one the search can be in on `n` locations:
the mask fits in `n` bits and contains the bit of `current`. -/
def ValidState (n mask current : Nat) : Prop :=
  mask < 2 ^ n ∧ current < n ∧ mask.testBit current = true

/-- The number of locations in `[0, n)` whose bit is clear in `mask`. -/
def clearBits : Nat → Nat → Nat
  | 0, _ => 0
  | n + 1, mask => clearBits n mask + (if mask.testBit n then 0 else 1)

/-- The list `p` completes the state `(mask, current)`: it visits every
location not in `mask` exactly once, along existing edges, starting from
`current`. -/
def Completion (n : Nat) (dist : Table) (mask current : Nat) (p : List Nat) : Prop :=
  p.Nodup ∧ (∀ v, v ∈ p ↔ (v < n ∧ mask.testBit v = false)) ∧ IsPath dist (current :: p)

/-- What a minimize-mode value `v` of the state `(mask, current)` stands for:
either the sentinel `INT_MAX` with no completion at all, or the total distance
of some completion. -/
def GoodMin (n : Nat) (dist : Table) (mask current : Nat) (v : Int) : Prop :=
  (v = INT_MAX ∧ ∀ p, ¬ Completion n dist mask current p) ∨
  (∃ p, Completion n dist mask current p ∧ v = pathCost dist (current :: p))

/-- The memo table has the size given by `main` and each known entry of a
valid state is a minimize-mode value of that state. -/
def MemoMin (n : Nat) (dist : Table) (memo : Table) : Prop :=
  Table.Dims (2 ^ n) n memo ∧
  ∀ m c, ValidState n m c → memo.get m c ≠ -1 → GoodMin n dist m c (memo.get m c)

/-- The distance matrix is `n` by `n`, its existing edges between distinct
locations carry non-negative distances, and the total of every path over
existing edges that repeats no location is below `INT_MAX`. -/
structure MinInput (n : Nat) (dist : Table) : Prop where
  dims : Table.Dims n n dist
  nonneg : ∀ a, a < n → ∀ b, b < n → a ≠ b → dist.get a b ≠ INT_MAX → 0 ≤ dist.get a b
  bound : ∀ p : List Nat, p.Nodup → (∀ v ∈ p, v < n) → IsPath dist p →
    pathCost dist p < INT_MAX

/-- The invariant of the loop of `held_karp` in minimize mode, with `rest` the
values of `i` still to come: either `best` is still `INT_MAX` and every
completion of the state starts with a location still to come, or `best` is the
total distance of some completion. -/
def LoopMin (n : Nat) (dist : Table) (mask current : Nat) (rest : List Nat) (best : Int) :
    Prop :=
  (best = INT_MAX ∧ ∀ j p, Completion n dist mask current (j :: p) → j ∈ rest) ∨
  (∃ p, Completion n dist mask current p ∧ best = pathCost dist (current :: p))

/-- Every location of `mask` is also in `m`. -/
def SubMask (mask m : Nat) : Prop := ∀ v, mask.testBit v = true → m.testBit v = true

/-- The matrix of `n` locations without any edge: what line 117 creates, every
entry the no-edge value `INT_MAX`. -/
def distEdgeless (n : Nat) : Table := Table.filled n n INT_MAX


/-- An event of a run respects the visit mask: a call has the bit of `current`
set in `mask`, and a matrix read is off the diagonal. -/
def Event.Safe : Event → Prop
  | Event.call mask current => mask.testBit current = true
  | Event.distRead row col => row ≠ col
  | Event.memoRead _ _ => True
  | Event.memoWrite _ _ => True


/-- The fully connected graph on `n` locations whose edges all have the weight
`w`: the matrix is `n` by `n`, every off-diagonal entry is `w`, `w` is
non-negative and the total `(n - 1) * w` of a Hamiltonian path is below
`INT_MAX`. -/
structure UniformInput (n : Nat) (w : Int) (dist : Table) : Prop where
  dims : Table.Dims n n dist
  entries : ∀ a, a < n → ∀ b, b < n → a ≠ b → dist.get a b = w
  nonneg : 0 ≤ w
  bound : ((n : Int) - 1) * w < INT_MAX

/-- The pair `(init_limit, comparator)` is one of the two directions as far as
real totals are concerned: a total in `[0, INT_MAX)` is not `init_limit` and
is better than `init_limit`. -/
def IsDirection (init_limit : Int) (comparator : Int → Int → Bool) : Prop :=
  ∀ v : Int, 0 ≤ v → v < INT_MAX → v ≠ init_limit ∧ comparator v init_limit = true

/-- The memo table has the size given by `main` and each known entry of a
valid state is the number of unvisited locations times `w`. -/
def MemoUniform (n : Nat) (w : Int) (memo : Table) : Prop :=
  Table.Dims (2 ^ n) n memo ∧
  ∀ m c, ValidState n m c → memo.get m c ≠ -1 → memo.get m c = (clearBits n m : Int) * w

/-- The matrix of three locations with all three edges of weight 2. -/
def distUniform3 : Table := [[INT_MAX, 2, 2], [2, INT_MAX, 2], [2, 2, INT_MAX]]


/-- The loop of `held_karp` (lines 164-173) read without the memo table:
`recurse m c` is the value of the state `(m, c)` and the result is the final
`best`. It serves as the reference for what a memo entry should hold. -/
def pureLoop (recurse : Nat → Nat → Int) (mask current : Nat) (dist : Table)
    (init_limit : Int) (comparator : Int → Int → Bool) : List Nat → Int → Int
  | [], best => best
  | i :: rest, best =>
    if mask &&& (1 <<< i) = 0 then
      if dist.get current i ≠ init_limit then
        if recurse (mask ||| (1 <<< i)) i ≠ init_limit ∧
            comparator (recurse (mask ||| (1 <<< i)) i) best = true then
          pureLoop recurse mask current dist init_limit comparator rest
            (addInt (dist.get current i) (recurse (mask ||| (1 <<< i)) i))
        else
          pureLoop recurse mask current dist init_limit comparator rest best
      else
        pureLoop recurse mask current dist init_limit comparator rest best
    else
      pureLoop recurse mask current dist init_limit comparator rest best

/-- The recurrence of `held_karp` (lines 155-176) read without the memo table,
unfolded `fuel` levels deep. -/
def pureValue : Nat → Nat → Nat → Nat → Table → Int → (Int → Int → Bool) → Int
  | 0, _, _, _, _, _, _ => 0
  | fuel + 1, mask, current, n, dist, init_limit, comparator =>
    if mask = (1 <<< n) - 1 then 0
    else
      pureLoop (fun m c => pureValue fuel m c n dist init_limit comparator)
        mask current dist init_limit comparator (List.range n) init_limit

/-- The value of the state `(mask, current)` by the memo-free recurrence,
unfolded as deep as the state has unvisited locations. -/
def refValue (n : Nat) (dist : Table) (init_limit : Int) (comparator : Int → Int → Bool)
    (mask current : Nat) : Int :=
  pureValue (clearBits n mask + 1) mask current n dist init_limit comparator

/-- The memo table has the size given by `main` and each known entry is the
memo-free value of its state. -/
def MemoRef (n : Nat) (dist : Table) (init_limit : Int) (comparator : Int → Int → Bool)
    (memo : Table) : Prop :=
  Table.Dims (2 ^ n) n memo ∧
  ∀ m, m < 2 ^ n → ∀ c, c < n → memo.get m c ≠ -1 →
    memo.get m c = refValue n dist init_limit comparator m c

/-- A memo table for the A, B, C matrix in minimize mode in which the states
(3, 1) and (5, 2) are known. -/
def memoPartialABC : Table :=
  [[-1, -1, -1], [-1, -1, -1], [-1, -1, -1], [-1, 1, -1], [-1, -1, -1], [-1, -1, 1],
   [-1, -1, -1], [-1, -1, -1]]


/-- The names of the parsed lines in reading order: for each line its first
name, then its second name. -/
def namesOf (triplets : List Triplet) : List String :=
  triplets.flatMap (fun t => [t.1, t.2.1])

/-- The distinct names of a sequence in the order in which they are first
seen. -/
def firstSeen : List String → List String
  | [] => []
  | x :: xs => x :: (firstSeen xs).filter (fun y => decide (y ≠ x))

/-- The counter `index` equals the size of `cities`, and the k-th entry of
`cities` (from 0) carries the index k. -/
def CitiesOK (st : Parsed) : Prop :=
  st.index = st.cities.length ∧ st.cities.map Prod.snd = List.range st.cities.length


/-- The entries which the parsed lines append to `adjacency_list[a]`, in
order: `(to, distance)` for a line that starts at `a`, `(from, distance)` for
a line that ends at `a`. -/
def connsOf (a : String) (triplets : List Triplet) : List (String × Int) :=
  triplets.flatMap (fun t =>
    (if t.1 = a then [(t.2.1, t.2.2)] else []) ++ (if t.2.1 = a then [(t.1, t.2.2)] else []))

/-- The parsed line `t` relates the names `x` and `y`, in either order. -/
def Relates (x y : String) (t : Triplet) : Prop :=
  (t.1 = x ∧ t.2.1 = y) ∨ (t.1 = y ∧ t.2.1 = x)

instance (x y : String) (t : Triplet) : Decidable (Relates x y t) :=
  inferInstanceAs (Decidable ((t.1 = x ∧ t.2.1 = y) ∨ (t.1 = y ∧ t.2.1 = x)))

/-- The distance of the last parsed line that relates `x` and `y`, if any. -/
def lastDistance (x y : String) (triplets : List Triplet) : Option Int :=
  ((triplets.filter (fun t => decide (Relates x y t))).getLast?).map (fun t => t.2.2)

/-- The distance of the last connection to `y` in a connection list, if any. -/
def lastIn (conns : List (String × Int)) (y : String) : Option Int :=
  ((conns.filter (fun c => decide (c.1 = y))).getLast?).map Prod.snd

/-- Lines 114-127 of `main` with the order in which the loop of line 123
traverses `adjacency_list` given as `traversal`. -/
def buildGraphIn (triplets : List Triplet)
    (traversal : List (String × List (String × Int))) : Except Fault Graph :=
  let st := readInput triplets
  let n := st.cities.length
  match fillDist st.cities traversal (Table.filled n n INT_MAX) with
  | .ok dist =>
    .ok { n := n, dist := dist, cities := st.cities }
  | .error e => .error e

/-- A fully connected graph on six locations with positive distances. -/
def distSix : Table :=
  [[INT_MAX, 8, 2, 5, 13, 12], [8, INT_MAX, 9, 11, 17, 17], [2, 9, INT_MAX, 4, 9, 11],
   [5, 11, 4, INT_MAX, 11, 14], [13, 17, 9, 11, INT_MAX, 16], [12, 17, 11, 14, 16, INT_MAX]]


/-- The value -1 that marks an unknown entry of the memo table (line 120). -/
def unk : Int := -1

/-- The value and the memo table of a completed run. -/
def resultOf (r : Except Fault Outcome) : Option (Int × Table) :=
  match r with
  | .ok o => some (o.value, o.memo)
  | .error _ => none

/-- The value of a completed run, with its memo table after the reset of
line 138 (`std::fill` of every row with -1). -/
def resetOf (n : Nat) (r : Except Fault Outcome) : Option (Int × Table) :=
  match r with
  | .ok o => some (o.value, o.memo.fill n (-1))
  | .error _ => none

/-- The memo table left by the maximize run of root 3 on `distSix`. -/
def memoSixAfter3 : Table :=
  [[unk, unk, unk, unk, unk, unk], [unk, unk, unk, unk, unk, unk], [unk, unk, unk, unk, unk, unk], [unk, unk, unk, unk, unk, unk],
   [unk, unk, unk, unk, unk, unk], [unk, unk, unk, unk, unk, unk], [unk, unk, unk, unk, unk, unk], [unk, unk, unk, unk, unk, unk],
   [unk, unk, unk, 47, unk, unk], [42, unk, unk, unk, unk, unk], [unk, 35, unk, unk, unk, unk], [27, 34, unk, unk, unk, unk],
   [unk, unk, 43, unk, unk, unk], [41, unk, 42, unk, unk, unk], [unk, 37, 31, unk, unk, unk], [29, 33, 25, unk, unk, unk],
   [unk, unk, unk, unk, unk, unk], [unk, unk, unk, unk, unk, unk], [unk, unk, unk, unk, unk, unk], [unk, unk, unk, unk, unk, unk],
   [unk, unk, unk, unk, unk, unk], [unk, unk, unk, unk, unk, unk], [unk, unk, unk, unk, unk, unk], [unk, unk, unk, unk, unk, unk],
   [unk, unk, unk, unk, 41, unk], [28, unk, unk, unk, 37, unk], [unk, 21, unk, unk, 26, unk], [13, 20, unk, unk, 20, unk],
   [unk, unk, 27, unk, 38, unk], [25, unk, 26, unk, 34, unk], [unk, 20, 14, unk, 25, unk], [12, 17, 11, unk, 16, unk],
   [unk, unk, unk, unk, unk, unk], [unk, unk, unk, unk, unk, unk], [unk, unk, unk, unk, unk, unk], [unk, unk, unk, unk, unk, unk],
   [unk, unk, unk, unk, unk, unk], [unk, unk, unk, unk, unk, unk], [unk, unk, unk, unk, unk, unk], [unk, unk, unk, unk, unk, unk],
   [unk, unk, unk, unk, unk, 38], [26, unk, unk, unk, unk, 35], [unk, 19, unk, unk, unk, 23], [11, 18, unk, unk, unk, 20],
   [unk, unk, 27, unk, unk, 37], [25, unk, 26, unk, unk, 34], [unk, 21, 15, unk, unk, 25], [13, 17, 9, unk, unk, 16],
   [unk, unk, unk, unk, unk, unk], [unk, unk, unk, unk, unk, unk], [unk, unk, unk, unk, unk, unk], [unk, unk, unk, unk, unk, unk],
   [unk, unk, unk, unk, unk, unk], [unk, unk, unk, unk, unk, unk], [unk, unk, unk, unk, unk, unk], [unk, unk, unk, unk, unk, unk],
   [unk, unk, unk, unk, 30, 29], [17, unk, unk, unk, 26, 26], [unk, 10, unk, unk, 15, 14], [2, 9, unk, unk, 9, 11],
   [unk, unk, 10, unk, 21, 20], [8, unk, 9, unk, 17, 17], [unk, 8, 2, unk, 13, 12], [unk, unk, unk, unk, unk, unk]]

/-- The memo table left by the maximize run of root 2 on `distSix`. -/
def memoSixAfter2 : Table :=
  [[unk, unk, unk, unk, unk, unk], [unk, unk, unk, unk, unk, unk], [unk, unk, unk, unk, unk, unk], [unk, unk, unk, unk, unk, unk],
   [unk, unk, 48, unk, unk, unk], [46, unk, unk, unk, unk, unk], [unk, 40, unk, unk, unk, unk], [32, 38, unk, unk, unk, unk],
   [unk, unk, unk, unk, unk, unk], [unk, unk, unk, unk, unk, unk], [unk, unk, unk, unk, unk, unk], [unk, unk, unk, unk, unk, unk],
   [unk, unk, unk, 46, unk, unk], [41, unk, unk, 44, unk, unk], [unk, 37, unk, 34, unk, unk], [29, 33, unk, 27, unk, unk],
   [unk, unk, unk, unk, unk, unk], [unk, unk, unk, unk, unk, unk], [unk, unk, unk, unk, unk, unk], [unk, unk, unk, unk, unk, unk],
   [unk, unk, unk, unk, 46, unk], [33, unk, unk, unk, 42, unk], [unk, 27, unk, unk, 32, unk], [19, 25, unk, unk, 25, unk],
   [unk, unk, unk, unk, unk, unk], [unk, unk, unk, unk, unk, unk], [unk, unk, unk, unk, unk, unk], [unk, unk, unk, unk, unk, unk],
   [unk, unk, unk, 30, 38, unk], [25, unk, unk, 28, 34, unk], [unk, 20, unk, 17, 25, unk], [12, 17, unk, 14, 16, unk],
   [unk, unk, unk, unk, unk, unk], [unk, unk, unk, unk, unk, unk], [unk, unk, unk, unk, unk, unk], [unk, unk, unk, unk, unk, unk],
   [unk, unk, unk, unk, unk, 42], [30, unk, unk, unk, unk, 39], [unk, 24, unk, unk, unk, 28], [16, 22, unk, unk, unk, 25],
   [unk, unk, unk, unk, unk, unk], [unk, unk, unk, unk, unk, unk], [unk, unk, unk, unk, unk, unk], [unk, unk, unk, unk, unk, unk],
   [unk, unk, unk, 30, unk, 37], [25, unk, unk, 28, unk, 34], [unk, 21, unk, 18, unk, 25], [13, 17, unk, 11, unk, 16],
   [unk, unk, unk, unk, unk, unk], [unk, unk, unk, unk, unk, unk], [unk, unk, unk, unk, unk, unk], [unk, unk, unk, unk, unk, unk],
   [unk, unk, unk, unk, 32, 31], [19, unk, unk, unk, 28, 28], [unk, 13, unk, unk, 18, 17], [5, 11, unk, unk, 11, 14],
   [unk, unk, unk, unk, unk, unk], [unk, unk, unk, unk, unk, unk], [unk, unk, unk, unk, unk, unk], [unk, unk, unk, unk, unk, unk],
   [unk, unk, unk, 13, 21, 20], [8, unk, unk, 11, 17, 17], [unk, 8, unk, 5, 13, 12], [unk, unk, unk, unk, unk, unk]]

/-- The memo table left by the maximize run of root 1 on `distSix`. -/
def memoSixAfter1 : Table :=
  [[unk, unk, unk, unk, unk, unk], [unk, unk, unk, unk, unk, unk], [unk, 41, unk, unk, unk, unk], [33, unk, unk, unk, unk, unk],
   [unk, unk, unk, unk, unk, unk], [unk, unk, unk, unk, unk, unk], [unk, unk, 34, unk, unk, unk], [32, unk, 31, unk, unk, unk],
   [unk, unk, unk, unk, unk, unk], [unk, unk, unk, unk, unk, unk], [unk, unk, unk, 32, unk, unk], [27, unk, unk, 29, unk, unk],
   [unk, unk, unk, unk, unk, unk], [unk, unk, unk, unk, unk, unk], [unk, unk, 31, 34, unk, unk], [29, unk, 25, 27, unk, unk],
   [unk, unk, unk, unk, unk, unk], [unk, unk, unk, unk, unk, unk], [unk, unk, unk, unk, 33, unk], [20, unk, unk, unk, 27, unk],
   [unk, unk, unk, unk, unk, unk], [unk, unk, unk, unk, unk, unk], [unk, unk, 21, unk, 32, unk], [19, unk, 18, unk, 25, unk],
   [unk, unk, unk, unk, unk, unk], [unk, unk, unk, unk, unk, unk], [unk, unk, unk, 18, 26, unk], [13, unk, unk, 15, 20, unk],
   [unk, unk, unk, unk, unk, unk], [unk, unk, unk, unk, unk, unk], [unk, unk, 14, 17, 25, unk], [12, unk, 11, 14, 16, unk],
   [unk, unk, unk, unk, unk, unk], [unk, unk, unk, unk, unk, unk], [unk, unk, unk, unk, unk, 29], [17, unk, unk, unk, unk, 26],
   [unk, unk, unk, unk, unk, unk], [unk, unk, unk, unk, unk, unk], [unk, unk, 18, unk, unk, 28], [16, unk, 15, unk, unk, 25],
   [unk, unk, unk, unk, unk, unk], [unk, unk, unk, unk, unk, unk], [unk, unk, unk, 16, unk, 23], [11, unk, unk, 13, unk, 20],
   [unk, unk, unk, unk, unk, unk], [unk, unk, unk, unk, unk, unk], [unk, unk, 15, 18, unk, 25], [13, unk, 9, 11, unk, 16],
   [unk, unk, unk, unk, unk, unk], [unk, unk, unk, unk, unk, unk], [unk, unk, unk, unk, 19, 18], [6, unk, unk, unk, 13, 15],
   [unk, unk, unk, unk, unk, unk], [unk, unk, unk, unk, unk, unk], [unk, unk, 7, unk, 18, 17], [5, unk, 4, unk, 11, 14],
   [unk, unk, unk, unk, unk, unk], [unk, unk, unk, unk, unk, unk], [unk, unk, unk, 7, 15, 14], [2, unk, unk, 4, 9, 11],
   [unk, unk, unk, unk, unk, unk], [unk, unk, unk, unk, unk, unk], [unk, unk, 2, 5, 13, 12], [unk, unk, unk, unk, unk, unk]]

/-- The memo table left by the maximize run of root 4 on `distSix`. -/
def memoSixAfter4 : Table :=
  [[unk, unk, unk, unk, unk, unk], [unk, unk, unk, unk, unk, unk], [unk, unk, unk, unk, unk, unk], [unk, unk, unk, unk, unk, unk],
   [unk, unk, unk, unk, unk, unk], [unk, unk, unk, unk, unk, unk], [unk, unk, unk, unk, unk, unk], [unk, unk, unk, unk, unk, unk],
   [unk, unk, unk, unk, unk, unk], [unk, unk, unk, unk, unk, unk], [unk, unk, unk, unk, unk, unk], [unk, unk, unk, unk, unk, unk],
   [unk, unk, unk, unk, unk, unk], [unk, unk, unk, unk, unk, unk], [unk, unk, unk, unk, unk, unk], [unk, unk, unk, unk, unk, unk],
   [unk, unk, unk, unk, 48, unk], [35, unk, unk, unk, unk, unk], [unk, 28, unk, unk, unk, unk], [20, 27, unk, unk, unk, unk],
   [unk, unk, 35, unk, unk, unk], [33, unk, 34, unk, unk, unk], [unk, 27, 21, unk, unk, unk], [19, 25, 18, unk, unk, unk],
   [unk, unk, unk, 33, unk, unk], [28, unk, unk, 31, unk, unk], [unk, 21, unk, 18, unk, unk], [13, 20, unk, 15, unk, unk],
   [unk, unk, 27, 30, unk, unk], [25, unk, 26, 28, unk, unk], [unk, 20, 14, 17, unk, unk], [12, 17, 11, 14, unk, unk],
   [unk, unk, unk, unk, unk, unk], [unk, unk, unk, unk, unk, unk], [unk, unk, unk, unk, unk, unk], [unk, unk, unk, unk, unk, unk],
   [unk, unk, unk, unk, unk, unk], [unk, unk, unk, unk, unk, unk], [unk, unk, unk, unk, unk, unk], [unk, unk, unk, unk, unk, unk],
   [unk, unk, unk, unk, unk, unk], [unk, unk, unk, unk, unk, unk], [unk, unk, unk, unk, unk, unk], [unk, unk, unk, unk, unk, unk],
   [unk, unk, unk, unk, unk, unk], [unk, unk, unk, unk, unk, unk], [unk, unk, unk, unk, unk, unk], [unk, unk, unk, unk, unk, unk],
   [unk, unk, unk, unk, unk, 33], [21, unk, unk, unk, unk, 30], [unk, 14, unk, unk, unk, 18], [6, 13, unk, unk, unk, 15],
   [unk, unk, 21, unk, unk, 31], [19, unk, 20, unk, unk, 28], [unk, 13, 7, unk, unk, 17], [5, 11, 4, unk, unk, 14],
   [unk, unk, unk, 22, unk, 29], [17, unk, unk, 20, unk, 26], [unk, 10, unk, 7, unk, 14], [2, 9, unk, 4, unk, 11],
   [unk, unk, 10, 13, unk, 20], [8, unk, 9, 11, unk, 17], [unk, 8, 2, 5, unk, 12], [unk, unk, unk, unk, unk, unk]]

/-- The memo table left by the maximize run of root 5 on `distSix`. -/
def memoSixAfter5 : Table :=
  [[unk, unk, unk, unk, unk, unk], [unk, unk, unk, unk, unk, unk], [unk, unk, unk, unk, unk, unk], [unk, unk, unk, unk, unk, unk],
   [unk, unk, unk, unk, unk, unk], [unk, unk, unk, unk, unk, unk], [unk, unk, unk, unk, unk, unk], [unk, unk, unk, unk, unk, unk],
   [unk, unk, unk, unk, unk, unk], [unk, unk, unk, unk, unk, unk], [unk, unk, unk, unk, unk, unk], [unk, unk, unk, unk, unk, unk],
   [unk, unk, unk, unk, unk, unk], [unk, unk, unk, unk, unk, unk], [unk, unk, unk, unk, unk, unk], [unk, unk, unk, unk, unk, unk],
   [unk, unk, unk, unk, unk, unk], [unk, unk, unk, unk, unk, unk], [unk, unk, unk, unk, unk, unk], [unk, unk, unk, unk, unk, unk],
   [unk, unk, unk, unk, unk, unk], [unk, unk, unk, unk, unk, unk], [unk, unk, unk, unk, unk, unk], [unk, unk, unk, unk, unk, unk],
   [unk, unk, unk, unk, unk, unk], [unk, unk, unk, unk, unk, unk], [unk, unk, unk, unk, unk, unk], [unk, unk, unk, unk, unk, unk],
   [unk, unk, unk, unk, unk, unk], [unk, unk, unk, unk, unk, unk], [unk, unk, unk, unk, unk, unk], [unk, unk, unk, unk, unk, unk],
   [unk, unk, unk, unk, unk, 44], [32, unk, unk, unk, unk, unk], [unk, 25, unk, unk, unk, unk], [17, 24, unk, unk, unk, unk],
   [unk, unk, 32, unk, unk, unk], [30, unk, 31, unk, unk, unk], [unk, 24, 18, unk, unk, unk], [16, 22, 15, unk, unk, unk],
   [unk, unk, unk, 31, unk, unk], [26, unk, unk, 29, unk, unk], [unk, 19, unk, 16, unk, unk], [11, 18, unk, 13, unk, unk],
   [unk, unk, 27, 30, unk, unk], [25, unk, 26, 28, unk, unk], [unk, 21, 15, 18, unk, unk], [13, 17, 9, 11, unk, unk],
   [unk, unk, unk, unk, 34, unk], [21, unk, unk, unk, 30, unk], [unk, 14, unk, unk, 19, unk], [6, 13, unk, unk, 13, unk],
   [unk, unk, 21, unk, 32, unk], [19, unk, 20, unk, 28, unk], [unk, 13, 7, unk, 18, unk], [5, 11, 4, unk, 11, unk],
   [unk, unk, unk, 22, 30, unk], [17, unk, unk, 20, 26, unk], [unk, 10, unk, 7, 15, unk], [2, 9, unk, 4, 9, unk],
   [unk, unk, 10, 13, 21, unk], [8, unk, 9, 11, 17, unk], [unk, 8, 2, 5, 13, unk], [unk, unk, unk, unk, unk, unk]]


/-- An event of a run stays inside the tables of `n` locations: a call has
`current < n` and `0 < mask < 2^n`, an access `memo[mask][current]` is inside
the `2^n` by `n` memo table, and a read `dist[row][col]` is inside the `n` by
`n` matrix. -/
def Event.InBounds (n : Nat) : Event → Prop
  | Event.call mask current => current < n ∧ 0 < mask ∧ mask < 2 ^ n
  | Event.memoRead mask current => mask < 2 ^ n ∧ current < n
  | Event.memoWrite mask current => mask < 2 ^ n ∧ current < n
  | Event.distRead row col => row < n ∧ col < n


/-- The graph on `[0, n)` is fully connected: every matrix entry off the
diagonal is an existing edge, not the no-edge value `INT_MAX`. -/
def FullyConnected (n : Nat) (dist : Table) : Prop :=
  ∀ a, a < n → ∀ b, b < n → a ≠ b → dist.get a b ≠ INT_MAX

instance (n : Nat) (dist : Table) : Decidable (FullyConnected n dist) :=
  inferInstanceAs (Decidable (∀ a, a < n → ∀ b, b < n → a ≠ b → dist.get a b ≠ INT_MAX))

/-- The memo table has the size given by `main` and each known entry of a
valid state is the total distance of some completion of that state. -/
def MemoPath (n : Nat) (dist : Table) (memo : Table) : Prop :=
  Table.Dims (2 ^ n) n memo ∧
  ∀ m c, ValidState n m c → memo.get m c ≠ -1 →
    ∃ p, Completion n dist m c p ∧ memo.get m c = pathCost dist (c :: p)

/-- The invariant of the loop of `held_karp` on a fully connected graph, in
either direction, with `rest` the values of `i` still to come: either `best`
is still `init_limit` and every unvisited location is still to come, or `best`
is the total distance of some completion. -/
def LoopPath (n : Nat) (dist : Table) (mask current : Nat) (init_limit : Int)
    (rest : List Nat) (best : Int) : Prop :=
  (best = init_limit ∧ ∀ j, j < n → mask.testBit j = false → j ∈ rest) ∨
  (∃ p, Completion n dist mask current p ∧ best = pathCost dist (current :: p))

/-- Three locations with all three distances equal to `2^30`: the total of
every Hamiltonian path is `2^31`, above `INT_MAX`. -/
def distHuge3 : Table :=
  [[INT_MAX, 1073741824, 1073741824], [1073741824, INT_MAX, 1073741824],
   [1073741824, 1073741824, INT_MAX]]


/-- The body of the loop of a driver that gives every run of `held_karp` its
own all-unknown memo table; `acc` is the pair
`(shortest_distance, longest_distance)`. This is the reference with which the
driver of `main` is compared. -/
def driverFreshStep (n : Nat) (dist : Table) (acc : Int × Int) (curr : Nat) :
    Except Fault (Int × Int) :=
  match held_karp (n + 1) (1 <<< curr) curr n dist (freshMemo n) INT_MAX less with
  | .error e => .error e
  | .ok r1 =>
    match held_karp (n + 1) (1 <<< curr) curr n dist (freshMemo n) INT_MIN greater with
    | .error e => .error e
    | .ok r2 => .ok (min acc.1 r1.value, max acc.2 r2.value)

/-- The loop of the reference driver over the roots in the order `order`. -/
def driverFreshLoop (n : Nat) (dist : Table) : List Nat → Int × Int → Except Fault (Int × Int)
  | [], acc => .ok acc
  | curr :: rest, acc =>
    match driverFreshStep n dist acc curr with
    | .error e => .error e
    | .ok acc' => driverFreshLoop n dist rest acc'

/-- The pair `(shortest_distance, longest_distance)` of the reference driver,
in which every run of `held_karp` starts from an all-unknown memo table. -/
def driverFresh (n : Nat) (dist : Table) (order : List Nat) : Option (Int × Int) :=
  match driverFreshLoop n dist order (INT_MAX, INT_MIN) with
  | .ok acc => some acc
  | .error _ => none


/-- The `int` expression `1 << k` of the source (lines 119, 136, 141, 155, 165
and 167): for `k < 32` the value congruent to `2^k` modulo `2^32` in the range of
`int`, and undefined (`none`) for `k >= 32`. -/
def shiftOne (k : Nat) : Option Int :=
  if k < 32 then some (wrap32 (2 ^ k)) else none

/-- The `int` expression `(1 << n) - 1` of line 155: the value of the shift
less one when the shift is defined and the subtraction stays in the range of
`int`, and undefined (`none`) otherwise. -/
def fullMask (n : Nat) : Option Int :=
  match shiftOne n with
  | none => none
  | some v => if INT_MIN ≤ v - 1 then some (v - 1) else none

/-- The call `held_karp(mask, current, n, ...)` with the width of `int` taken
into account. Line 155 evaluates `(1 << n) - 1` before anything else: where
that expression has no defined value, the call has none. Where it has one, `n`
is at most 30, every `1 << i` with `i < n` and every mask below `2^n` is a
non-negative `int`, and the run is that of `held_karp`. -/
def held_karp_int (fuel mask current n : Nat) (dist memo : Table) (init_limit : Int)
    (comparator : Int → Int → Bool) : Except Fault Outcome :=
  match fullMask n with
  | none => .error .undefinedInt
  | some _ => held_karp fuel mask current n dist memo init_limit comparator

/-- The largest value of `std::ptrdiff_t` (64 bits); `max_size()` of a vector
is never above it. -/
def PTRDIFF_MAX : Int := 9223372036854775807

/-- The construction of `memo` in lines 119-120: the `int` `1 << n` is
converted to `size_t` (modulo `2^64`) and handed to the constructor as the
number of rows; a number above `PTRDIFF_MAX` is above `max_size()` and the
constructor throws `std::length_error`. -/
def makeMemo (n : Nat) : Except Fault Table :=
  match shiftOne n with
  | none => .error .undefinedInt
  | some v =>
    if v % 18446744073709551616 ≤ PTRDIFF_MAX then
      .ok (Table.filled (v % 18446744073709551616).toNat n (-1))
    else .error .lengthError

/-- Lines 119-143 of `main` with the width of `int` taken into account: the
memo table is built as line 119 builds it, then the loop runs over the roots
in the iteration order `order` of `cities`. -/
def driver_int (n : Nat) (dist : Table) (order : List Nat) : Except Fault DriverState :=
  match makeMemo n with
  | .error e => .error e
  | .ok memo =>
    driverLoop n dist order
      { shortest_distance := INT_MAX, longest_distance := INT_MIN,
        memo := memo, calls := [] }

end Day09

/-! ## Day 4: the test on the MD5 digest -/

namespace Day04

/-- The function `check_hash` of `src/2015/day04/main.cpp` (lines 52-60) on the
digest buffer `hash`, a list of bytes; the `&&` chain reads `hash[1]` and
`hash[2]` only when the bytes before are zero, and a byte outside the buffer
is `none`. -/
def check_hash (hash : List Nat) : Option Bool :=
  match hash[0]? with
  | none => none
  | some h0 =>
    if h0 = 0 then
      match hash[1]? with
      | none => none
      | some h1 =>
        if h1 = 0 then
          match hash[2]? with
          | none => none
          | some h2 => some (decide (h2 < 16))
        else some false
    else some false

/-- The two hexadecimal digits (as values 0..15) with which a byte is written. -/
def hexDigits (b : Nat) : List Nat := [b / 16 % 16, b % 16]

/-- The digest written in hexadecimal, two digits per byte. -/
def hexOf (hash : List Nat) : List Nat := hash.flatMap hexDigits

/-- The hexadecimal writing of the digest starts with `k` zeros. -/
def StartsWithZeros (k : Nat) (hash : List Nat) : Prop :=
  (hexOf hash).take k = List.replicate k 0

instance (k : Nat) (hash : List Nat) : Decidable (StartsWithZeros k hash) :=
  inferInstanceAs (Decidable ((hexOf hash).take k = List.replicate k 0))

/-- A digest whose hexadecimal writing is `000001` followed by zeros. -/
def hashFiveZeros : List Nat := [0, 0, 1, 0, 0, 0, 0, 0, 0, 0, 0, 0, 0, 0, 0, 0]

end Day04

/-! ## Day 5: the second rule set -/

namespace Day05

/-- The variables of the lambda `is_nice` (lines 54-56); the map
`pair_positions` is kept as an association list. -/
structure NiceState where
  pair_positions : List (List Char × Nat)
  twice_no_overlap : Bool
  repeat_with_inbetween : Bool
  deriving DecidableEq, Repr

/-- The call `line.substr(pos, len)`. -/
def substr (line : List Char) (pos len : Nat) : List Char := (line.drop pos).take len

/-- Subtraction of two `size_t` values (64 bits, wrapping). -/
def subSizeT (a b : Nat) : Nat := (a + 18446744073709551616 - b) % 18446744073709551616

/-- The body of the loop of `is_nice` for the index `i`, up to the test that
breaks out of the loop (lines 59-67). -/
def niceStep (line : List Char) (st : NiceState) (i : Nat) : NiceState :=
  let rep : Bool :=
    if i + 1 < line.length ∧ (line)[i - 1]? = (line)[i + 1]? then true
    else st.repeat_with_inbetween
  match st.pair_positions.lookup (substr line (i - 1) 2) with
  | none =>
    { pair_positions := st.pair_positions ++ [(substr line (i - 1) 2, i - 1)],
      twice_no_overlap := st.twice_no_overlap,
      repeat_with_inbetween := rep }
  | some first =>
    { pair_positions := st.pair_positions,
      twice_no_overlap := if subSizeT (i - 1) first ≥ 2 then true else st.twice_no_overlap,
      repeat_with_inbetween := rep }

/-- The loop `for (size_t i{1}; i < line.size(); ++i)` of `is_nice` over the
remaining indices, with the `break` of lines 69-71. -/
def niceLoop (line : List Char) : List Nat → NiceState → NiceState
  | [], st => st
  | i :: rest, st =>
    if (niceStep line st i).twice_no_overlap = true ∧
        (niceStep line st i).repeat_with_inbetween = true then
      niceStep line st i
    else
      niceLoop line rest (niceStep line st i)

/-- The lambda `is_nice` (lines 53-75). -/
def is_nice (line : List Char) : Bool :=
  (niceLoop line (List.range' 1 (line.length - 1))
    { pair_positions := [], twice_no_overlap := false,
      repeat_with_inbetween := false }).twice_no_overlap &&
  (niceLoop line (List.range' 1 (line.length - 1))
    { pair_positions := [], twice_no_overlap := false,
      repeat_with_inbetween := false }).repeat_with_inbetween

/-- Some pair of two characters occurs at two start positions that are at
least 2 apart: twice without overlapping. -/
def PairTwice (line : List Char) : Prop :=
  ∃ p q, p + 2 ≤ q ∧ q + 1 < line.length ∧ substr line p 2 = substr line q 2

/-- Some character repeats with exactly one character between. -/
def RepeatBetween (line : List Char) : Prop :=
  ∃ i, i + 2 < line.length ∧ (line)[i]? = (line)[i + 2]?

/-- The loop of `is_nice` without the `break`, run over the indices
`1, ..., k`. -/
def niceRun (line : List Char) (k : Nat) : NiceState :=
  (List.range' 1 k).foldl (niceStep line)
    { pair_positions := [], twice_no_overlap := false, repeat_with_inbetween := false }

/-- The position `f` is the first start position below `k` of the pair `key`. -/
def FirstAt (line : List Char) (k : Nat) (key : List Char) (f : Nat) : Prop :=
  f < k ∧ substr line f 2 = key ∧ ∀ g, g < f → substr line g 2 ≠ key

end Day05

/-! ## Day 8: the scan between the quotes -/

namespace Day08

/-- Ways in which a run of the embedding can fail. -/
inductive Fault where
  | outOfFuel
  | outOfBounds
  deriving DecidableEq, Repr

/-- Reduction of an integer to the 32-bit two's complement range of `int`. -/
def wrap32 (x : Int) : Int := (x + 2147483648) % 4294967296 - 2147483648

/-- Reduction of a natural number to the range of `size_t` (64 bits). -/
def wrap64 (x : Nat) : Nat := x % 18446744073709551616

/-- The variables of the scan of one line (lines 66-80 of
`src/2015/day08/main.cpp`): the position `i` and the two counters the loop
updates. -/
structure ScanState where
  i : Nat
  total_in_memory : Int
  total_to_encode : Int
  deriving DecidableEq, Repr

/-- The value `line.size() - 1` of the loop condition (line 67), computed in
`size_t`: for the empty line it wraps to `2^64 - 1`. -/
def lastIndex (line : List Char) : Nat := wrap64 (line.length + 18446744073709551616 - 1)

/-- The body of the loop (lines 68-79) in the state `st`; a read outside the
line is `none`. A backslash followed by a character other than a backslash, a
quote and `x` takes none of the branches that advance `i`. -/
def scanBody (line : List Char) (st : ScanState) : Option ScanState :=
  match (line)[st.i]? with
  | none => none
  | some c =>
    if c = '\\' then
      match (line)[wrap64 (st.i + 1)]? with
      | none => none
      | some d =>
        if d = '\\' ∨ d = '"' then
          some { i := wrap64 (st.i + 2),
                 total_in_memory := wrap32 (st.total_in_memory + 1),
                 total_to_encode := wrap32 (st.total_to_encode + 2) }
        else if d = 'x' then
          some { i := wrap64 (st.i + 4),
                 total_in_memory := wrap32 (st.total_in_memory + 1),
                 total_to_encode := wrap32 (st.total_to_encode + 1) }
        else
          some { i := st.i,
                 total_in_memory := wrap32 (st.total_in_memory + 1),
                 total_to_encode := st.total_to_encode }
    else
      some { i := wrap64 (st.i + 1),
             total_in_memory := wrap32 (st.total_in_memory + 1),
             total_to_encode := st.total_to_encode }

/-- The loop `while (i < line.size() - 1)` (lines 67-80), driven by a fuel
argument: each iteration uses one unit. -/
def scan : Nat → List Char → ScanState → Except Fault ScanState
  | 0, _, _ => .error .outOfFuel
  | fuel + 1, line, st =>
    if st.i < lastIndex line then
      match scanBody line st with
      | none => .error .outOfBounds
      | some st' => scan fuel line st'
    else .ok st

/-- The position `p` of the line holds a backslash that is followed by a
character other than a backslash, a quote and `x`. -/
def Stray (line : List Char) (p : Nat) : Prop :=
  (line)[p]? = some '\\' ∧ ∃ d, (line)[p + 1]? = some d ∧ d ≠ '\\' ∧ d ≠ '"' ∧ d ≠ 'x'

/-- The four characters of the line `"\a"`: a quote, a backslash, the letter
`a` and a quote. -/
def strayLine : List Char := ['"', '\\', 'a', '"']

/-- The nine characters of the line `"\\b\x41"`: between the quotes an escaped
backslash, the letter `b` and a hexadecimal escape. -/
def escapedLine : List Char := ['"', '\\', '\\', 'b', '\\', 'x', '4', '1', '"']

end Day08

namespace Day09

/-! ## Tables: reads and writes inside the bounds -/

theorem wrap32_eq_self {x : Int} (h1 : INT_MIN ≤ x) (h2 : x ≤ INT_MAX) : wrap32 x = x := by
  unfold wrap32
  unfold INT_MIN at h1
  unfold INT_MAX at h2
  omega

theorem Table.read_eq_get {R C : Nat} {t : Table} (h : Table.Dims R C t) {r c : Nat}
    (hr : r < R) (hc : c < C) : t.read r c = .ok (t.get r c) := by
  obtain ⟨hlen, hrows⟩ := h
  have hr' : r < t.length := by omega
  have hrow : (t[r]).length = C := hrows _ (List.getElem_mem hr')
  have hc' : c < (t[r]).length := by omega
  simp [Table.read, Table.get, List.getElem?_eq_getElem hr', List.getElem?_eq_getElem hc',
    List.getD_eq_getElem _ _ hr', List.getD_eq_getElem _ _ hc']

theorem Table.write_spec {R C : Nat} {t : Table} (h : Table.Dims R C t) {r c : Nat}
    (hr : r < R) (hc : c < C) (v : Int) :
    ∃ t', t.write r c v = .ok t' ∧ Table.Dims R C t' ∧ t'.get r c = v ∧
      ∀ r' c', (r' ≠ r ∨ c' ≠ c) → t'.get r' c' = t.get r' c' := by
  obtain ⟨hlen, hrows⟩ := h
  have hr' : r < t.length := by omega
  have hrow : (t[r]).length = C := hrows _ (List.getElem_mem hr')
  have hc' : c < (t[r]).length := by omega
  refine ⟨t.set r ((t[r]).set c v), ?_, ⟨?_, ?_⟩, ?_, ?_⟩
  · simp [Table.write, List.getElem?_eq_getElem hr', hc']
  · simpa using hlen
  · intro row hmem
    rcases List.mem_or_eq_of_mem_set hmem with hm | rfl
    · exact hrows _ hm
    · simpa using hrow
  · simp [Table.get, List.getD_eq_getElem?_getD, List.getElem?_set, hr', hc']
  · intro r' c' hne
    simp only [Table.get, List.getD_eq_getElem?_getD, List.getElem?_set]
    by_cases hrr : r = r'
    · subst hrr
      have hcc : c ≠ c' := by
        rcases hne with h | h
        · exact absurd rfl h
        · exact fun e => h e.symm
      simp [hr', List.getElem?_eq_getElem hr', hcc]
    · simp [hrr]

theorem Table.filled_dims (R C : Nat) (v : Int) : Table.Dims R C (Table.filled R C v) := by
  constructor
  · simp [Table.filled]
  · intro row hrow
    simp only [Table.filled] at hrow
    rw [List.eq_of_mem_replicate hrow]
    simp

theorem Table.filled_get {R C : Nat} (v : Int) {r c : Nat} (hr : r < R) (hc : c < C) :
    (Table.filled R C v).get r c = v := by
  simp [Table.filled, Table.get, List.getD_eq_getElem?_getD, List.getElem?_replicate, hr, hc]

/-! ## Visit masks -/

theorem and_bit_eq_zero_iff (mask i : Nat) :
    mask &&& (1 <<< i) = 0 ↔ mask.testBit i = false := by
  constructor
  · intro h
    have h2 := congrArg (fun x => Nat.testBit x i) h
    simpa [Nat.testBit_and, Nat.one_shiftLeft, Nat.testBit_two_pow] using h2
  · intro h
    apply Nat.eq_of_testBit_eq
    intro j
    simp only [Nat.testBit_and, Nat.one_shiftLeft, Nat.testBit_two_pow, Nat.zero_testBit]
    by_cases hij : i = j
    · subst hij; simp [h]
    · simp [hij]

theorem testBit_or_bit (mask i j : Nat) :
    (mask ||| (1 <<< i)).testBit j = (mask.testBit j || decide (i = j)) := by
  simp [Nat.testBit_or, Nat.one_shiftLeft, Nat.testBit_two_pow]

theorem or_bit_lt {n mask i : Nat} (hm : mask < 2 ^ n) (hi : i < n) :
    mask ||| (1 <<< i) < 2 ^ n := by
  apply Nat.or_lt_two_pow hm
  rw [Nat.one_shiftLeft]
  exact Nat.pow_lt_pow_right (by decide) hi

theorem full_mask_testBit {n : Nat} (v : Nat) (hv : v < n) :
    ((1 <<< n) - 1).testBit v = true := by
  rw [Nat.one_shiftLeft, Nat.testBit_two_pow_sub_one]
  simpa using hv

theorem exists_clear_of_ne_full {n mask : Nat} (hm : mask < 2 ^ n)
    (hne : mask ≠ (1 <<< n) - 1) : ∃ v, v < n ∧ mask.testBit v = false := by
  by_contra hcon
  apply hne
  apply Nat.eq_of_testBit_eq
  intro j
  rw [Nat.one_shiftLeft, Nat.testBit_two_pow_sub_one]
  by_cases hj : j < n
  · have : mask.testBit j = true := by
      by_contra hb
      exact hcon ⟨j, hj, by simpa using hb⟩
    simp [this, hj]
  · have hle : n ≤ j := Nat.le_of_not_lt hj
    have : mask < 2 ^ j := Nat.lt_of_lt_of_le hm (Nat.pow_le_pow_right (by decide) hle)
    simp [Nat.testBit_lt_two_pow this, hj]

theorem clearBits_le (n mask : Nat) : clearBits n mask ≤ n := by
  induction n with
  | zero => simp [clearBits]
  | succ k ih =>
    simp only [clearBits]
    split <;> omega

theorem clearBits_lt_of_testBit {n mask i : Nat} (hi : i < n) (hb : mask.testBit i = true) :
    clearBits n mask < n := by
  induction n with
  | zero => omega
  | succ k ih =>
    simp only [clearBits]
    by_cases hik : i = k
    · subst hik
      have := clearBits_le i mask
      simp [hb]
      omega
    · have := ih (by omega)
      split <;> omega

theorem clearBits_or_bit_le (n mask i : Nat) :
    clearBits n (mask ||| (1 <<< i)) ≤ clearBits n mask := by
  induction n with
  | zero => simp [clearBits]
  | succ k ih =>
    simp only [clearBits, testBit_or_bit]
    by_cases h2 : i = k
    · subst h2
      by_cases h1 : mask.testBit i = true <;> simp [h1] <;> omega
    · by_cases h1 : mask.testBit k = true <;> simp [h1, h2] <;> omega

theorem clearBits_or_bit_lt {n mask i : Nat} (hi : i < n) (hb : mask.testBit i = false) :
    clearBits n (mask ||| (1 <<< i)) < clearBits n mask := by
  induction n with
  | zero => omega
  | succ k ih =>
    simp only [clearBits, testBit_or_bit]
    by_cases hik : i = k
    · subst hik
      have := clearBits_or_bit_le i mask i
      simp [hb]
      omega
    · have := ih (by omega)
      by_cases h1 : mask.testBit k = true <;> simp [h1, hik] <;> omega

theorem validState_root {n s : Nat} (hs : s < n) : ValidState n (1 <<< s) s := by
  refine ⟨?_, hs, ?_⟩
  · rw [Nat.one_shiftLeft]
    exact Nat.pow_lt_pow_right (by decide) hs
  · simp [Nat.one_shiftLeft, Nat.testBit_two_pow]

theorem validState_step {n mask current i : Nat} (h : ValidState n mask current) (hi : i < n) :
    ValidState n (mask ||| (1 <<< i)) i :=
  ⟨or_bit_lt h.1 hi, hi, by simp [testBit_or_bit]⟩

/-! ## Paths and completions -/

theorem pathCost_nonneg {n : Nat} {dist : Table} (h : MinInput n dist) :
    ∀ p : List Nat, p.Nodup → (∀ v ∈ p, v < n) → IsPath dist p → 0 ≤ pathCost dist p
  | [], _, _, _ => by simp [pathCost]
  | [_], _, _, _ => by simp [pathCost]
  | a :: b :: rest, hnd, hlt, hp => by
    have hab : a ≠ b := by
      intro e
      subst e
      simp at hnd
    have h1 : 0 ≤ dist.get a b :=
      h.nonneg a (hlt a (by simp)) b (hlt b (by simp)) hab hp.1
    have h2 : 0 ≤ pathCost dist (b :: rest) :=
      pathCost_nonneg h (b :: rest) (List.nodup_cons.mp hnd).2
        (fun v hv => hlt v (List.mem_cons_of_mem _ hv)) hp.2
    simp only [pathCost]
    omega

theorem completion_simple {n : Nat} {dist : Table} {mask current : Nat} {p : List Nat}
    (hv : ValidState n mask current) (hc : Completion n dist mask current p) :
    (current :: p).Nodup ∧ (∀ v ∈ current :: p, v < n) := by
  obtain ⟨hnd, hmem, _⟩ := hc
  constructor
  · refine List.nodup_cons.mpr ⟨?_, hnd⟩
    intro hin
    have := ((hmem current).mp hin).2
    rw [hv.2.2] at this
    exact Bool.noConfusion this
  · intro v hvm
    rcases List.mem_cons.mp hvm with rfl | hvp
    · exact hv.2.1
    · exact ((hmem v).mp hvp).1

theorem completion_cost_nonneg {n : Nat} {dist : Table} (h : MinInput n dist)
    {mask current : Nat} {p : List Nat}
    (hv : ValidState n mask current) (hc : Completion n dist mask current p) :
    0 ≤ pathCost dist (current :: p) :=
  pathCost_nonneg h _ (completion_simple hv hc).1 (completion_simple hv hc).2 hc.2.2

theorem completion_cost_lt {n : Nat} {dist : Table} (h : MinInput n dist)
    {mask current : Nat} {p : List Nat}
    (hv : ValidState n mask current) (hc : Completion n dist mask current p) :
    pathCost dist (current :: p) < INT_MAX :=
  h.bound _ (completion_simple hv hc).1 (completion_simple hv hc).2 hc.2.2

theorem completion_cons_iff (n : Nat) (dist : Table) (mask current i : Nat) (p : List Nat) :
    Completion n dist mask current (i :: p) ↔
      (i < n ∧ mask.testBit i = false) ∧ dist.get current i ≠ INT_MAX ∧
        Completion n dist (mask ||| (1 <<< i)) i p := by
  constructor
  · rintro ⟨hnd, hmem, hpath⟩
    obtain ⟨hnotin, hnd'⟩ := List.nodup_cons.mp hnd
    have hi := (hmem i).mp (by simp)
    refine ⟨hi, hpath.1, hnd', ?_, hpath.2⟩
    intro v
    rw [testBit_or_bit]
    constructor
    · intro hvp
      have := (hmem v).mp (List.mem_cons_of_mem _ hvp)
      have hne : i ≠ v := fun e => hnotin (e ▸ hvp)
      simp [this.1, this.2, hne]
    · rintro ⟨hvn, hvb⟩
      simp only [Bool.or_eq_false_iff, decide_eq_false_iff_not] at hvb
      rcases List.mem_cons.mp ((hmem v).mpr ⟨hvn, hvb.1⟩) with e | hvp
      · exact absurd e.symm hvb.2
      · exact hvp
  · rintro ⟨hi, hedge, hnd, hmem, hpath⟩
    refine ⟨List.nodup_cons.mpr ⟨?_, hnd⟩, ?_, hedge, hpath⟩
    · intro hin
      have := ((hmem i).mp hin).2
      simp [testBit_or_bit] at this
    · intro v
      rw [List.mem_cons, hmem v, testBit_or_bit]
      constructor
      · rintro (rfl | ⟨hvn, hvb⟩)
        · exact hi
        · simp only [Bool.or_eq_false_iff] at hvb
          exact ⟨hvn, hvb.1⟩
      · rintro ⟨hvn, hvb⟩
        by_cases e : v = i
        · exact Or.inl e
        · refine Or.inr ⟨hvn, ?_⟩
          have e' : ¬ i = v := fun h => e h.symm
          simp [hvb, e']

theorem completion_nil_of_full (n : Nat) (dist : Table) (current : Nat) :
    Completion n dist ((1 <<< n) - 1) current [] := by
  refine ⟨List.nodup_nil, ?_, trivial⟩
  intro v
  constructor
  · intro h
    simp at h
  · rintro ⟨hvn, hvb⟩
    rw [full_mask_testBit v hvn] at hvb
    exact Bool.noConfusion hvb

theorem not_completion_nil {n : Nat} {dist : Table} {mask current : Nat}
    (hm : mask < 2 ^ n) (hne : mask ≠ (1 <<< n) - 1) :
    ¬ Completion n dist mask current [] := by
  rintro ⟨_, hmem, _⟩
  obtain ⟨v, hvn, hvb⟩ := exists_clear_of_ne_full hm hne
  have := (hmem v).mpr ⟨hvn, hvb⟩
  simp at this

theorem hamPathFrom_iff_completion {n : Nat} (dist : Table) {s : Nat} (hs : s < n)
    (q : List Nat) :
    HamPathFrom n dist s q ↔ ∃ p, q = s :: p ∧ Completion n dist (1 <<< s) s p := by
  have hbit : ∀ v, (1 <<< s).testBit v = decide (s = v) := by
    intro v
    simp [Nat.one_shiftLeft, Nat.testBit_two_pow]
  constructor
  · rintro ⟨hhead, hperm, hpath⟩
    cases q with
    | nil => simp at hhead
    | cons a p =>
      simp only [List.head?_cons, Option.some.injEq] at hhead
      subst hhead
      have hnd : (a :: p).Nodup := hperm.nodup_iff.mpr (List.nodup_range n)
      obtain ⟨hnotin, hnd'⟩ := List.nodup_cons.mp hnd
      refine ⟨p, rfl, hnd', ?_, hpath⟩
      intro v
      rw [hbit]
      constructor
      · intro hvp
        have hvn : v < n := List.mem_range.mp (hperm.mem_iff.mp (List.mem_cons_of_mem _ hvp))
        have hne : ¬ a = v := fun e => hnotin (e ▸ hvp)
        exact ⟨hvn, by simp [hne]⟩
      · rintro ⟨hvn, hvb⟩
        have hne : ¬ a = v := by simpa using hvb
        rcases List.mem_cons.mp (hperm.mem_iff.mpr (List.mem_range.mpr hvn)) with e | hvp
        · exact absurd e.symm hne
        · exact hvp
  · rintro ⟨p, rfl, hnd, hmem, hpath⟩
    have hnotin : s ∉ p := by
      intro hin
      have := ((hmem s).mp hin).2
      simp [hbit] at this
    refine ⟨rfl, ?_, hpath⟩
    rw [List.perm_ext_iff_of_nodup (List.nodup_cons.mpr ⟨hnotin, hnd⟩) (List.nodup_range n)]
    intro v
    rw [List.mem_cons, hmem v, hbit, List.mem_range]
    constructor
    · rintro (rfl | ⟨hvn, _⟩)
      · exact hs
      · exact hvn
    · intro hvn
      by_cases e : v = s
      · exact Or.inl e
      · refine Or.inr ⟨hvn, ?_⟩
        have e' : ¬ s = v := fun h => e h.symm
        simp [e']

/-! ## The search in minimize mode -/

theorem hkLoop_min_spec {n : Nat} {dist : Table} (h : MinInput n dist)
    (recurse : Nat → Nat → Table → Except Fault Outcome) {mask current : Nat}
    (hv : ValidState n mask current)
    (hrec : ∀ i memo, i < n → mask.testBit i = false → MemoMin n dist memo →
      ∃ r, recurse (mask ||| (1 <<< i)) i memo = .ok r ∧
        GoodMin n dist (mask ||| (1 <<< i)) i r.value ∧ MemoMin n dist r.memo) :
    ∀ (rest : List Nat) (st : Outcome), (∀ i ∈ rest, i < n) → MemoMin n dist st.memo →
      LoopMin n dist mask current rest st.value →
      ∃ st', hkLoop recurse mask current dist INT_MAX less rest st = .ok st' ∧
        MemoMin n dist st'.memo ∧ LoopMin n dist mask current [] st'.value := by
  intro rest
  induction rest with
  | nil =>
    intro st _ hm hl
    exact ⟨st, rfl, hm, hl⟩
  | cons i rest ih =>
    intro st hlt hm hl
    have hi : i < n := hlt i (by simp)
    have hlt' : ∀ j ∈ rest, j < n := fun j hj => hlt j (List.mem_cons_of_mem _ hj)
    rw [hkLoop]
    by_cases hbit : mask.testBit i = false
    · rw [if_pos ((and_bit_eq_zero_iff mask i).mpr hbit), Table.read_eq_get h.dims hv.2.1 hi]
      simp only
      by_cases hd : dist.get current i = INT_MAX
      · rw [if_neg (by simpa using hd)]
        refine ih _ hlt' (by exact hm) ?_
        rcases hl with ⟨hbest, hall⟩ | hex
        · refine Or.inl ⟨hbest, fun j p hc => ?_⟩
          rcases List.mem_cons.mp (hall j p hc) with e | hj
          · subst e
            exact absurd hd ((completion_cons_iff n dist mask current j p).mp hc).2.1
          · exact hj
        · exact Or.inr hex
      · rw [if_pos hd]
        obtain ⟨r, hr, hgood, hmemo⟩ := hrec i st.memo hi hbit hm
        have hv' : ValidState n (mask ||| (1 <<< i)) i := validState_step hv hi
        rw [hr]
        simp only
        by_cases hcond : r.value ≠ INT_MAX ∧ less r.value st.value = true
        · rw [if_pos hcond]
          refine ih _ hlt' (by exact hmemo) ?_
          rcases hgood with ⟨hmax, _⟩ | ⟨p, hp, hval⟩
          · exact absurd hmax hcond.1
          · have hc : Completion n dist mask current (i :: p) :=
              (completion_cons_iff n dist mask current i p).mpr ⟨⟨hi, hbit⟩, hd, hp⟩
            refine Or.inr ⟨i :: p, hc, ?_⟩
            have h1 := completion_cost_nonneg h hv hc
            have h2 := completion_cost_lt h hv hc
            simp only [pathCost] at h1 h2 ⊢
            simp only [addInt, hval]
            apply wrap32_eq_self
            · unfold INT_MIN; omega
            · omega
        · rw [if_neg hcond]
          refine ih _ hlt' (by exact hmemo) ?_
          rcases hl with ⟨hbest, hall⟩ | hex
          · refine Or.inl ⟨hbest, fun j p hc => ?_⟩
            rcases List.mem_cons.mp (hall j p hc) with e | hj
            · subst e
              exfalso
              have hcp := ((completion_cons_iff n dist mask current j p).mp hc).2.2
              rcases hgood with ⟨_, hnone⟩ | ⟨q, hq, hval⟩
              · exact hnone p hcp
              · have h2 := completion_cost_lt h hv' hq
                apply hcond
                rw [hbest, hval]
                exact ⟨ne_of_lt h2, by simpa [less] using h2⟩
            · exact hj
          · exact Or.inr hex
    · rw [if_neg (fun e => hbit ((and_bit_eq_zero_iff mask i).mp e))]
      apply ih st hlt' hm
      rcases hl with ⟨hbest, hall⟩ | hex
      · refine Or.inl ⟨hbest, fun j p hc => ?_⟩
        rcases List.mem_cons.mp (hall j p hc) with e | hj
        · subst e
          exact absurd ((completion_cons_iff n dist mask current j p).mp hc).1.2 hbit
        · exact hj
      · exact Or.inr hex

theorem held_karp_min_spec {n : Nat} {dist : Table} (h : MinInput n dist) :
    ∀ (fuel mask current : Nat) (memo : Table), ValidState n mask current →
      clearBits n mask < fuel → MemoMin n dist memo →
      ∃ r, held_karp fuel mask current n dist memo INT_MAX less = .ok r ∧
        GoodMin n dist mask current r.value ∧ MemoMin n dist r.memo := by
  intro fuel
  induction fuel with
  | zero =>
    intro mask current memo _ hf _
    omega
  | succ fuel ih =>
    intro mask current memo hv hf hm
    rw [held_karp]
    by_cases hfull : mask = (1 <<< n) - 1
    · rw [if_pos hfull]
      refine ⟨_, rfl, Or.inr ⟨[], ?_, by simp [pathCost]⟩, hm⟩
      rw [hfull]
      exact completion_nil_of_full n dist current
    · rw [if_neg hfull, Table.read_eq_get hm.1 hv.1 hv.2.1]
      simp only
      by_cases hknown : memo.get mask current ≠ -1
      · rw [if_pos hknown]
        exact ⟨_, rfl, hm.2 mask current hv hknown, hm⟩
      · rw [if_neg hknown]
        have hrec : ∀ i t, i < n → mask.testBit i = false → MemoMin n dist t →
            ∃ r, held_karp fuel (mask ||| (1 <<< i)) i n dist t INT_MAX less = .ok r ∧
              GoodMin n dist (mask ||| (1 <<< i)) i r.value ∧ MemoMin n dist r.memo := by
          intro i t hi hbit ht
          apply ih _ _ _ (validState_step hv hi) _ ht
          have := clearBits_or_bit_lt hi hbit
          omega
        obtain ⟨st, hst, hmemo, hloop⟩ :=
          hkLoop_min_spec h (fun m c t => held_karp fuel m c n dist t INT_MAX less) hv hrec
            (List.range n)
            { value := INT_MAX, memo := memo,
              trace := [Event.call mask current, Event.memoRead mask current] }
            (fun i hi => List.mem_range.mp hi) hm
            (Or.inl ⟨rfl, fun j p hc => List.mem_range.mpr
              ((completion_cons_iff n dist mask current j p).mp hc).1.1⟩)
        rw [hst]
        simp only
        obtain ⟨memo', hw, hdims, hget, hother⟩ :=
          Table.write_spec hmemo.1 hv.1 hv.2.1 st.value
        rw [hw]
        simp only
        have hgood : GoodMin n dist mask current st.value := by
          rcases hloop with ⟨hbest, hall⟩ | hex
          · refine Or.inl ⟨hbest, fun p hc => ?_⟩
            cases p with
            | nil => exact not_completion_nil hv.1 hfull hc
            | cons j p => simpa using hall j p hc
          · exact Or.inr hex
        refine ⟨_, rfl, hgood, hdims, ?_⟩
        intro m c hmc hne
        by_cases e : m = mask ∧ c = current
        · obtain ⟨rfl, rfl⟩ := e
          rw [hget]
          exact hgood
        · have hsame : memo'.get m c = st.memo.get m c :=
            hother m c (by
              by_contra hcon
              push_neg at hcon
              exact e hcon)
          rw [hsame] at hne ⊢
          exact hmemo.2 m c hmc hne

theorem nodup_length_le {n : Nat} {p : List Nat} (hnd : p.Nodup) (hlt : ∀ v ∈ p, v < n) :
    p.length ≤ n := by
  have hsub : p.toFinset ⊆ Finset.range n := by
    intro v hv
    exact Finset.mem_range.mpr (hlt v (List.mem_toFinset.mp hv))
  have hcard := Finset.card_le_card hsub
  rwa [List.toFinset_card_of_nodup hnd, Finset.card_range] at hcard

theorem pathCost_le_of_entries {n : Nat} {dist : Table} {B : Int} (hB : 0 ≤ B)
    (hent : ∀ a, a < n → ∀ b, b < n → dist.get a b ≠ INT_MAX → dist.get a b ≤ B) :
    ∀ p : List Nat, (∀ v ∈ p, v < n) → IsPath dist p → pathCost dist p ≤ B * p.length
  | [], _, _ => by simp [pathCost]
  | [_], _, _ => by simpa [pathCost] using hB
  | a :: b :: rest, hlt, hp => by
    have h1 : dist.get a b ≤ B := hent a (hlt a (by simp)) b (hlt b (by simp)) hp.1
    have h2 := pathCost_le_of_entries hB hent (b :: rest)
      (fun v hv => hlt v (List.mem_cons_of_mem _ hv)) hp.2
    simp only [pathCost, List.length_cons] at h2 ⊢
    push_cast at h2 ⊢
    nlinarith

/-- A matrix whose existing edges all carry distances in `[0, B]`, with
`B * n` below `INT_MAX`, is an input on which no path total reaches `INT_MAX`. -/
theorem minInput_of_entries {n : Nat} {dist : Table} (B : Int)
    (hdims : Table.Dims n n dist)
    (hent : ∀ a, a < n → ∀ b, b < n → dist.get a b ≠ INT_MAX →
      0 ≤ dist.get a b ∧ dist.get a b ≤ B)
    (hB : 0 ≤ B) (hnB : B * n < INT_MAX) : MinInput n dist where
  dims := hdims
  nonneg := fun a ha b hb _ hreal => (hent a ha b hb hreal).1
  bound := by
    intro p hnd hlt hp
    have h1 := pathCost_le_of_entries hB (fun a ha b hb hreal => (hent a ha b hb hreal).2)
      p hlt hp
    have h2 : (p.length : Int) ≤ n := by exact_mod_cast nodup_length_le hnd hlt
    have h3 : B * (p.length : Int) ≤ B * n := Int.mul_le_mul_of_nonneg_left h2 hB
    omega

theorem minInput_distChain : MinInput 3 distChain :=
  minInput_of_entries 1 (by simp [Table.Dims, distChain]) (by decide) (by decide) (by decide)

theorem perm_two_cases {order : List Nat} (h : order.Perm [0, 1]) :
    order = [0, 1] ∨ order = [1, 0] := by
  have hlen := h.length_eq
  have hnd : order.Nodup := h.nodup_iff.mpr (by decide)
  match order, hlen, h, hnd with
  | [a, b], _, h, hnd =>
    have ha : a ∈ [0, 1] := h.mem_iff.mp (by simp)
    have hb : b ∈ [0, 1] := h.mem_iff.mp (by simp)
    simp only [List.mem_cons, List.mem_singleton, List.not_mem_nil, or_false] at ha hb
    rcases ha with rfl | rfl <;> rcases hb with rfl | rfl <;> simp_all

theorem perm_three_cases {order : List Nat} (h : order.Perm [0, 1, 2]) : order ∈ orders3 := by
  have hlen := h.length_eq
  have hnd : order.Nodup := h.nodup_iff.mpr (by decide)
  match order, hlen, h, hnd with
  | [a, b, c], _, h, hnd =>
    have ha : a ∈ [0, 1, 2] := h.mem_iff.mp (by simp)
    have hb : b ∈ [0, 1, 2] := h.mem_iff.mp (by simp)
    have hc : c ∈ [0, 1, 2] := h.mem_iff.mp (by simp)
    simp only [List.mem_cons, List.mem_singleton, List.not_mem_nil, or_false] at ha hb hc
    rcases ha with rfl | rfl | rfl <;> rcases hb with rfl | rfl | rfl <;>
      rcases hc with rfl | rfl | rfl <;> simp_all [orders3]

theorem buildGraph_tripletsABC :
    buildGraph tripletsABC =
      .ok { n := 3, dist := distABC, cities := [("A", 0), ("B", 1), ("C", 2)] } := rfl

theorem no_hamPath_distNoEdge2 (s : Nat) (p : List Nat) : ¬ HamPathFrom 2 distNoEdge2 s p := by
  rintro ⟨_, hperm, hpath⟩
  have hperm' : p.Perm [0, 1] := hperm
  rcases perm_two_cases hperm' with rfl | rfl
  · exact absurd hpath (by decide)
  · exact absurd hpath (by decide)

/-! ## The search in either direction: it returns, and what it leaves alone -/

theorem Table.fill_dims {R C : Nat} {t : Table} (h : Table.Dims R C t) (C' : Nat) (v : Int) :
    Table.Dims R C' (t.fill C' v) := by
  constructor
  · simpa [Table.fill] using h.1
  · intro row hrow
    simp only [Table.fill, List.mem_map] at hrow
    obtain ⟨_, _, rfl⟩ := hrow
    simp

theorem Table.fill_get {R C : Nat} {t : Table} (h : Table.Dims R C t) {C' : Nat} (v : Int)
    {r c : Nat} (hr : r < R) (hc : c < C') : (t.fill C' v).get r c = v := by
  have hr' : r < t.length := by rw [h.1]; exact hr
  simp [Table.fill, Table.get, List.getD_eq_getElem?_getD, List.getElem?_map,
    List.getElem?_eq_getElem hr', List.getElem?_replicate, hc, hr']

theorem subMask_of_or_bit {mask i m : Nat} (h : SubMask (mask ||| (1 <<< i)) m) :
    SubMask mask m := by
  intro v hv
  apply h
  simp [testBit_or_bit, hv]

theorem hkLoop_total {n : Nat} {dist : Table} (hd : Table.Dims n n dist)
    (recurse : Nat → Nat → Table → Except Fault Outcome) {mask current : Nat}
    (init_limit : Int) (comparator : Int → Int → Bool) (hv : ValidState n mask current)
    (memo0 : Table)
    (hrec : ∀ i memo, i < n → mask.testBit i = false → Table.Dims (2 ^ n) n memo →
      ∃ r, recurse (mask ||| (1 <<< i)) i memo = .ok r ∧ Table.Dims (2 ^ n) n r.memo ∧
        ∀ m c, ¬ SubMask mask m → r.memo.get m c = memo.get m c) :
    ∀ (rest : List Nat) (st : Outcome), (∀ i ∈ rest, i < n) →
      Table.Dims (2 ^ n) n st.memo →
      (∀ m c, ¬ SubMask mask m → st.memo.get m c = memo0.get m c) →
      ∃ st', hkLoop recurse mask current dist init_limit comparator rest st = .ok st' ∧
        Table.Dims (2 ^ n) n st'.memo ∧
        ∀ m c, ¬ SubMask mask m → st'.memo.get m c = memo0.get m c := by
  intro rest
  induction rest with
  | nil =>
    intro st _ hm hf
    exact ⟨st, rfl, hm, hf⟩
  | cons i rest ih =>
    intro st hlt hm hf
    have hi : i < n := hlt i (by simp)
    have hlt' : ∀ j ∈ rest, j < n := fun j hj => hlt j (List.mem_cons_of_mem _ hj)
    rw [hkLoop]
    by_cases hbit : mask.testBit i = false
    · rw [if_pos ((and_bit_eq_zero_iff mask i).mpr hbit), Table.read_eq_get hd hv.2.1 hi]
      simp only
      by_cases hdv : dist.get current i ≠ init_limit
      · rw [if_pos hdv]
        obtain ⟨r, hr, hrd, hrf⟩ := hrec i st.memo hi hbit hm
        have hf' : ∀ m c, ¬ SubMask mask m → r.memo.get m c = memo0.get m c :=
          fun m c hmc => (hrf m c hmc).trans (hf m c hmc)
        rw [hr]
        simp only
        by_cases hcond : r.value ≠ init_limit ∧ comparator r.value st.value = true
        · rw [if_pos hcond]
          exact ih _ hlt' (by exact hrd) (by exact hf')
        · rw [if_neg hcond]
          exact ih _ hlt' (by exact hrd) (by exact hf')
      · rw [if_neg hdv]
        exact ih _ hlt' (by exact hm) (by exact hf)
    · rw [if_neg (fun e => hbit ((and_bit_eq_zero_iff mask i).mp e))]
      exact ih st hlt' hm hf

/-- In either direction, on every `n` by `n` matrix and every memo table of the
size `main` gives it, a call of `held_karp` on a valid state with enough fuel
returns; the memo keeps its size, and the entries of all masks that do not
contain the mask of the call are left as they were. -/
theorem held_karp_total {n : Nat} {dist : Table} (hd : Table.Dims n n dist)
    (init_limit : Int) (comparator : Int → Int → Bool) :
    ∀ (fuel mask current : Nat) (memo : Table), ValidState n mask current →
      clearBits n mask < fuel → Table.Dims (2 ^ n) n memo →
      ∃ r, held_karp fuel mask current n dist memo init_limit comparator = .ok r ∧
        Table.Dims (2 ^ n) n r.memo ∧
        ∀ m c, ¬ SubMask mask m → r.memo.get m c = memo.get m c := by
  intro fuel
  induction fuel with
  | zero =>
    intro mask current memo _ hf _
    omega
  | succ fuel ih =>
    intro mask current memo hv hf hm
    rw [held_karp]
    by_cases hfull : mask = (1 <<< n) - 1
    · rw [if_pos hfull]
      exact ⟨_, rfl, hm, fun _ _ _ => rfl⟩
    · rw [if_neg hfull, Table.read_eq_get hm hv.1 hv.2.1]
      simp only
      by_cases hknown : memo.get mask current ≠ -1
      · rw [if_pos hknown]
        exact ⟨_, rfl, hm, fun _ _ _ => rfl⟩
      · rw [if_neg hknown]
        have hrec : ∀ i t, i < n → mask.testBit i = false → Table.Dims (2 ^ n) n t →
            ∃ r, held_karp fuel (mask ||| (1 <<< i)) i n dist t init_limit comparator = .ok r ∧
              Table.Dims (2 ^ n) n r.memo ∧
              ∀ m c, ¬ SubMask mask m → r.memo.get m c = t.get m c := by
          intro i t hi hbit ht
          have hlt := clearBits_or_bit_lt hi hbit
          obtain ⟨r, h1, h2, h3⟩ :=
            ih (mask ||| (1 <<< i)) i t (validState_step hv hi) (by omega) ht
          exact ⟨r, h1, h2, fun m c hmc => h3 m c (fun hsub => hmc (subMask_of_or_bit hsub))⟩
        obtain ⟨st, hst, hdims, hframe⟩ :=
          hkLoop_total hd (fun m c t => held_karp fuel m c n dist t init_limit comparator)
            init_limit comparator hv memo hrec (List.range n)
            { value := init_limit, memo := memo,
              trace := [Event.call mask current, Event.memoRead mask current] }
            (fun i hi => List.mem_range.mp hi) hm (fun _ _ _ => rfl)
        rw [hst]
        simp only
        obtain ⟨memo', hw, hdims', _, hother⟩ :=
          Table.write_spec hdims hv.1 hv.2.1 st.value
        rw [hw]
        refine ⟨_, rfl, hdims', ?_⟩
        intro m c hmc
        have hne : m ≠ mask := by
          intro e
          apply hmc
          rw [e]
          exact fun _ hv => hv
        exact (hother m c (Or.inl hne)).trans (hframe m c hmc)

/-! ## The driver on a graph without edges -/

theorem hkLoop_skip {n : Nat} {dist : Table} (hd : Table.Dims n n dist)
    (recurse : Nat → Nat → Table → Except Fault Outcome) {mask current : Nat}
    (init_limit : Int) (comparator : Int → Int → Bool) (hc : current < n)
    (v0 : Int) (memo0 : Table) :
    ∀ (rest : List Nat) (st : Outcome), (∀ i ∈ rest, i < n) →
      (∀ i ∈ rest, mask.testBit i = false → dist.get current i = init_limit) →
      st.value = v0 → st.memo = memo0 →
      ∃ st', hkLoop recurse mask current dist init_limit comparator rest st = .ok st' ∧
        st'.value = v0 ∧ st'.memo = memo0 := by
  intro rest
  induction rest with
  | nil =>
    intro st _ _ h1 h2
    exact ⟨st, rfl, h1, h2⟩
  | cons i rest ih =>
    intro st hlt hskip h1 h2
    have hi : i < n := hlt i (by simp)
    have hlt' : ∀ j ∈ rest, j < n := fun j hj => hlt j (List.mem_cons_of_mem _ hj)
    have hskip' : ∀ j ∈ rest, mask.testBit j = false → dist.get current j = init_limit :=
      fun j hj => hskip j (List.mem_cons_of_mem _ hj)
    rw [hkLoop]
    by_cases hbit : mask.testBit i = false
    · rw [if_pos ((and_bit_eq_zero_iff mask i).mpr hbit), Table.read_eq_get hd hc hi]
      simp only
      rw [if_neg (fun hne => hne (hskip i (by simp) hbit))]
      exact ih _ hlt' hskip' (by exact h1) (by exact h2)
    · rw [if_neg (fun e => hbit ((and_bit_eq_zero_iff mask i).mp e))]
      exact ih st hlt' hskip' h1 h2

theorem root_ne_full {n : Nat} (hn : 2 ≤ n) (s : Nat) : (1 <<< s) ≠ (1 <<< n) - 1 := by
  intro e
  obtain ⟨v, hv, hvs⟩ : ∃ v, v < n ∧ v ≠ s := by
    by_cases h0 : s = 0
    · exact ⟨1, by omega, by omega⟩
    · exact ⟨0, by omega, fun h => h0 h.symm⟩
  have h1 := full_mask_testBit v hv
  rw [← e] at h1
  simp only [Nat.one_shiftLeft, Nat.testBit_two_pow, decide_eq_true_eq] at h1
  exact hvs h1.symm

theorem distEdgeless_get {n a b : Nat} (ha : a < n) (hb : b < n) :
    (distEdgeless n).get a b = INT_MAX :=
  Table.filled_get _ ha hb

theorem held_karp_min_edgeless {n s : Nat} (hn : 2 ≤ n) (hs : s < n) (fuel : Nat)
    (memo : Table) (hm : Table.Dims (2 ^ n) n memo) (hunk : memo.get (1 <<< s) s = -1) :
    ∃ r, held_karp (fuel + 1) (1 <<< s) s n (distEdgeless n) memo INT_MAX less = .ok r ∧
      r.value = INT_MAX ∧ Table.Dims (2 ^ n) n r.memo := by
  have hv : ValidState n (1 <<< s) s := validState_root hs
  rw [held_karp, if_neg (root_ne_full hn s), Table.read_eq_get hm hv.1 hv.2.1]
  simp only
  rw [if_neg (fun hne => hne hunk)]
  obtain ⟨st, hst, hval, hmemo⟩ :=
    hkLoop_skip (Table.filled_dims n n INT_MAX)
      (fun m c t => held_karp fuel m c n (distEdgeless n) t INT_MAX less)
      INT_MAX less hs INT_MAX memo (List.range n)
      { value := INT_MAX, memo := memo,
        trace := [Event.call (1 <<< s) s, Event.memoRead (1 <<< s) s] }
      (fun i hi => List.mem_range.mp hi)
      (fun i hi _ => distEdgeless_get hs (List.mem_range.mp hi)) rfl rfl
  rw [distEdgeless] at hst ⊢
  rw [hst]
  simp only
  obtain ⟨memo', hw, hdims, _, _⟩ :=
    Table.write_spec (hmemo ▸ hm) hv.1 hv.2.1 st.value
  rw [hw]
  exact ⟨_, rfl, hval, hdims⟩

theorem driverStep_edgeless {n s : Nat} (hn : 2 ≤ n) (hs : s < n) (st : DriverState)
    (hm : Table.Dims (2 ^ n) n st.memo) (hunk : st.memo.get (1 <<< s) s = -1)
    (hshort : st.shortest_distance = INT_MAX) :
    ∃ st', driverStep n (distEdgeless n) st s = .ok st' ∧
      st'.shortest_distance = INT_MAX ∧ Table.Dims (2 ^ n) n st'.memo ∧
      ∀ m c, m < 2 ^ n → c < n → m.testBit s = false → st'.memo.get m c = -1 := by
  obtain ⟨r1, hr1, hval, hd1⟩ := held_karp_min_edgeless hn hs n st.memo hm hunk
  have hv : ValidState n (1 <<< s) s := validState_root hs
  have hclear : clearBits n (1 <<< s) < n + 1 :=
    Nat.lt_succ_of_lt (clearBits_lt_of_testBit hs hv.2.2)
  obtain ⟨r2, hr2, hd2, hframe⟩ :=
    held_karp_total (Table.filled_dims n n INT_MAX) INT_MIN greater (n + 1) (1 <<< s) s
      (r1.memo.fill n (-1)) hv hclear (Table.fill_dims hd1 n (-1))
  rw [distEdgeless] at hr1 ⊢
  rw [driverStep, hr1]
  simp only
  rw [hr2]
  refine ⟨_, rfl, ?_, hd2, ?_⟩
  · simp [hshort, hval]
  · intro m c hmn hcn hbit
    have hnsub : ¬ SubMask (1 <<< s) m := by
      intro hsub
      rw [hsub s hv.2.2] at hbit
      exact Bool.noConfusion hbit
    exact (hframe m c hnsub).trans (Table.fill_get hd1 (-1) hmn hcn)

theorem driverLoop_edgeless {n : Nat} (hn : 2 ≤ n) :
    ∀ (order : List Nat) (st : DriverState), order.Nodup → (∀ s ∈ order, s < n) →
      Table.Dims (2 ^ n) n st.memo → (∀ s ∈ order, st.memo.get (1 <<< s) s = -1) →
      st.shortest_distance = INT_MAX →
      ∃ st', driverLoop n (distEdgeless n) order st = .ok st' ∧
        st'.shortest_distance = INT_MAX := by
  intro order
  induction order with
  | nil =>
    intro st _ _ _ _ hshort
    exact ⟨st, rfl, hshort⟩
  | cons s rest ih =>
    intro st hnd hlt hm hunk hshort
    obtain ⟨hnotin, hnd'⟩ := List.nodup_cons.mp hnd
    have hs : s < n := hlt s (by simp)
    obtain ⟨st1, hstep, hshort1, hm1, hclean⟩ :=
      driverStep_edgeless hn hs st hm (hunk s (by simp)) hshort
    rw [driverLoop, hstep]
    simp only
    refine ih st1 hnd' (fun t ht => hlt t (List.mem_cons_of_mem _ ht)) hm1 ?_ hshort1
    intro t ht
    have htn : t < n := hlt t (List.mem_cons_of_mem _ ht)
    have hne : ¬ t = s := fun e => hnotin (e ▸ ht)
    exact hclean (1 <<< t) t (validState_root htn).1 htn
      (by simp [Nat.one_shiftLeft, Nat.testBit_two_pow, hne])

theorem no_hamPath_edgeless {n : Nat} (hn : 2 ≤ n) (s : Nat) (p : List Nat) :
    ¬ HamPathFrom n (distEdgeless n) s p := by
  rintro ⟨_, hperm, hpath⟩
  have hlen : p.length = n := by simpa using hperm.length_eq
  match p, hlen, hperm, hpath with
  | [], hlen, _, _ => simp at hlen; omega
  | [_], hlen, _, _ => simp at hlen; omega
  | a :: b :: rest, _, hperm, hpath =>
    have ha : a < n := List.mem_range.mp (hperm.mem_iff.mp (by simp))
    have hb : b < n := List.mem_range.mp (hperm.mem_iff.mp (by simp))
    exact hpath.1 (distEdgeless_get ha hb)

/-! ## The events of a run -/

theorem hkLoop_trace_safe (recurse : Nat → Nat → Table → Except Fault Outcome)
    {mask current : Nat} (dist : Table) (init_limit : Int) (comparator : Int → Int → Bool)
    (hcur : mask.testBit current = true)
    (hrec : ∀ i memo r, recurse (mask ||| (1 <<< i)) i memo = .ok r → ∀ e ∈ r.trace, e.Safe) :
    ∀ (rest : List Nat) (st st' : Outcome), (∀ e ∈ st.trace, e.Safe) →
      hkLoop recurse mask current dist init_limit comparator rest st = .ok st' →
      ∀ e ∈ st'.trace, e.Safe := by
  intro rest
  induction rest with
  | nil =>
    intro st st' hst h
    rw [hkLoop] at h
    cases h
    exact hst
  | cons i rest ih =>
    intro st st' hst h
    rw [hkLoop] at h
    by_cases hbit : mask.testBit i = false
    · have hread : Event.Safe (Event.distRead current i) := by
        intro e
        rw [e, hbit] at hcur
        exact Bool.noConfusion hcur
      rw [if_pos ((and_bit_eq_zero_iff mask i).mpr hbit)] at h
      cases hd : dist.read current i with
      | error e => rw [hd] at h; cases h
      | ok d =>
        rw [hd] at h
        simp only at h
        by_cases hdv : d ≠ init_limit
        · rw [if_pos hdv] at h
          cases hr : recurse (mask ||| (1 <<< i)) i st.memo with
          | error e => rw [hr] at h; cases h
          | ok r =>
            rw [hr] at h
            simp only at h
            have hrs := hrec i st.memo r hr
            by_cases hcond : r.value ≠ init_limit ∧ comparator r.value st.value = true
            · rw [if_pos hcond] at h
              refine ih _ st' ?_ h
              intro e he
              simp only [List.mem_append, List.mem_singleton] at he
              rcases he with ((he | he) | he) | he
              · exact hst e he
              · exact he ▸ hread
              · exact hrs e he
              · exact he ▸ hread
            · rw [if_neg hcond] at h
              refine ih _ st' ?_ h
              intro e he
              simp only [List.mem_append, List.mem_singleton] at he
              rcases he with (he | he) | he
              · exact hst e he
              · exact he ▸ hread
              · exact hrs e he
        · rw [if_neg hdv] at h
          refine ih _ st' ?_ h
          intro e he
          simp only [List.mem_append, List.mem_singleton] at he
          rcases he with he | he
          · exact hst e he
          · exact he ▸ hread
    · rw [if_neg (fun e => hbit ((and_bit_eq_zero_iff mask i).mp e))] at h
      exact ih st st' hst h

/-- Whatever the matrix, the memo and the direction: in a run that starts on a
state whose mask contains `current`, every call has the bit of its `current`
set in its `mask` and every matrix read is off the diagonal. -/
theorem held_karp_trace_safe (n : Nat) (dist : Table) (init_limit : Int)
    (comparator : Int → Int → Bool) :
    ∀ (fuel mask current : Nat) (memo : Table) (r : Outcome),
      mask.testBit current = true →
      held_karp fuel mask current n dist memo init_limit comparator = .ok r →
      ∀ e ∈ r.trace, e.Safe := by
  intro fuel
  induction fuel with
  | zero =>
    intro mask current memo r _ h
    rw [held_karp] at h
    cases h
  | succ fuel ih =>
    intro mask current memo r hcur h
    have hcall : Event.Safe (Event.call mask current) := hcur
    rw [held_karp] at h
    by_cases hfull : mask = (1 <<< n) - 1
    · rw [if_pos hfull] at h
      cases h
      intro e he
      simp only [List.mem_singleton] at he
      exact he ▸ hcall
    · rw [if_neg hfull] at h
      cases hm : memo.read mask current with
      | error e => rw [hm] at h; cases h
      | ok v =>
        rw [hm] at h
        simp only at h
        by_cases hknown : v ≠ -1
        · rw [if_pos hknown] at h
          cases h
          intro e he
          simp only [List.mem_cons, List.mem_singleton, List.not_mem_nil, or_false] at he
          rcases he with he | he | he
          · exact he ▸ hcall
          · exact he ▸ trivial
          · exact he ▸ trivial
        · rw [if_neg hknown] at h
          cases hl : hkLoop (fun m c t => held_karp fuel m c n dist t init_limit comparator)
              mask current dist init_limit comparator (List.range n)
              { value := init_limit, memo := memo,
                trace := [Event.call mask current, Event.memoRead mask current] } with
          | error e => rw [hl] at h; cases h
          | ok st =>
            rw [hl] at h
            simp only at h
            have hsafe := hkLoop_trace_safe
              (fun m c t => held_karp fuel m c n dist t init_limit comparator)
              dist init_limit comparator hcur
              (fun i t r hr => ih (mask ||| (1 <<< i)) i t r (by simp [testBit_or_bit]) hr)
              (List.range n) _ st
              (by
                intro e he
                simp only [List.mem_cons, List.mem_singleton, List.not_mem_nil, or_false] at he
                rcases he with he | he
                · exact he ▸ hcall
                · exact he ▸ trivial) hl
            cases hw : st.memo.write mask current st.value with
            | error e => rw [hw] at h; cases h
            | ok memo' =>
              rw [hw] at h
              cases h
              intro e he
              simp only [List.mem_append, List.mem_singleton] at he
              rcases he with he | he
              · exact hsafe e he
              · exact he ▸ trivial

/-! ## Equal weights -/

theorem isDirection_min : IsDirection INT_MAX less := by
  intro v _ h2
  exact ⟨ne_of_lt h2, by simpa [less] using h2⟩

theorem isDirection_max : IsDirection INT_MIN greater := by
  intro v h1 _
  have h : INT_MIN < v := lt_of_lt_of_le (by decide) h1
  exact ⟨ne_of_gt h, by simpa [greater] using h⟩

theorem clearBits_or_bit_eq {n mask i : Nat} (hi : i < n) (hb : mask.testBit i = false) :
    clearBits n (mask ||| (1 <<< i)) + 1 = clearBits n mask := by
  induction n with
  | zero => omega
  | succ k ih =>
    simp only [clearBits, testBit_or_bit]
    by_cases hik : i = k
    · subst hik
      have hsame : ∀ j, j ≤ i → clearBits j (mask ||| (1 <<< i)) = clearBits j mask := by
        intro j
        induction j with
        | zero => intro _; rfl
        | succ t iht =>
          intro hle
          have hne : ¬ i = t := by omega
          simp only [clearBits, testBit_or_bit]
          rw [iht (by omega)]
          simp [hne]
      rw [hsame i (Nat.le_refl i)]
      simp [hb]
    · have := ih (by omega)
      by_cases h1 : mask.testBit k = true <;> simp [h1, hik] <;> omega

theorem clearBits_full_le (n k : Nat) (hk : k ≤ n) : clearBits k ((1 <<< n) - 1) = 0 := by
  induction k with
  | zero => rfl
  | succ t ih =>
    simp only [clearBits]
    rw [ih (by omega), full_mask_testBit t (by omega)]
    simp

theorem clearBits_root {n s : Nat} (hs : s < n) : clearBits n (1 <<< s) + 1 = n := by
  have hzero : ∀ k, clearBits k 0 = k := by
    intro k
    induction k with
    | zero => rfl
    | succ t ih => simp [clearBits, ih]
  have h := @clearBits_or_bit_eq n 0 s hs (by simp)
  rw [hzero, Nat.zero_or] at h
  exact h

theorem uniform_weight_lt {n : Nat} {w : Int} {dist : Table} (h : UniformInput n w dist)
    (hn : 2 ≤ n) : w < INT_MAX := by
  have h1 := h.bound
  have h2 := h.nonneg
  have h3 : (1 : Int) ≤ (n : Int) - 1 := by omega
  nlinarith

theorem uniform_value_bounds {n : Nat} {w : Int} {dist : Table} (h : UniformInput n w dist)
    {k : Nat} (hk : k + 1 ≤ n) : 0 ≤ (k : Int) * w ∧ (k : Int) * w < INT_MAX := by
  have h1 := h.bound
  have h2 := h.nonneg
  have h3 : (k : Int) ≤ (n : Int) - 1 := by omega
  have h4 : (k : Int) * w ≤ ((n : Int) - 1) * w := Int.mul_le_mul_of_nonneg_right h3 h2
  have h5 : 0 ≤ (k : Int) * w := Int.mul_nonneg (by omega) h2
  exact ⟨h5, by omega⟩

theorem hkLoop_uniform {n : Nat} {w : Int} {dist : Table} (h : UniformInput n w dist)
    {init_limit : Int} {comparator : Int → Int → Bool} (hdir : IsDirection init_limit comparator)
    (recurse : Nat → Nat → Table → Except Fault Outcome) {mask current : Nat}
    (hv : ValidState n mask current)
    (hrec : ∀ i memo, i < n → mask.testBit i = false → MemoUniform n w memo →
      ∃ r, recurse (mask ||| (1 <<< i)) i memo = .ok r ∧
        r.value = (clearBits n (mask ||| (1 <<< i)) : Int) * w ∧ MemoUniform n w r.memo) :
    ∀ (rest : List Nat) (st : Outcome), (∀ i ∈ rest, i < n) → MemoUniform n w st.memo →
      ((st.value = init_limit ∧ ∀ i, i < n → mask.testBit i = false → i ∈ rest) ∨
        st.value = (clearBits n mask : Int) * w) →
      ∃ st', hkLoop recurse mask current dist init_limit comparator rest st = .ok st' ∧
        MemoUniform n w st'.memo ∧
        ((st'.value = init_limit ∧ ∀ i, i < n → mask.testBit i = false → i ∈ []) ∨
          st'.value = (clearBits n mask : Int) * w) := by
  intro rest
  induction rest with
  | nil =>
    intro st _ hm hl
    exact ⟨st, rfl, hm, hl⟩
  | cons i rest ih =>
    intro st hlt hm hl
    have hi : i < n := hlt i (by simp)
    have hlt' : ∀ j ∈ rest, j < n := fun j hj => hlt j (List.mem_cons_of_mem _ hj)
    rw [hkLoop]
    by_cases hbit : mask.testBit i = false
    · have hne : current ≠ i := by
        intro e
        rw [← e, hv.2.2] at hbit
        exact Bool.noConfusion hbit
      have hn2 : 2 ≤ n := by
        have := hv.2.1
        omega
      have hw : dist.get current i = w := h.entries current hv.2.1 i hi hne
      have hwdir := hdir w h.nonneg (uniform_weight_lt h hn2)
      rw [if_pos ((and_bit_eq_zero_iff mask i).mpr hbit), Table.read_eq_get h.dims hv.2.1 hi, hw]
      simp only
      rw [if_pos hwdir.1]
      obtain ⟨r, hr, hval, hmemo⟩ := hrec i st.memo hi hbit hm
      have hk := clearBits_or_bit_eq hi hbit
      have hkn := clearBits_lt_of_testBit hv.2.1 hv.2.2
      have hb := uniform_value_bounds h (k := clearBits n (mask ||| (1 <<< i))) (by omega)
      have hb2 := uniform_value_bounds h (k := clearBits n mask) (by omega)
      have hrdir := hdir r.value (hval ▸ hb.1) (hval ▸ hb.2)
      rw [hr]
      simp only
      by_cases hcond : r.value ≠ init_limit ∧ comparator r.value st.value = true
      · rw [if_pos hcond]
        refine ih _ hlt' (by exact hmemo) (Or.inr ?_)
        have hsum : w + r.value = (clearBits n mask : Int) * w := by
          rw [hval, ← hk]
          push_cast
          ring
        show addInt w r.value = _
        rw [addInt, hsum]
        apply wrap32_eq_self
        · have : INT_MIN ≤ 0 := by decide
          omega
        · omega
      · rw [if_neg hcond]
        refine ih _ hlt' (by exact hmemo) ?_
        rcases hl with ⟨hbest, _⟩ | hdone
        · exfalso
          apply hcond
          rw [hbest]
          exact hrdir
        · exact Or.inr hdone
    · rw [if_neg (fun e => hbit ((and_bit_eq_zero_iff mask i).mp e))]
      refine ih st hlt' hm ?_
      rcases hl with ⟨hbest, hall⟩ | hdone
      · refine Or.inl ⟨hbest, fun j hj hjb => ?_⟩
        rcases List.mem_cons.mp (hall j hj hjb) with e | hjr
        · exact absurd (e ▸ hjb) hbit
        · exact hjr
      · exact Or.inr hdone

/-- On a graph with equal weights, in either direction and with any memo whose
known entries are right, the value of a state is the number of unvisited
locations times the weight. -/
theorem held_karp_uniform {n : Nat} {w : Int} {dist : Table} (h : UniformInput n w dist)
    {init_limit : Int} {comparator : Int → Int → Bool}
    (hdir : IsDirection init_limit comparator) :
    ∀ (fuel mask current : Nat) (memo : Table), ValidState n mask current →
      clearBits n mask < fuel → MemoUniform n w memo →
      ∃ r, held_karp fuel mask current n dist memo init_limit comparator = .ok r ∧
        r.value = (clearBits n mask : Int) * w ∧ MemoUniform n w r.memo := by
  intro fuel
  induction fuel with
  | zero =>
    intro mask current memo _ hf _
    omega
  | succ fuel ih =>
    intro mask current memo hv hf hm
    rw [held_karp]
    by_cases hfull : mask = (1 <<< n) - 1
    · rw [if_pos hfull]
      refine ⟨_, rfl, ?_, hm⟩
      rw [hfull, clearBits_full_le n n (Nat.le_refl n)]
      simp
    · rw [if_neg hfull, Table.read_eq_get hm.1 hv.1 hv.2.1]
      simp only
      by_cases hknown : memo.get mask current ≠ -1
      · rw [if_pos hknown]
        exact ⟨_, rfl, hm.2 mask current hv hknown, hm⟩
      · rw [if_neg hknown]
        have hrec : ∀ i t, i < n → mask.testBit i = false → MemoUniform n w t →
            ∃ r, held_karp fuel (mask ||| (1 <<< i)) i n dist t init_limit comparator = .ok r ∧
              r.value = (clearBits n (mask ||| (1 <<< i)) : Int) * w ∧
              MemoUniform n w r.memo := by
          intro i t hi hbit ht
          have := clearBits_or_bit_lt hi hbit
          exact ih _ _ _ (validState_step hv hi) (by omega) ht
        obtain ⟨st, hst, hmemo, hloop⟩ :=
          hkLoop_uniform h hdir
            (fun m c t => held_karp fuel m c n dist t init_limit comparator) hv hrec
            (List.range n)
            { value := init_limit, memo := memo,
              trace := [Event.call mask current, Event.memoRead mask current] }
            (fun i hi => List.mem_range.mp hi) hm
            (Or.inl ⟨rfl, fun i hi _ => List.mem_range.mpr hi⟩)
        rw [hst]
        simp only
        obtain ⟨memo', hw, hdims, hget, hother⟩ :=
          Table.write_spec hmemo.1 hv.1 hv.2.1 st.value
        rw [hw]
        simp only
        have hval : st.value = (clearBits n mask : Int) * w := by
          rcases hloop with ⟨_, hall⟩ | hdone
          · obtain ⟨v, hvn, hvb⟩ := exists_clear_of_ne_full hv.1 hfull
            exact absurd (hall v hvn hvb) (List.not_mem_nil v)
          · exact hdone
        refine ⟨_, rfl, hval, hdims, ?_⟩
        intro m c hmc hne
        by_cases e : m = mask ∧ c = current
        · obtain ⟨rfl, rfl⟩ := e
          rw [hget]
          exact hval
        · have hsame : memo'.get m c = st.memo.get m c :=
            hother m c (by
              by_contra hcon
              push_neg at hcon
              exact e hcon)
          rw [hsame] at hne ⊢
          exact hmemo.2 m c hmc hne

theorem memoUniform_fill {n : Nat} (w : Int) {memo : Table}
    (hm : Table.Dims (2 ^ n) n memo) : MemoUniform n w (memo.fill n (-1)) := by
  refine ⟨Table.fill_dims hm n (-1), ?_⟩
  intro m c hmc hne
  exact absurd (Table.fill_get hm (-1) hmc.1 hmc.2.1) hne

theorem memoUniform_fresh (n : Nat) (w : Int) : MemoUniform n w (freshMemo n) := by
  refine ⟨?_, ?_⟩
  · rw [freshMemo, Nat.one_shiftLeft]
    exact Table.filled_dims _ _ _
  · intro m c hmc hne
    exfalso
    apply hne
    rw [freshMemo, Nat.one_shiftLeft]
    exact Table.filled_get _ hmc.1 hmc.2.1

theorem driverStep_uniform {n : Nat} {w : Int} {dist : Table} (h : UniformInput n w dist)
    {s : Nat} (hs : s < n) (st : DriverState) (hm : MemoUniform n w st.memo) :
    ∃ st', driverStep n dist st s = .ok st' ∧
      st'.shortest_distance = min st.shortest_distance (((n : Int) - 1) * w) ∧
      st'.longest_distance = max st.longest_distance (((n : Int) - 1) * w) ∧
      MemoUniform n w st'.memo := by
  have hv : ValidState n (1 <<< s) s := validState_root hs
  have hroot := clearBits_root hs
  have hclear : clearBits n (1 <<< s) < n + 1 := by omega
  have hcast : (clearBits n (1 <<< s) : Int) * w = ((n : Int) - 1) * w := by
    have : (clearBits n (1 <<< s) : Int) = (n : Int) - 1 := by omega
    rw [this]
  obtain ⟨r1, hr1, hv1, hm1⟩ :=
    held_karp_uniform h isDirection_min (n + 1) (1 <<< s) s st.memo hv hclear hm
  obtain ⟨r2, hr2, hv2, hm2⟩ :=
    held_karp_uniform h isDirection_max (n + 1) (1 <<< s) s (r1.memo.fill n (-1)) hv hclear
      (memoUniform_fill w hm1.1)
  rw [driverStep, hr1]
  simp only
  rw [hr2]
  exact ⟨_, rfl, by rw [hv1, hcast], by rw [hv2, hcast], hm2⟩

theorem driverLoop_uniform {n : Nat} {w : Int} {dist : Table} (h : UniformInput n w dist) :
    ∀ (order : List Nat) (st : DriverState), (∀ s ∈ order, s < n) → MemoUniform n w st.memo →
      ∃ st', driverLoop n dist order st = .ok st' ∧
        (order ≠ [] →
          st'.shortest_distance = min st.shortest_distance (((n : Int) - 1) * w) ∧
          st'.longest_distance = max st.longest_distance (((n : Int) - 1) * w)) := by
  intro order
  induction order with
  | nil =>
    intro st _ _
    exact ⟨st, rfl, fun hne => absurd rfl hne⟩
  | cons s rest ih =>
    intro st hlt hm
    obtain ⟨st1, hstep, hs1, hl1, hm1⟩ := driverStep_uniform h (hlt s (by simp)) st hm
    obtain ⟨st2, hloop, hrest⟩ :=
      ih st1 (fun t ht => hlt t (List.mem_cons_of_mem _ ht)) hm1
    rw [driverLoop, hstep]
    simp only
    refine ⟨st2, hloop, fun _ => ?_⟩
    by_cases hnil : rest = []
    · subst hnil
      rw [driverLoop] at hloop
      cases hloop
      exact ⟨hs1, hl1⟩
    · obtain ⟨hs2, hl2⟩ := hrest hnil
      rw [hs2, hl2, hs1, hl1, min_assoc, min_self, max_assoc, max_self]
      exact ⟨rfl, rfl⟩

/-! ## The memo table is transparent -/

theorem hkLoop_ref {n : Nat} {dist : Table} (hd : Table.Dims n n dist)
    {init_limit : Int} {comparator : Int → Int → Bool}
    (recurse : Nat → Nat → Table → Except Fault Outcome) (pure : Nat → Nat → Int)
    {mask current : Nat} (hcur : current < n)
    (hrec : ∀ i memo, i < n → mask.testBit i = false →
      MemoRef n dist init_limit comparator memo →
      ∃ r, recurse (mask ||| (1 <<< i)) i memo = .ok r ∧
        r.value = pure (mask ||| (1 <<< i)) i ∧ MemoRef n dist init_limit comparator r.memo) :
    ∀ (rest : List Nat) (st : Outcome), (∀ i ∈ rest, i < n) →
      MemoRef n dist init_limit comparator st.memo →
      ∃ st', hkLoop recurse mask current dist init_limit comparator rest st = .ok st' ∧
        st'.value = pureLoop pure mask current dist init_limit comparator rest st.value ∧
        MemoRef n dist init_limit comparator st'.memo := by
  intro rest
  induction rest with
  | nil =>
    intro st _ hm
    exact ⟨st, rfl, rfl, hm⟩
  | cons i rest ih =>
    intro st hlt hm
    have hi : i < n := hlt i (by simp)
    have hlt' : ∀ j ∈ rest, j < n := fun j hj => hlt j (List.mem_cons_of_mem _ hj)
    rw [hkLoop, pureLoop]
    by_cases hbit : mask.testBit i = false
    · rw [if_pos ((and_bit_eq_zero_iff mask i).mpr hbit),
        if_pos ((and_bit_eq_zero_iff mask i).mpr hbit), Table.read_eq_get hd hcur hi]
      simp only
      by_cases hdv : dist.get current i ≠ init_limit
      · rw [if_pos hdv, if_pos hdv]
        obtain ⟨r, hr, hval, hmemo⟩ := hrec i st.memo hi hbit hm
        rw [hr]
        simp only
        rw [← hval]
        by_cases hcond : r.value ≠ init_limit ∧ comparator r.value st.value = true
        · rw [if_pos hcond, if_pos hcond]
          exact ih _ hlt' (by exact hmemo)
        · rw [if_neg hcond, if_neg hcond]
          exact ih _ hlt' (by exact hmemo)
      · rw [if_neg hdv, if_neg hdv]
        exact ih _ hlt' (by exact hm)
    · rw [if_neg (fun e => hbit ((and_bit_eq_zero_iff mask i).mp e)),
        if_neg (fun e => hbit ((and_bit_eq_zero_iff mask i).mp e))]
      exact ih st hlt' hm

/-- In either direction and on every matrix: with a memo whose known entries
are the memo-free values of their states, a call returns the memo-free value
of its state and leaves such a memo. -/
theorem held_karp_ref {n : Nat} {dist : Table} (hd : Table.Dims n n dist)
    (init_limit : Int) (comparator : Int → Int → Bool) :
    ∀ (fuel mask current : Nat) (memo : Table), mask < 2 ^ n → current < n →
      clearBits n mask < fuel → MemoRef n dist init_limit comparator memo →
      ∃ r, held_karp fuel mask current n dist memo init_limit comparator = .ok r ∧
        r.value = refValue n dist init_limit comparator mask current ∧
        MemoRef n dist init_limit comparator r.memo := by
  intro fuel
  induction fuel with
  | zero =>
    intro mask current memo _ _ hf _
    omega
  | succ fuel ih =>
    intro mask current memo hmask hcur hf hm
    rw [held_karp]
    by_cases hfull : mask = (1 <<< n) - 1
    · rw [if_pos hfull]
      refine ⟨_, rfl, ?_, hm⟩
      rw [refValue, pureValue, if_pos hfull]
    · rw [if_neg hfull, Table.read_eq_get hm.1 hmask hcur]
      simp only
      by_cases hknown : memo.get mask current ≠ -1
      · rw [if_pos hknown]
        exact ⟨_, rfl, hm.2 mask hmask current hcur hknown, hm⟩
      · rw [if_neg hknown]
        have hrec : ∀ i t, i < n → mask.testBit i = false →
            MemoRef n dist init_limit comparator t →
            ∃ r, held_karp fuel (mask ||| (1 <<< i)) i n dist t init_limit comparator = .ok r ∧
              r.value = pureValue (clearBits n mask) (mask ||| (1 <<< i)) i n dist
                init_limit comparator ∧
              MemoRef n dist init_limit comparator r.memo := by
          intro i t hi hbit ht
          have hk := clearBits_or_bit_eq hi hbit
          obtain ⟨r, h1, h2, h3⟩ :=
            ih (mask ||| (1 <<< i)) i t (or_bit_lt hmask hi) hi (by omega) ht
          refine ⟨r, h1, ?_, h3⟩
          rw [h2, refValue, hk]
        obtain ⟨st, hst, hval, hmemo⟩ :=
          hkLoop_ref hd (fun m c t => held_karp fuel m c n dist t init_limit comparator)
            (fun m c => pureValue (clearBits n mask) m c n dist init_limit comparator)
            hcur hrec (List.range n)
            { value := init_limit, memo := memo,
              trace := [Event.call mask current, Event.memoRead mask current] }
            (fun i hi => List.mem_range.mp hi) hm
        rw [hst]
        simp only
        obtain ⟨memo', hw, hdims, hget, hother⟩ :=
          Table.write_spec hmemo.1 hmask hcur st.value
        rw [hw]
        simp only
        have hvalue : st.value = refValue n dist init_limit comparator mask current := by
          rw [hval, refValue, pureValue, if_neg hfull]
        refine ⟨_, rfl, hvalue, hdims, ?_⟩
        intro m hm' c hc' hne
        by_cases e : m = mask ∧ c = current
        · obtain ⟨rfl, rfl⟩ := e
          rw [hget]
          exact hvalue
        · have hsame : memo'.get m c = st.memo.get m c :=
            hother m c (by
              by_contra hcon
              push_neg at hcon
              exact e hcon)
          rw [hsame] at hne ⊢
          exact hmemo.2 m hm' c hc' hne

theorem memoRef_fresh (n : Nat) (dist : Table) (init_limit : Int)
    (comparator : Int → Int → Bool) : MemoRef n dist init_limit comparator (freshMemo n) := by
  refine ⟨?_, ?_⟩
  · rw [freshMemo, Nat.one_shiftLeft]
    exact Table.filled_dims _ _ _
  · intro m hm c hc hne
    exfalso
    apply hne
    rw [freshMemo, Nat.one_shiftLeft]
    exact Table.filled_get _ hm hc

/-- From an all-unknown memo a call returns the memo-free value of its state. -/
theorem held_karp_fresh_value {n : Nat} {dist : Table} (hd : Table.Dims n n dist)
    (init_limit : Int) (comparator : Int → Int → Bool) {fuel mask current : Nat}
    (hmask : mask < 2 ^ n) (hcur : current < n) (hfuel : n < fuel) :
    valueOf (held_karp fuel mask current n dist (freshMemo n) init_limit comparator) =
      some (refValue n dist init_limit comparator mask current) := by
  have hk := clearBits_le n mask
  obtain ⟨r, hr, hval, _⟩ :=
    held_karp_ref hd init_limit comparator fuel mask current (freshMemo n) hmask hcur
      (by omega) (memoRef_fresh n dist init_limit comparator)
  rw [hr, valueOf, hval]

/-! ## The graph builder: the map `cities` -/

theorem lookup_cons_eq {β : Type} (x k : String) (v : β) (l : List (String × β)) :
    List.lookup x ((k, v) :: l) = if x = k then some v else List.lookup x l := by
  rw [List.lookup_cons]
  by_cases e : x = k
  · simp [e]
  · have : (x == k) = false := by simpa using e
    simp [this, e]

theorem lookup_isSome_iff {β : Type} (x : String) (l : List (String × β)) :
    (List.lookup x l).isSome = true ↔ x ∈ l.map Prod.fst := by
  induction l with
  | nil => simp
  | cons kv l ih =>
    obtain ⟨k, v⟩ := kv
    rw [lookup_cons_eq]
    by_cases e : x = k
    · simp [e]
    · simp [e, ih]

theorem lookup_eq_none_iff {β : Type} (x : String) (l : List (String × β)) :
    List.lookup x l = none ↔ x ∉ l.map Prod.fst := by
  rw [← lookup_isSome_iff]
  cases List.lookup x l <;> simp

theorem lookup_append_new {β : Type} (x k : String) (v : β) (l : List (String × β))
    (hk : k ∉ l.map Prod.fst) :
    List.lookup x (l ++ [(k, v)]) = if x = k then some v else List.lookup x l := by
  induction l with
  | nil => simp [lookup_cons_eq]
  | cons kv l ih =>
    obtain ⟨k', v'⟩ := kv
    have hk' : k ≠ k' := by
      intro e
      apply hk
      simp [e]
    have hkl : k ∉ l.map Prod.fst := by
      intro h
      apply hk
      simp only [List.map_cons, List.mem_cons]
      exact Or.inr h
    rw [List.cons_append, lookup_cons_eq, lookup_cons_eq, ih hkl]
    by_cases e : x = k'
    · have hne : ¬ k' = k := fun e2 => hk' e2.symm
      rw [if_pos e, e, if_neg hne, if_pos rfl]
    · simp [e]

theorem addCity_keys (st : Parsed) (x : String) :
    (addCity st x).cities.map Prod.fst =
      if x ∈ st.cities.map Prod.fst then st.cities.map Prod.fst
      else st.cities.map Prod.fst ++ [x] := by
  unfold addCity
  by_cases h : x ∈ st.cities.map Prod.fst
  · rw [if_pos ((lookup_isSome_iff x st.cities).mpr h), if_pos h]
  · rw [if_neg (fun e => h ((lookup_isSome_iff x st.cities).mp e)), if_neg h]
    simp

theorem addCity_adjacency (st : Parsed) (x : String) :
    (addCity st x).adjacency_list = st.adjacency_list := by
  unfold addCity
  split <;> rfl

theorem addCity_ok (st : Parsed) (x : String) (h : CitiesOK st) : CitiesOK (addCity st x) := by
  unfold addCity
  split
  · exact h
  · obtain ⟨h1, h2⟩ := h
    constructor
    · simp [h1]
    · simp only [List.map_append, List.map_cons, List.map_nil, List.length_append,
        List.length_singleton, h2, h1]
      rw [List.range_succ]

theorem readTriplet_keys (st : Parsed) (t : Triplet) :
    (readTriplet st t).cities.map Prod.fst =
      (addCity (addCity st t.1) t.2.1).cities.map Prod.fst := rfl

theorem readTriplet_ok (st : Parsed) (t : Triplet) (h : CitiesOK st) :
    CitiesOK (readTriplet st t) :=
  addCity_ok _ _ (addCity_ok _ _ h)

theorem mem_firstSeen (x : String) : ∀ ns : List String, x ∈ firstSeen ns ↔ x ∈ ns
  | [] => by simp [firstSeen]
  | y :: ns => by
    have ih := mem_firstSeen x ns
    simp only [firstSeen, List.mem_cons, List.mem_filter, decide_eq_true_eq, ih]
    by_cases e : x = y
    · simp [e]
    · simp [e]

theorem firstSeen_nodup : ∀ ns : List String, (firstSeen ns).Nodup
  | [] => by simp [firstSeen]
  | y :: ns => by
    have ih := firstSeen_nodup ns
    simp only [firstSeen, List.nodup_cons, List.mem_filter, decide_eq_true_eq]
    exact ⟨fun h => h.2 rfl, ih.filter _⟩

theorem keys_after_names (K : List String) :
    ∀ ns : List String,
      ns.foldl (fun K x => if x ∈ K then K else K ++ [x]) K =
        K ++ (firstSeen ns).filter (fun y => decide (y ∉ K))
  | [] => by simp [firstSeen]
  | x :: ns => by
    rw [List.foldl_cons]
    by_cases h : x ∈ K
    · rw [if_pos h, keys_after_names K ns]
      simp only [firstSeen, List.filter_cons, h, not_true_eq_false, decide_False,
        Bool.false_eq_true, if_false, List.filter_filter]
      congr 1
      apply List.filter_congr
      intro y _
      by_cases hy : y ∈ K
      · simp [hy]
      · have : y ≠ x := fun e => hy (e ▸ h)
        simp [hy, this]
    · rw [if_neg h, keys_after_names (K ++ [x]) ns]
      simp only [firstSeen, List.filter_cons, h, not_false_eq_true, decide_True, if_true,
        List.filter_filter, List.append_assoc, List.singleton_append]
      congr 2
      apply List.filter_congr
      intro y _
      by_cases hy : y ∈ K <;> by_cases hx : y = x <;> simp [hy, hx]

theorem foldl_readTriplet_keys :
    ∀ (ts : List Triplet) (st : Parsed),
      (ts.foldl readTriplet st).cities.map Prod.fst =
        (namesOf ts).foldl (fun K x => if x ∈ K then K else K ++ [x])
          (st.cities.map Prod.fst)
  | [], st => by simp [namesOf]
  | t :: ts, st => by
    rw [List.foldl_cons, foldl_readTriplet_keys ts (readTriplet st t), readTriplet_keys,
      addCity_keys, addCity_keys]
    simp only [namesOf, List.flatMap_cons, List.cons_append, List.nil_append, List.foldl_cons]

theorem foldl_readTriplet_ok :
    ∀ (ts : List Triplet) (st : Parsed), CitiesOK st → CitiesOK (ts.foldl readTriplet st)
  | [], _, h => h
  | t :: ts, st, h => by
    rw [List.foldl_cons]
    exact foldl_readTriplet_ok ts _ (readTriplet_ok st t h)

theorem readInput_keys (ts : List Triplet) :
    (readInput ts).cities.map Prod.fst = firstSeen (namesOf ts) := by
  rw [readInput, foldl_readTriplet_keys, keys_after_names]
  simp

theorem readInput_ok (ts : List Triplet) : CitiesOK (readInput ts) :=
  foldl_readTriplet_ok ts _ ⟨rfl, rfl⟩

theorem lookup_of_enumerated (x : String) :
    ∀ (l : List (String × Nat)) (s k : Nat), (l.map Prod.fst).Nodup →
      l.map Prod.snd = List.range' s l.length →
      (List.lookup x l = some k ↔ s ≤ k ∧ (l.map Prod.fst)[k - s]? = some x)
  | [], s, k, _, _ => by simp
  | (y, v) :: l, s, k, hnd, hsnd => by
    simp only [List.map_cons, List.length_cons, List.range'_succ, List.cons.injEq] at hsnd
    obtain ⟨hv, hrest⟩ := hsnd
    simp only [List.map_cons, List.nodup_cons] at hnd
    have ih := lookup_of_enumerated x l (s + 1) k hnd.2 hrest
    rw [lookup_cons_eq]
    by_cases e : x = y
    · subst e
      rw [if_pos rfl]
      constructor
      · intro h
        have : k = s := by
          rw [← hv]
          exact (Option.some.inj h).symm
        subst this
        simp
      · rintro ⟨hle, hget⟩
        by_cases hks : k = s
        · rw [hks, ← hv]
        · exfalso
          have hpos : k - s = (k - s - 1) + 1 := by omega
          rw [List.map_cons, hpos, List.getElem?_cons_succ] at hget
          exact hnd.1 (List.mem_iff_getElem?.mpr ⟨_, hget⟩)
    · rw [if_neg e, ih]
      constructor
      · rintro ⟨hle, hget⟩
        refine ⟨by omega, ?_⟩
        have hpos : k - s = (k - (s + 1)) + 1 := by omega
        rw [List.map_cons, hpos, List.getElem?_cons_succ]
        exact hget
      · rintro ⟨hle, hget⟩
        by_cases hks : k = s
        · exfalso
          rw [hks, Nat.sub_self, List.map_cons, List.getElem?_cons_zero] at hget
          exact e (Option.some.inj hget).symm
        · refine ⟨by omega, ?_⟩
          have hpos : k - s = (k - (s + 1)) + 1 := by omega
          rw [List.map_cons, hpos, List.getElem?_cons_succ] at hget
          exact hget

theorem readInput_lookup (ts : List Triplet) (x : String) (k : Nat) :
    List.lookup x (readInput ts).cities = some k ↔ (firstSeen (namesOf ts))[k]? = some x := by
  have hkeys := readInput_keys ts
  have hok := (readInput_ok ts).2
  rw [List.range_eq_range'] at hok
  have h := lookup_of_enumerated x (readInput ts).cities 0 k
    (hkeys ▸ firstSeen_nodup _) hok
  rw [h, hkeys]
  simp

/-! ## The graph builder: `adjacency_list` -/

theorem emplaceEdge_lookup (x a b : String) (d : Int) :
    ∀ adj : List (String × List (String × Int)),
      List.lookup x (emplaceEdge adj a b d) =
        if x = a then some ((List.lookup a adj).getD [] ++ [(b, d)]) else List.lookup x adj
  | [] => by
    simp only [emplaceEdge, lookup_cons_eq, List.lookup_nil, Option.getD_none, List.nil_append]
  | (k, conns) :: rest => by
    have ih := emplaceEdge_lookup x a b d rest
    simp only [emplaceEdge]
    by_cases hk : k = a
    · subst hk
      rw [if_pos rfl, lookup_cons_eq, lookup_cons_eq, lookup_cons_eq, if_pos rfl]
      by_cases e : x = k
      · simp [e]
      · simp [e]
    · rw [if_neg hk, lookup_cons_eq, ih, lookup_cons_eq, lookup_cons_eq]
      have hak : ¬ a = k := fun e => hk e.symm
      by_cases e : x = k
      · have : ¬ x = a := fun e2 => hk (e.symm.trans e2)
        simp [e, hk]
      · by_cases e2 : x = a
        · simp [e2, hak]
        · simp [e, e2]

theorem emplaceEdge_keys (a b : String) (d : Int) :
    ∀ adj : List (String × List (String × Int)),
      (emplaceEdge adj a b d).map Prod.fst =
        if a ∈ adj.map Prod.fst then adj.map Prod.fst else adj.map Prod.fst ++ [a]
  | [] => by simp [emplaceEdge]
  | (k, conns) :: rest => by
    have ih := emplaceEdge_keys a b d rest
    simp only [emplaceEdge]
    by_cases hk : k = a
    · subst hk
      simp
    · have hak : ¬ a = k := fun e => hk e.symm
      rw [if_neg hk, List.map_cons, ih]
      by_cases hin : a ∈ rest.map Prod.fst
      · simp [hin]
      · simp [hin, hak]

theorem emplaceEdge_nodup (a b : String) (d : Int) (adj : List (String × List (String × Int)))
    (h : (adj.map Prod.fst).Nodup) : ((emplaceEdge adj a b d).map Prod.fst).Nodup := by
  rw [emplaceEdge_keys]
  by_cases hin : a ∈ adj.map Prod.fst
  · rw [if_pos hin]
    exact h
  · rw [if_neg hin]
    exact List.Nodup.append h (List.nodup_singleton a) (by
      intro y hy hya
      rw [List.mem_singleton] at hya
      exact hin (hya ▸ hy))

theorem namesOf_append (ts : List Triplet) (t : Triplet) :
    namesOf (ts ++ [t]) = namesOf ts ++ [t.1, t.2.1] := by
  simp [namesOf, List.flatMap_append]

theorem connsOf_append (x : String) (ts : List Triplet) (t : Triplet) :
    connsOf x (ts ++ [t]) =
      connsOf x ts ++ ((if t.1 = x then [(t.2.1, t.2.2)] else []) ++
        (if t.2.1 = x then [(t.1, t.2.2)] else [])) := by
  simp [connsOf, List.flatMap_append]

theorem connsOf_eq_nil (x : String) :
    ∀ ts : List Triplet, x ∉ namesOf ts → connsOf x ts = []
  | [], _ => rfl
  | t :: ts, h => by
    simp only [namesOf, List.flatMap_cons, List.cons_append, List.nil_append, List.mem_cons,
      not_or] at h
    have ih := connsOf_eq_nil x ts h.2.2
    have h1 : ¬ t.1 = x := fun e => h.1 e.symm
    have h2 : ¬ t.2.1 = x := fun e => h.2.1 e.symm
    simp only [connsOf, List.flatMap_cons, if_neg h1, if_neg h2, List.nil_append]
    exact ih

theorem mem_connsOf_name (x : String) :
    ∀ (ts : List Triplet) (c : String × Int), c ∈ connsOf x ts → c.1 ∈ namesOf ts
  | [], c, h => by simp [connsOf] at h
  | t :: ts, c, h => by
    simp only [connsOf, List.flatMap_cons, List.mem_append] at h
    simp only [namesOf, List.flatMap_cons, List.cons_append, List.nil_append, List.mem_cons]
    rcases h with (h | h) | h
    · split at h
      · simp only [List.mem_singleton] at h
        exact Or.inr (Or.inl (by rw [h]))
      · simp at h
    · split at h
      · simp only [List.mem_singleton] at h
        exact Or.inl (by rw [h])
      · simp at h
    · exact Or.inr (Or.inr (mem_connsOf_name x ts c h))

theorem readInput_append (ts : List Triplet) (t : Triplet) :
    readInput (ts ++ [t]) = readTriplet (readInput ts) t := by
  simp [readInput, List.foldl_append]

theorem readTriplet_adjacency (st : Parsed) (t : Triplet) :
    (readTriplet st t).adjacency_list =
      emplaceEdge (emplaceEdge st.adjacency_list t.1 t.2.1 t.2.2) t.2.1 t.1 t.2.2 := by
  simp only [readTriplet, addCity_adjacency]

/-- After the input loop the keys of `adjacency_list` are distinct, they are
the names of the parsed lines, and each list is what the lines appended. -/
theorem readInput_adjacency (ts : List Triplet) :
    ((readInput ts).adjacency_list.map Prod.fst).Nodup ∧
    ∀ x, List.lookup x (readInput ts).adjacency_list =
      if x ∈ namesOf ts then some (connsOf x ts) else none := by
  induction ts using List.reverseRecOn with
  | nil =>
    exact ⟨List.nodup_nil, fun x => by simp [readInput, namesOf]⟩
  | append_singleton ts t ih =>
    obtain ⟨hnd, hlook⟩ := ih
    rw [readInput_append, readTriplet_adjacency]
    refine ⟨emplaceEdge_nodup _ _ _ _ (emplaceEdge_nodup _ _ _ _ hnd), fun x => ?_⟩
    have hget : ∀ a, (List.lookup a (readInput ts).adjacency_list).getD [] = connsOf a ts := by
      intro a
      rw [hlook a]
      by_cases ha : a ∈ namesOf ts
      · rw [if_pos ha]
        rfl
      · rw [if_neg ha, connsOf_eq_nil a ts ha]
        rfl
    rw [emplaceEdge_lookup, emplaceEdge_lookup, emplaceEdge_lookup, hget, hlook x,
      namesOf_append, connsOf_append]
    simp only [List.mem_append, List.mem_cons, List.mem_singleton, List.not_mem_nil, or_false]
    by_cases e1 : x = t.1 <;> by_cases e2 : x = t.2.1
    · have e3 : t.2.1 = t.1 := e2.symm.trans e1
      subst e1
      simp [e3]
    · have e2' : ¬ t.2.1 = x := fun e => e2 e.symm
      have e3 : ¬ t.2.1 = t.1 := fun e => e2 (e1.trans e.symm)
      subst e1
      simp [e3, e2]
    · have e1' : ¬ t.1 = x := fun e => e1 e.symm
      subst e2
      simp [e1, e1']
      rw [hlook]
      by_cases hx : t.2.1 ∈ namesOf ts
      · simp [hx]
      · simp [hx, connsOf_eq_nil _ ts hx]
    · have e1' : ¬ t.1 = x := fun e => e1 e.symm
      have e2' : ¬ t.2.1 = x := fun e => e2 e.symm
      simp [e1, e2, e1', e2']

/-! ## The graph builder: the last distance of a pair -/

theorem lastIn_append (c1 c2 : List (String × Int)) (y : String) :
    lastIn (c1 ++ c2) y = (lastIn c2 y).or (lastIn c1 y) := by
  simp only [lastIn, List.filter_append, List.getLast?_append]
  cases (List.filter (fun c => decide (c.1 = y)) c2).getLast? <;> simp

theorem lastIn_singleton (c : String × Int) (y : String) :
    lastIn [c] y = if c.1 = y then some c.2 else none := by
  by_cases e : c.1 = y <;> simp [lastIn, List.filter_cons, e]

theorem lastIn_nil (y : String) : lastIn [] y = none := rfl

theorem lastIn_cons_getD (c : String × Int) (rest : List (String × Int)) (y : String)
    (v : Int) :
    (lastIn (c :: rest) y).getD v = (lastIn rest y).getD (if c.1 = y then c.2 else v) := by
  have h := lastIn_append [c] rest y
  rw [List.singleton_append] at h
  rw [h, lastIn_singleton]
  cases lastIn rest y with
  | some d => simp
  | none => by_cases e : c.1 = y <;> simp [e]

theorem lastDistance_append (x y : String) (ts : List Triplet) (t : Triplet) :
    lastDistance x y (ts ++ [t]) =
      if Relates x y t then some t.2.2 else lastDistance x y ts := by
  by_cases e : Relates x y t
  · simp [lastDistance, List.filter_append, List.filter_cons, e]
  · simp [lastDistance, List.filter_append, List.filter_cons, e]

theorem lastIn_piece (x y : String) (t : Triplet) :
    lastIn ((if t.1 = x then [(t.2.1, t.2.2)] else []) ++
        (if t.2.1 = x then [(t.1, t.2.2)] else [])) y =
      if Relates x y t then some t.2.2 else none := by
  obtain ⟨f, to_, d⟩ := t
  rw [lastIn_append]
  by_cases a1 : f = x <;> by_cases a2 : to_ = x <;> by_cases b1 : f = y <;>
    by_cases b2 : to_ = y <;>
    simp_all [Relates, lastIn_singleton, lastIn_nil]

theorem lastIn_connsOf (x y : String) (ts : List Triplet) :
    lastIn (connsOf x ts) y = lastDistance x y ts := by
  induction ts using List.reverseRecOn with
  | nil => rfl
  | append_singleton ts t ih =>
    rw [connsOf_append, lastIn_append, lastIn_piece, ih, lastDistance_append]
    by_cases e : Relates x y t <;> simp [e]

theorem citiesAt_eq {cities : List (String × Nat)} {x : String} {i : Nat}
    (h : List.lookup x cities = some i) : citiesAt cities x = .ok i := by
  simp [citiesAt, h]

theorem fillRow_spec {n : Nat} {cities : List (String × Nat)}
    (hinj : ∀ x y i, List.lookup x cities = some i → List.lookup y cities = some i → x = y)
    {from_ : String} {a : Nat} (ha : List.lookup from_ cities = some a) (han : a < n) :
    ∀ (conns : List (String × Int)) (dist : Table), Table.Dims n n dist →
      (∀ c ∈ conns, ∃ j, List.lookup c.1 cities = some j ∧ j < n) →
      ∃ dist', fillRow cities from_ conns dist = .ok dist' ∧ Table.Dims n n dist' ∧
        (∀ i j, i ≠ a → dist'.get i j = dist.get i j) ∧
        (∀ y j, List.lookup y cities = some j →
          dist'.get a j = (lastIn conns y).getD (dist.get a j)) := by
  intro conns
  induction conns with
  | nil =>
    intro dist hd _
    exact ⟨dist, rfl, hd, fun _ _ _ => rfl, fun _ _ _ => rfl⟩
  | cons c rest ih =>
    intro dist hd hdom
    obtain ⟨to_, d⟩ := c
    obtain ⟨b, hb, hbn⟩ := hdom (to_, d) (by simp)
    obtain ⟨dist1, hw, hd1, hget, hother⟩ := Table.write_spec hd han hbn d
    obtain ⟨dist', hfill, hd', hrows, hrow⟩ :=
      ih dist1 hd1 (fun c hc => hdom c (List.mem_cons_of_mem _ hc))
    refine ⟨dist', ?_, hd', ?_, ?_⟩
    · rw [fillRow, citiesAt_eq ha, citiesAt_eq hb]
      simp only
      rw [hw]
      exact hfill
    · intro i j hi
      rw [hrows i j hi]
      exact hother i j (Or.inl hi)
    · intro y j hy
      rw [hrow y j hy, lastIn_cons_getD]
      congr 1
      by_cases e : to_ = y
      · subst e
        have hbj : b = j := Option.some.inj (hb.symm.trans hy)
        subst hbj
        simp [hget]
      · have hbj : b ≠ j := by
          intro e2
          subst e2
          exact e (hinj to_ y b hb hy)
        have hne : ¬ j = b := fun e2 => hbj e2.symm
        simp only [if_neg e]
        exact hother a j (Or.inr hne)

theorem fillDist_spec {n : Nat} {cities : List (String × Nat)}
    (hinj : ∀ x y i, List.lookup x cities = some i → List.lookup y cities = some i → x = y) :
    ∀ (adj : List (String × List (String × Int))) (dist : Table), Table.Dims n n dist →
      (adj.map Prod.fst).Nodup →
      (∀ kc ∈ adj, (∃ a, List.lookup kc.1 cities = some a ∧ a < n) ∧
        ∀ c ∈ kc.2, ∃ j, List.lookup c.1 cities = some j ∧ j < n) →
      ∃ dist', fillDist cities adj dist = .ok dist' ∧ Table.Dims n n dist' ∧
        ∀ x i, List.lookup x cities = some i → ∀ y j, List.lookup y cities = some j →
          dist'.get i j = (lastIn ((List.lookup x adj).getD []) y).getD (dist.get i j) := by
  intro adj
  induction adj with
  | nil =>
    intro dist hd _ _
    exact ⟨dist, rfl, hd, fun _ _ _ _ _ _ => rfl⟩
  | cons kc rest ih =>
    intro dist hd hnd hdom
    obtain ⟨k, conns⟩ := kc
    obtain ⟨⟨a, ha, han⟩, hconns⟩ := hdom (k, conns) (by simp)
    simp only [List.map_cons, List.nodup_cons] at hnd
    obtain ⟨dist1, hrow, hd1, hrows, hvals⟩ := fillRow_spec hinj ha han conns dist hd hconns
    obtain ⟨dist', hfill, hd', hrest⟩ :=
      ih dist1 hd1 hnd.2 (fun kc hkc => hdom kc (List.mem_cons_of_mem _ hkc))
    refine ⟨dist', ?_, hd', ?_⟩
    · rw [fillDist, hrow]
      exact hfill
    · intro x i hx y j hy
      rw [hrest x i hx y j hy, lookup_cons_eq]
      by_cases e : x = k
      · subst e
        have hai : a = i := Option.some.inj (ha.symm.trans hx)
        subst hai
        rw [if_pos rfl, (lookup_eq_none_iff x rest).mpr hnd.1]
        simp only [Option.getD_none, Option.getD_some, lastIn_nil]
        exact hvals y j hy
      · have hia : i ≠ a := by
          intro e2
          subst e2
          exact e (hinj x k i hx ha)
        rw [if_neg e, hrows i j hia]

theorem lookup_eq_some_iff_mem {β : Type} (x : String) (v : β) :
    ∀ l : List (String × β), (l.map Prod.fst).Nodup →
      (List.lookup x l = some v ↔ (x, v) ∈ l)
  | [], _ => by simp
  | (k, w) :: l, hnd => by
    simp only [List.map_cons, List.nodup_cons] at hnd
    have ih := lookup_eq_some_iff_mem x v l hnd.2
    rw [lookup_cons_eq, List.mem_cons]
    by_cases e : x = k
    · subst e
      rw [if_pos rfl]
      constructor
      · intro h
        exact Or.inl (by rw [Option.some.inj h])
      · rintro (h | h)
        · rw [(Prod.mk.inj h).2]
        · exact absurd (List.mem_map_of_mem Prod.fst h) hnd.1
    · rw [if_neg e, ih]
      constructor
      · exact Or.inr
      · rintro (h | h)
        · exact absurd (Prod.mk.inj h).1 e
        · exact h

theorem lookup_perm {β : Type} {l l' : List (String × β)} (hperm : l'.Perm l)
    (hnd : (l.map Prod.fst).Nodup) (x : String) : List.lookup x l' = List.lookup x l := by
  have hnd' : (l'.map Prod.fst).Nodup := (hperm.map Prod.fst).nodup_iff.mpr hnd
  apply Option.ext
  intro v
  simp only [Option.mem_def]
  rw [lookup_eq_some_iff_mem x v l' hnd', lookup_eq_some_iff_mem x v l hnd]
  exact hperm.mem_iff

theorem readInput_lookup_lt {ts : List Triplet} {x : String} {i : Nat}
    (h : List.lookup x (readInput ts).cities = some i) : i < (readInput ts).cities.length := by
  rw [readInput_lookup] at h
  have hlen : (readInput ts).cities.length = (firstSeen (namesOf ts)).length := by
    rw [← readInput_keys, List.length_map]
  rw [hlen]
  exact (List.getElem?_eq_some_iff.mp h).1

theorem readInput_lookup_inj (ts : List Triplet) (x y : String) (i : Nat)
    (hx : List.lookup x (readInput ts).cities = some i)
    (hy : List.lookup y (readInput ts).cities = some i) : x = y := by
  rw [readInput_lookup] at hx hy
  exact Option.some.inj (hx.symm.trans hy)

theorem readInput_lookup_of_name {ts : List Triplet} {x : String} (h : x ∈ namesOf ts) :
    ∃ i, List.lookup x (readInput ts).cities = some i ∧ i < (readInput ts).cities.length := by
  obtain ⟨i, hi⟩ := List.mem_iff_getElem?.mp ((mem_firstSeen x (namesOf ts)).mpr h)
  have hl := (readInput_lookup ts x i).mpr hi
  exact ⟨i, hl, readInput_lookup_lt hl⟩

theorem readInput_name_of_lookup {ts : List Triplet} {x : String} {i : Nat}
    (h : List.lookup x (readInput ts).cities = some i) : x ∈ namesOf ts := by
  rw [readInput_lookup] at h
  exact (mem_firstSeen x (namesOf ts)).mp (List.mem_iff_getElem?.mpr ⟨i, h⟩)

/-- Whatever the order in which `adjacency_list` is traversed, the builder
succeeds, `n` is the number of entries of `cities`, and the entry of two names
is the distance of the last line that relates them, else `INT_MAX`. -/
theorem buildGraphIn_spec (ts : List Triplet) (traversal : List (String × List (String × Int)))
    (hperm : traversal.Perm (readInput ts).adjacency_list) :
    ∃ g, buildGraphIn ts traversal = .ok g ∧ g.n = (readInput ts).cities.length ∧
      g.cities = (readInput ts).cities ∧ Table.Dims g.n g.n g.dist ∧
      ∀ x i, List.lookup x (readInput ts).cities = some i →
        ∀ y j, List.lookup y (readInput ts).cities = some j →
          g.dist.get i j = (lastDistance x y ts).getD INT_MAX := by
  obtain ⟨hnd, hlook⟩ := readInput_adjacency ts
  have hnd' : (traversal.map Prod.fst).Nodup := (hperm.map Prod.fst).nodup_iff.mpr hnd
  have hdom : ∀ kc ∈ traversal,
      (∃ a, List.lookup kc.1 (readInput ts).cities = some a ∧
        a < (readInput ts).cities.length) ∧
      ∀ c ∈ kc.2, ∃ j, List.lookup c.1 (readInput ts).cities = some j ∧
        j < (readInput ts).cities.length := by
    intro kc hkc
    obtain ⟨k, conns⟩ := kc
    have hmem : (k, conns) ∈ (readInput ts).adjacency_list := hperm.mem_iff.mp hkc
    have hl := (lookup_eq_some_iff_mem k conns _ hnd).mpr hmem
    rw [hlook k] at hl
    by_cases hk : k ∈ namesOf ts
    · rw [if_pos hk] at hl
      have hc : conns = connsOf k ts := (Option.some.inj hl).symm
      refine ⟨readInput_lookup_of_name hk, fun c hcm => ?_⟩
      rw [hc] at hcm
      exact readInput_lookup_of_name (mem_connsOf_name k ts c hcm)
    · rw [if_neg hk] at hl
      cases hl
  obtain ⟨dist, hfill, hd, hval⟩ :=
    fillDist_spec (readInput_lookup_inj ts) traversal
      (Table.filled (readInput ts).cities.length (readInput ts).cities.length INT_MAX)
      (Table.filled_dims _ _ _) hnd' hdom
  refine ⟨{ n := (readInput ts).cities.length, dist := dist, cities := (readInput ts).cities },
    ?_, rfl, rfl, hd, ?_⟩
  · simp only [buildGraphIn, hfill]
  · intro x i hx y j hy
    have hxn := readInput_name_of_lookup hx
    rw [hval x i hx y j hy, lookup_perm hperm hnd x, hlook x, if_pos hxn]
    simp only [Option.getD_some]
    rw [lastIn_connsOf, Table.filled_get _ (readInput_lookup_lt hx) (readInput_lookup_lt hy)]

theorem buildGraph_eq_buildGraphIn (ts : List Triplet) :
    buildGraph ts = buildGraphIn ts (readInput ts).adjacency_list := rfl

/-! ## The width of `int` -/

/-- For `k <= 30` the `int` `1 << k` of the source is the natural number
`1 <<< k` of the embedding, and it is at most `2^30`. -/
theorem shiftOne_of_le {k : Nat} (hk : k ≤ 30) :
    shiftOne k = some ((1 <<< k : Nat) : Int) ∧ ((1 <<< k : Nat) : Int) ≤ 1073741824 := by
  have h1 : (2 : Int) ^ k ≤ 2 ^ 30 := pow_le_pow_right₀ (by norm_num) hk
  have h0 : (0 : Int) < 2 ^ k := by positivity
  have hcast : ((1 <<< k : Nat) : Int) = 2 ^ k := by
    rw [Nat.one_shiftLeft]
    push_cast
    rfl
  rw [hcast]
  refine ⟨?_, by norm_num at h1 ⊢; exact h1⟩
  unfold shiftOne
  rw [if_pos (by omega), wrap32_eq_self]
  · unfold INT_MIN
    omega
  · unfold INT_MAX
    norm_num at h1
    omega

/-- The `int` `1 << 31` is `INT_MIN`: a mask with bit 31 is negative, and
`(1 << 31) - 1` leaves the range of `int`. -/
theorem shiftOne_31 : shiftOne 31 = some INT_MIN ∧ INT_MIN - 1 < INT_MIN := by
  decide

/-- From 32 on the shift is undefined. -/
theorem shiftOne_undefined {k : Nat} (hk : 32 ≤ k) : shiftOne k = none := by
  unfold shiftOne
  rw [if_neg (by omega)]

/-- For `n <= 30` the `int` `(1 << n) - 1` of line 155 is the natural number
`(1 <<< n) - 1` of the embedding. -/
theorem fullMask_of_le {n : Nat} (hn : n ≤ 30) :
    fullMask n = some (((1 <<< n) - 1 : Nat) : Int) := by
  have hpos : 0 < 1 <<< n := by
    rw [Nat.one_shiftLeft]
    exact Nat.pos_pow_of_pos n (by decide)
  have hcast : (((1 <<< n) - 1 : Nat) : Int) = ((1 <<< n : Nat) : Int) - 1 := by omega
  have hmin : INT_MIN ≤ ((1 <<< n : Nat) : Int) - 1 := by
    unfold INT_MIN
    omega
  unfold fullMask
  rw [(shiftOne_of_le hn).1]
  simp only
  rw [if_pos hmin, hcast]

/-- From 31 locations on the `int` `(1 << n) - 1` of line 155 has no defined
value: at 31 the subtraction leaves the range of `int`, from 32 on the shift
is undefined. -/
theorem fullMask_undefined {n : Nat} (hn : 31 ≤ n) : fullMask n = none := by
  rcases Nat.lt_or_ge n 32 with h | h
  · have e : n = 31 := by omega
    subst e
    decide
  · unfold fullMask
    rw [shiftOne_undefined h]

/-- For `n <= 30` the width of `int` plays no part in a call of `held_karp`. -/
theorem held_karp_int_of_le {n : Nat} (hn : n ≤ 30) (fuel mask current : Nat)
    (dist memo : Table) (init_limit : Int) (comparator : Int → Int → Bool) :
    held_karp_int fuel mask current n dist memo init_limit comparator =
      held_karp fuel mask current n dist memo init_limit comparator := by
  unfold held_karp_int
  rw [fullMask_of_le hn]

/-- From 31 locations on a call of `held_karp` has no defined result. -/
theorem held_karp_int_undefined {n : Nat} (hn : 31 ≤ n) (fuel mask current : Nat)
    (dist memo : Table) (init_limit : Int) (comparator : Int → Int → Bool) :
    held_karp_int fuel mask current n dist memo init_limit comparator =
      .error .undefinedInt := by
  unfold held_karp_int
  rw [fullMask_undefined hn]

/-- For `n <= 30` line 119 builds the memo table of `2^n` rows of `n` unknown
entries. -/
theorem makeMemo_of_le {n : Nat} (hn : n ≤ 30) : makeMemo n = .ok (freshMemo n) := by
  obtain ⟨hshift, hle⟩ := shiftOne_of_le hn
  have h0 : (0 : Int) ≤ ((1 <<< n : Nat) : Int) := Int.natCast_nonneg _
  have hmod : ((1 <<< n : Nat) : Int) % (18446744073709551616 : Int) =
      ((1 <<< n : Nat) : Int) :=
    Int.emod_eq_of_lt h0 (by omega)
  unfold makeMemo
  rw [hshift]
  simp only
  rw [hmod, if_pos (by unfold PTRDIFF_MAX; omega), Int.toNat_natCast]
  rfl

/-- At 31 locations line 119 asks for `2^64 - 2^31` rows and the constructor
throws; from 32 on the shift of line 119 is undefined. -/
theorem makeMemo_fails {n : Nat} (hn : 31 ≤ n) :
    makeMemo n = .error .lengthError ∨ makeMemo n = .error .undefinedInt := by
  rcases Nat.lt_or_ge n 32 with h | h
  · have e : n = 31 := by omega
    subst e
    exact Or.inl rfl
  · right
    unfold makeMemo
    rw [shiftOne_undefined h]

/-- Line 119 builds a memo table only for at most 30 locations: with more,
`main` does not reach the driver loop and makes no call of `held_karp`. -/
theorem makeMemo_ok_le {n : Nat} {memo : Table} (h : makeMemo n = .ok memo) : n ≤ 30 := by
  by_contra hcon
  rcases makeMemo_fails (show 31 ≤ n by omega) with e | e
  · rw [e] at h
    cases h
  · rw [e] at h
    cases h

/-- With more than 30 locations the driver does not run. -/
theorem driver_int_fails {n : Nat} (hn : 31 ≤ n) (dist : Table) (order : List Nat) :
    driver_int n dist order = .error .lengthError ∨
      driver_int n dist order = .error .undefinedInt := by
  unfold driver_int
  rcases makeMemo_fails hn with e | e
  · rw [e]
    exact Or.inl rfl
  · rw [e]
    exact Or.inr rfl

/-- For `n <= 30` the width of `int` plays no part in the driver. -/
theorem driver_int_of_le {n : Nat} (hn : n ≤ 30) (dist : Table) (order : List Nat) :
    driver_int n dist order = driver n dist order := by
  unfold driver_int driver
  rw [makeMemo_of_le hn]

/-! ## The claims -/

/-- C1 (fails on the code). On the fully connected graph B-A = 1, B-C = 1,
A-C = 5 (matrix `distBAC`, built by the builder from these lines) the driver
reports shortest = 6 and longest = 6 for each of the six root orders, although
the Hamiltonian path A, B, C (indices 1, 0, 2) has total distance 2: the
reported shortest is not the minimum over all Hamiltonian paths. -/
theorem driver_shortest_not_minimum :
    distOf [("B", "A", 1), ("B", "C", 1), ("A", "C", 5)] = some distBAC ∧
    orders3.map (fun order => answerOf (driver 3 distBAC order)) =
      List.replicate 6 (some (6, 6)) ∧
    HamPath 3 distBAC [1, 0, 2] ∧ pathCost distBAC [1, 0, 2] = 2 :=
  ⟨rfl, by decide, by decide, by decide⟩

/-- C2 (fails on the code). On the fully connected graph A-B = 1, B-C = 1,
A-C = 5 the minimize-mode call `held_karp(1 << 0, 0, 3, ...)` with an
all-unknown memo returns 6, although the Hamiltonian path 0, 1, 2 that starts
at 0 has total distance 2: the returned value is not the minimum. -/
theorem held_karp_minimize_not_minimum :
    valueOf (held_karp 4 (1 <<< 0) 0 3 distABC (freshMemo 3) INT_MAX less) = some 6 ∧
    HamPathFrom 3 distABC 0 [0, 1, 2] ∧ pathCost distABC [0, 1, 2] = 2 :=
  ⟨by decide, by decide, by decide⟩

/-- C3 (fails on the code). On the fully connected graph A-B = 1, B-C = 1,
A-C = 5 the maximize-mode call `held_karp(1 << 0, 0, 3, ...)` with an
all-unknown memo returns 2, although the Hamiltonian path 0, 2, 1 that starts
at 0 has total distance 6: the returned value is not the maximum. -/
theorem held_karp_maximize_not_maximum :
    valueOf (held_karp 4 (1 <<< 0) 0 3 distABC (freshMemo 3) INT_MIN greater) = some 2 ∧
    HamPathFrom 3 distABC 0 [0, 2, 1] ∧ pathCost distABC [0, 2, 1] = 6 :=
  ⟨by decide, by decide, by decide⟩

/-- C4. For the graph built from the triplets (A,B,1), (B,C,1), (A,C,5) in
that order, and for every order of processing the three roots, `main` computes
shortest_distance = 2 and longest_distance = 6. -/
theorem driver_ABC_scenario (order : List Nat) (h : order.Perm [0, 1, 2]) :
    answerOf (solve tripletsABC order) = some (2, 6) := by
  have hall : ∀ o ∈ orders3, answerOf (driver 3 distABC o) = some (2, 6) := by decide
  have hsolve : solve tripletsABC order = driver 3 distABC order := by
    simp only [solve, buildGraph_tripletsABC]
  rw [hsolve]
  exact hall order (perm_three_cases h)

/-- C4 at the root order C, A, B. -/
theorem driver_ABC_scenario_witness :
    answerOf (solve tripletsABC [2, 0, 1]) = some (2, 6) :=
  driver_ABC_scenario [2, 0, 1] (by decide)

/-- C5 (fails on the code). The matrix `distBAC` is the A, B, C matrix
`distABC` with the indices 0 and 1 exchanged, yet for each of the six root
orders the driver reports (2, 6) on `distABC` and (6, 6) on `distBAC`: the
result depends on how indices are assigned to locations. -/
theorem driver_depends_on_index_assignment :
    Relabelled 3 swap01 distABC distBAC ∧
    (List.range 3).map swap01 = [1, 0, 2] ∧
    orders3.map (fun order => answerOf (driver 3 distABC order)) =
      List.replicate 6 (some (2, 6)) ∧
    orders3.map (fun order => answerOf (driver 3 distBAC order)) =
      List.replicate 6 (some (6, 6)) :=
  ⟨by decide, by decide, by decide, by decide⟩

/-- C6 (fails on the code). On two locations with no edge between them no
root has a Hamiltonian path, and in either root order the driver reports
shortest = INT_MAX and longest = INT_MAX: both reported values are sentinel
integers. -/
theorem driver_no_path_reports_INT_MAX :
    (¬ ∃ s p, HamPathFrom 2 distNoEdge2 s p) ∧
    answerOf (driver 2 distNoEdge2 [0, 1]) = some (INT_MAX, INT_MAX) ∧
    answerOf (driver 2 distNoEdge2 [1, 0]) = some (INT_MAX, INT_MAX) :=
  ⟨fun ⟨s, p, h⟩ => no_hamPath_distNoEdge2 s p h, by decide, by decide⟩

/-- C6 (amended). On every graph of `2 <= n <= 30` locations (where line 119
can build the memo table) without any edge
(every matrix entry is INT_MAX, as in the scenario of two unconnected
locations) no root has a Hamiltonian path and, for every order of processing
the roots, the driver completes and the value it reports as shortest is the
minimize sentinel INT_MAX (so it is not 0); there is no separate no-path
outcome. -/
theorem driver_no_path_shortest_is_sentinel (n : Nat) (order : List Nat) (hn : 2 ≤ n)
    (hn30 : n ≤ 30) (h : order.Perm (List.range n)) :
    (∀ s p, ¬ HamPathFrom n (distEdgeless n) s p) ∧
    ∃ st, driver_int n (distEdgeless n) order = .ok st ∧ st.shortest_distance = INT_MAX ∧
      st.shortest_distance ≠ 0 := by
  rw [driver_int_of_le hn30]
  refine ⟨no_hamPath_edgeless hn, ?_⟩
  have hfresh : Table.Dims (2 ^ n) n (freshMemo n) := by
    rw [freshMemo, Nat.one_shiftLeft]
    exact Table.filled_dims _ _ _
  have hlt : ∀ s ∈ order, s < n := fun s hs => List.mem_range.mp (h.mem_iff.mp hs)
  obtain ⟨st, hst, hshort⟩ :=
    driverLoop_edgeless hn order
      { shortest_distance := INT_MAX, longest_distance := INT_MIN,
        memo := freshMemo n, calls := [] }
      (h.nodup_iff.mpr (List.nodup_range n)) hlt hfresh
      (fun s hs => by
        have hv := validState_root (hlt s hs)
        simp only [freshMemo, Nat.one_shiftLeft]
        rw [Nat.one_shiftLeft] at hv
        exact Table.filled_get _ hv.1 hv.2.1)
      rfl
  refine ⟨st, hst, hshort, ?_⟩
  rw [hshort]
  decide

/-- C6 (amended) at two locations, roots in the order 1, 0. -/
theorem driver_no_path_shortest_is_sentinel_witness :
    (∀ s p, ¬ HamPathFrom 2 (distEdgeless 2) s p) ∧
    ∃ st, driver_int 2 (distEdgeless 2) [1, 0] = .ok st ∧ st.shortest_distance = INT_MAX ∧
      st.shortest_distance ≠ 0 :=
  driver_no_path_shortest_is_sentinel 2 [1, 0] (by decide) (by decide) (by decide)

/-- C7 (amended). Minimize mode on a possibly incomplete graph of `n <= 30`
locations (where the `int` expressions of the source are defined):
when the matrix is `n` by `n`, existing edges carry non-negative distances and
no path total reaches `INT_MAX`, then for every start `s < n` and every fuel of
at least `n` the call
`held_karp(1 << s, s, n, dist, memo, INT_MAX, less)` with an all-unknown memo
returns, and the value it returns is the sentinel `INT_MAX` if and only if no
Hamiltonian path over existing edges starts at `s`. -/
theorem held_karp_minimize_sentinel_iff_no_path (n : Nat) (dist : Table) (s fuel : Nat)
    (hn30 : n ≤ 30) (hin : MinInput n dist) (hs : s < n) (hfuel : n ≤ fuel) :
    ∃ r, held_karp_int fuel (1 <<< s) s n dist (freshMemo n) INT_MAX less = .ok r ∧
      (r.value = INT_MAX ↔ ¬ ∃ p, HamPathFrom n dist s p) := by
  simp only [held_karp_int_of_le hn30]
  have hv : ValidState n (1 <<< s) s := validState_root hs
  have hfresh : MemoMin n dist (freshMemo n) := by
    constructor
    · rw [freshMemo, Nat.one_shiftLeft]
      exact Table.filled_dims _ _ _
    · intro m c hmc hne
      exfalso
      apply hne
      rw [freshMemo, Nat.one_shiftLeft]
      exact Table.filled_get _ hmc.1 hmc.2.1
  have hclear : clearBits n (1 <<< s) < fuel :=
    Nat.lt_of_lt_of_le (clearBits_lt_of_testBit hs hv.2.2) hfuel
  obtain ⟨r, hr, hgood, _⟩ :=
    held_karp_min_spec hin fuel (1 <<< s) s (freshMemo n) hv hclear hfresh
  refine ⟨r, hr, ?_⟩
  rcases hgood with ⟨hmax, hnone⟩ | ⟨p, hp, hval⟩
  · refine ⟨fun _ => ?_, fun _ => hmax⟩
    rintro ⟨q, hq⟩
    obtain ⟨p, _, hp⟩ := (hamPathFrom_iff_completion dist hs q).mp hq
    exact hnone p hp
  · have hlt := completion_cost_lt hin hv hp
    constructor
    · intro hmax
      rw [hval] at hmax
      exact absurd hmax (ne_of_lt hlt)
    · intro hno
      exact absurd ⟨s :: p, (hamPathFrom_iff_completion dist hs (s :: p)).mpr ⟨p, rfl, hp⟩⟩ hno

/-- C7 (amended) on the chain A-B = 1, B-C = 1 from the middle location B. -/
theorem held_karp_minimize_sentinel_iff_no_path_witness :
    ∃ r, held_karp_int 3 (1 <<< 1) 1 3 distChain (freshMemo 3) INT_MAX less = .ok r ∧
      (r.value = INT_MAX ↔ ¬ ∃ p, HamPathFrom 3 distChain 1 p) :=
  held_karp_minimize_sentinel_iff_no_path 3 distChain 1 3 (by decide) minInput_distChain
    (by decide) (by decide)

/-- C7 as stated fails from 31 locations on. On the graph of 31 locations
without any edge (no distance at all, so no overflow of a total) no
Hamiltonian path starts at 0, and the claim says that the call returns
`INT_MAX`; but the call `held_karp(1 << 0, 0, 31, ...)` with the all-unknown
memo has no defined result: line 155 evaluates `(1 << 31) - 1`, and `1 << 31`
is `INT_MIN`. The same on 32 locations, where the shift `1 << 32` is
undefined. -/
theorem held_karp_minimize_undefined_at_31 :
    MinInput 31 (distEdgeless 31) ∧ (¬ ∃ p, HamPathFrom 31 (distEdgeless 31) 0 p) ∧
    held_karp_int 31 (1 <<< 0) 0 31 (distEdgeless 31) (freshMemo 31) INT_MAX less =
      .error .undefinedInt ∧
    held_karp_int 32 (1 <<< 0) 0 32 (distEdgeless 32) (freshMemo 32) INT_MAX less =
      .error .undefinedInt ∧
    shiftOne 31 = some INT_MIN ∧ shiftOne 32 = none :=
  ⟨minInput_of_entries 0 (Table.filled_dims 31 31 INT_MAX)
      (fun _ ha _ hb hreal => absurd (distEdgeless_get ha hb) hreal) (le_refl 0) (by decide),
    fun ⟨p, hp⟩ => no_hamPath_edgeless (by decide) 0 p hp,
    held_karp_int_undefined (by decide) _ _ _ _ _ _ _,
    held_karp_int_undefined (by decide) _ _ _ _ _ _ _, by decide, by decide⟩

/-- C8 (fails on the code). On two locations with no edge between them (every
matrix entry is the no-edge value INT_MAX) no Hamiltonian path starts at 0,
yet the maximize-mode call `held_karp(1 << 0, 0, 2, ...)` with an all-unknown
memo returns INT_MAX, not the maximize sentinel INT_MIN. The same happens on
the matrix the builder produces from the lines A-B = 0, B-C = 0 for the start
B (index 1), from which no Hamiltonian path exists. -/
theorem held_karp_maximize_no_path_returns_INT_MAX :
    (¬ ∃ p, HamPathFrom 2 distNoEdge2 0 p) ∧
    valueOf (held_karp 3 (1 <<< 0) 0 2 distNoEdge2 (freshMemo 2) INT_MIN greater) =
      some INT_MAX ∧
    distOf tripletsZeroChain = some distZeroChain ∧
    (¬ ∃ p, HamPathFrom 3 distZeroChain 1 p) ∧
    valueOf (held_karp 4 (1 <<< 1) 1 3 distZeroChain (freshMemo 3) INT_MIN greater) =
      some INT_MAX := by
  refine ⟨fun ⟨p, h⟩ => no_hamPath_distNoEdge2 0 p h, by decide, rfl, ?_, by decide⟩
  rintro ⟨p, hhead, hperm, hpath⟩
  have hmem := perm_three_cases (show p.Perm [0, 1, 2] from hperm)
  simp only [orders3, List.mem_cons, List.mem_singleton, List.not_mem_nil, or_false] at hmem
  rcases hmem with rfl | rfl | rfl | rfl | rfl | rfl
  · exact absurd hhead (by decide)
  · exact absurd hhead (by decide)
  · exact absurd hpath (by decide)
  · exact absurd hpath (by decide)
  · exact absurd hhead (by decide)
  · exact absurd hhead (by decide)

/-- C9 (fails on the code). On the matrix the builder produces from the lines
A-B = 1, B-C = 1 (no edge between A and C), from root 0 and an all-unknown
memo, minimize mode invokes `held_karp` on the states (1,0), (3,1), (7,2) only,
while maximize mode also invokes it on (5,2) and (7,1). -/
theorem held_karp_calls_differ_between_directions :
    distOf tripletsChain = some distChain ∧
    callsOf (held_karp 4 (1 <<< 0) 0 3 distChain (freshMemo 3) INT_MAX less) =
      [(1, 0), (3, 1), (7, 2)] ∧
    callsOf (held_karp 4 (1 <<< 0) 0 3 distChain (freshMemo 3) INT_MIN greater) =
      [(1, 0), (3, 1), (7, 2), (5, 2), (7, 1)] :=
  ⟨rfl, by decide, by decide⟩

/-- C10 (fails on the code). On the graph of the single line A-B = 1 with the
roots processed in the order 0, 1, the four top-level calls of `held_karp`
start with these memo tables: all unknown for the minimize and maximize calls
of root 0, but the minimize call of root 1 starts with `memo[1][0] = 1`, the
entry written by the maximize run of root 0. -/
theorem driver_minimize_sees_maximize_memo :
    distOf [("A", "B", 1)] = some distAB ∧
    topCallsOf (driver 2 distAB [0, 1]) =
      [⟨true, 0, freshMemo 2⟩, ⟨false, 0, freshMemo 2⟩,
       ⟨true, 1, [[-1, -1], [1, -1], [-1, -1], [-1, -1]]⟩, ⟨false, 1, freshMemo 2⟩] :=
  ⟨rfl, by decide⟩


/-- C14. With a single location, `held_karp(1, 0, 1, ...)` returns 0 for every
matrix, every memo table (of any size and content), every `init_limit` and
comparator, leaving the memo as it was, and the only event of the run is the
call itself: neither the matrix nor the memo is read. The driver then computes
shortest_distance = 0 and longest_distance = 0 on every matrix. -/
theorem held_karp_single_location (fuel : Nat) (dist memo : Table) (init_limit : Int)
    (comparator : Int → Int → Bool) :
    held_karp (fuel + 1) 1 0 1 dist memo init_limit comparator =
      .ok { value := 0, memo := memo, trace := [Event.call 1 0] } ∧
    answerOf (driver 1 dist [0]) = some (0, 0) :=
  ⟨rfl, rfl⟩


/-- C15. For every `n <= 30` (which is the case whenever `main` reaches a
driver call: `makeMemo_ok_le`), every `n` by `n` matrix, every memo table of the
size `main` gives it (whatever its content), every start `s < n` and either
direction, the call `held_karp(1 << s, s, ...)` returns (fuel at least `n`),
and in the run every call of `held_karp` has the bit of its `current` set in
its `mask` and every matrix entry read is `dist[a][b]` with `a != b`: no
diagonal entry is read. -/
theorem held_karp_never_reads_diagonal (n : Nat) (dist memo : Table) (s fuel : Nat)
    (init_limit : Int) (comparator : Int → Int → Bool) (hn30 : n ≤ 30)
    (hd : Table.Dims n n dist) (hm : Table.Dims (2 ^ n) n memo) (hs : s < n)
    (hfuel : n ≤ fuel) :
    ∃ r, held_karp_int fuel (1 <<< s) s n dist memo init_limit comparator = .ok r ∧
      (∀ mask current, Event.call mask current ∈ r.trace → mask.testBit current = true) ∧
      (∀ a b, Event.distRead a b ∈ r.trace → a ≠ b) := by
  simp only [held_karp_int_of_le hn30]
  have hv : ValidState n (1 <<< s) s := validState_root hs
  have hclear : clearBits n (1 <<< s) < fuel :=
    Nat.lt_of_lt_of_le (clearBits_lt_of_testBit hs hv.2.2) hfuel
  obtain ⟨r, hr, _, _⟩ :=
    held_karp_total hd init_limit comparator fuel (1 <<< s) s memo hv hclear hm
  have hsafe := held_karp_trace_safe n dist init_limit comparator fuel (1 <<< s) s memo r
    hv.2.2 hr
  exact ⟨r, hr, fun mask current he => hsafe _ he, fun a b he => hsafe _ he⟩

/-- C15 on the A, B, C matrix from root 0 in maximize mode. -/
theorem held_karp_never_reads_diagonal_witness :
    ∃ r, held_karp_int 3 (1 <<< 0) 0 3 distABC (freshMemo 3) INT_MIN greater = .ok r ∧
      (∀ mask current, Event.call mask current ∈ r.trace → mask.testBit current = true) ∧
      (∀ a b, Event.distRead a b ∈ r.trace → a ≠ b) :=
  held_karp_never_reads_diagonal 3 distABC (freshMemo 3) 0 3 INT_MIN greater (by decide)
    (by simp [Table.Dims, distABC]) (Table.filled_dims _ _ _) (by decide) (by decide)


/-- C13 (amended). For every `1 <= n <= 30` (where line 119 can build the memo
table) and every weight `w` with `0 <= w` and
`(n - 1) * w < INT_MAX`, on every `n` by `n` matrix whose off-diagonal entries
all equal `w`, and for every order of processing the roots, the driver
completes with shortest_distance = longest_distance = `(n - 1) * w`. -/
theorem driver_equal_weights (n : Nat) (w : Int) (dist : Table) (order : List Nat)
    (hn : 1 ≤ n) (hn30 : n ≤ 30) (hin : UniformInput n w dist)
    (horder : order.Perm (List.range n)) :
    answerOf (driver_int n dist order) = some (((n : Int) - 1) * w, ((n : Int) - 1) * w) := by
  rw [driver_int_of_le hn30]
  have hne : order ≠ [] := by
    intro e
    have hlen := horder.length_eq
    rw [e] at hlen
    simp at hlen
    omega
  obtain ⟨st, hst, hres⟩ :=
    driverLoop_uniform hin order
      { shortest_distance := INT_MAX, longest_distance := INT_MIN,
        memo := freshMemo n, calls := [] }
      (fun s hs => List.mem_range.mp (horder.mem_iff.mp hs)) (memoUniform_fresh n w)
  obtain ⟨hs, hl⟩ := hres hne
  have hb := uniform_value_bounds hin (k := n - 1) (by omega)
  have hcast : ((n - 1 : Nat) : Int) = (n : Int) - 1 := by omega
  rw [hcast] at hb
  have hmin : INT_MIN ≤ 0 := by decide
  rw [driver, hst]
  simp only [answerOf, hs, hl]
  rw [min_eq_right (le_of_lt hb.2), max_eq_right (le_trans hmin hb.1)]

/-- C13 (amended) on three locations with all edges of weight 2, roots in the order
1, 2, 0. -/
theorem driver_equal_weights_witness :
    answerOf (driver_int 3 distUniform3 [1, 2, 0]) =
      some ((((3 : Nat) : Int) - 1) * 2, (((3 : Nat) : Int) - 1) * 2) :=
  driver_equal_weights 3 2 distUniform3 [1, 2, 0] (by decide) (by decide)
    ⟨by simp [Table.Dims, distUniform3], by decide, by decide, by decide⟩ (by decide)

/-- C13 as stated fails from 31 locations on. On the fully connected graph of
31 locations whose edges all have the weight 0 (so `(n - 1) * w = 0`), the
`int` `1 << 31` of line 119 is `INT_MIN`, the constructor of `memo` is asked
for `2^64 - 2^31` rows and throws `std::length_error`: the driver loop is not
reached and no pair is computed. On 32 locations the shift of line 119 is
undefined. -/
theorem driver_equal_weights_fails_at_31 :
    UniformInput 31 0 (Table.filled 31 31 0) ∧
    shiftOne 31 = some INT_MIN ∧
    makeMemo 31 = .error .lengthError ∧
    answerOf (driver_int 31 (Table.filled 31 31 0) (List.range 31)) = none ∧
    answerOf (driver_int 32 (Table.filled 32 32 0) (List.range 32)) = none :=
  ⟨⟨Table.filled_dims 31 31 0, fun _ ha _ hb _ => Table.filled_get 0 ha hb, le_refl 0,
      by decide⟩,
    by decide, rfl, rfl, rfl⟩


/-- C11 (amended). Memoization is transparent within one direction. For every
`n <= 30` (where the `int` expressions of the source are defined), every `n`
by `n` matrix (fully connected with non-negative distances or not), every
`init_limit` and comparator and every memo table of the size `main` gives it:
if every known entry `memo[m][c]` equals the value `held_karp` returns for
`(m, c)` from an all-unknown memo, then `held_karp(mask, current, ...)` with
that memo returns, its value is the one it returns from an all-unknown memo,
and the memo it leaves has the same property. -/
theorem held_karp_memo_transparent (n : Nat) (dist memo : Table) (init_limit : Int)
    (comparator : Int → Int → Bool) (mask current fuel : Nat) (hn30 : n ≤ 30)
    (hd : Table.Dims n n dist) (hm : Table.Dims (2 ^ n) n memo)
    (hmask : mask < 2 ^ n) (hcur : current < n) (hfuel : n < fuel)
    (hknown : ∀ m, m < 2 ^ n → ∀ c, c < n → memo.get m c ≠ -1 →
      valueOf (held_karp_int fuel m c n dist (freshMemo n) init_limit comparator) =
        some (memo.get m c)) :
    ∃ r, held_karp_int fuel mask current n dist memo init_limit comparator = .ok r ∧
      valueOf (held_karp_int fuel mask current n dist (freshMemo n) init_limit comparator) =
        some r.value ∧
      Table.Dims (2 ^ n) n r.memo ∧
      ∀ m, m < 2 ^ n → ∀ c, c < n → r.memo.get m c ≠ -1 →
        valueOf (held_karp_int fuel m c n dist (freshMemo n) init_limit comparator) =
          some (r.memo.get m c) := by
  simp only [held_karp_int_of_le hn30] at hknown ⊢
  have hk := clearBits_le n mask
  have href : MemoRef n dist init_limit comparator memo := by
    refine ⟨hm, fun m hm' c hc' hne => ?_⟩
    have h1 := hknown m hm' c hc' hne
    rw [held_karp_fresh_value hd init_limit comparator hm' hc' hfuel] at h1
    exact (Option.some.inj h1).symm
  obtain ⟨r, hr, hval, hmemo⟩ :=
    held_karp_ref hd init_limit comparator fuel mask current memo hmask hcur (by omega) href
  refine ⟨r, hr, ?_, hmemo.1, fun m hm' c hc' hne => ?_⟩
  · rw [held_karp_fresh_value hd init_limit comparator hmask hcur hfuel, hval]
  · rw [held_karp_fresh_value hd init_limit comparator hm' hc' hfuel,
      hmemo.2 m hm' c hc' hne]

/-- C11 (amended) on the A, B, C matrix in minimize mode, from root 0, with a memo in
which the two states below the root are already known. -/
theorem held_karp_memo_transparent_witness :
    ∃ r, held_karp_int 4 1 0 3 distABC memoPartialABC INT_MAX less = .ok r ∧
      valueOf (held_karp_int 4 1 0 3 distABC (freshMemo 3) INT_MAX less) = some r.value ∧
      Table.Dims (2 ^ 3) 3 r.memo ∧
      ∀ m, m < 2 ^ 3 → ∀ c, c < 3 → r.memo.get m c ≠ -1 →
        valueOf (held_karp_int 4 m c 3 distABC (freshMemo 3) INT_MAX less) =
          some (r.memo.get m c) :=
  held_karp_memo_transparent 3 distABC memoPartialABC INT_MAX less 1 0 4 (by decide)
    (by simp [Table.Dims, distABC]) (by simp [Table.Dims, memoPartialABC]) (by decide)
    (by decide) (by decide) (by decide)

/-- C11 as stated fails from 31 locations on. On the fully connected graph of
31 locations with all distances 1, with the all-unknown memo (no known entry,
so the premise of the claim holds) the call `held_karp(1, 0, 31, ...)` has no
defined result: line 155 evaluates `(1 << 31) - 1`, and `1 << 31` is
`INT_MIN`. The same on 32 locations, where the shift `1 << 32` is
undefined. -/
theorem held_karp_memo_undefined_at_31 :
    (∀ m, m < 2 ^ 31 → ∀ c, c < 31 → (freshMemo 31).get m c = -1) ∧
    held_karp_int 32 1 0 31 (Table.filled 31 31 1) (freshMemo 31) INT_MAX less =
      .error .undefinedInt ∧
    held_karp_int 33 1 0 32 (Table.filled 32 32 1) (freshMemo 32) INT_MAX less =
      .error .undefinedInt ∧
    shiftOne 31 = some INT_MIN ∧ shiftOne 32 = none :=
  ⟨fun m hm c hc => by
      rw [freshMemo, Nat.one_shiftLeft]
      exact Table.filled_get _ hm hc,
    held_karp_int_undefined (by decide) _ _ _ _ _ _ _,
    held_karp_int_undefined (by decide) _ _ _ _ _ _ _, by decide, by decide⟩


/-- C18. For every sequence of parsed lines the map `cities` built by `main`
lists the distinct names of the lines in first-seen order, the k-th of them
(from 0) with the index k; so `cities` maps the name `x` to `k` exactly when
`x` is the k-th distinct name, which is a bijection between the distinct names
and `[0, n)`, and `n`, the size of `cities`, is the number of distinct names. -/
theorem cities_first_seen_bijection (triplets : List Triplet) :
    (readInput triplets).cities.map Prod.fst = firstSeen (namesOf triplets) ∧
    (readInput triplets).cities.map Prod.snd =
      List.range (firstSeen (namesOf triplets)).length ∧
    (firstSeen (namesOf triplets)).Nodup ∧
    (∀ x, x ∈ firstSeen (namesOf triplets) ↔ x ∈ namesOf triplets) ∧
    (∀ x k, List.lookup x (readInput triplets).cities = some k ↔
      (firstSeen (namesOf triplets))[k]? = some x) ∧
    ∃ g, buildGraph triplets = .ok g ∧ g.cities = (readInput triplets).cities ∧
      g.n = (firstSeen (namesOf triplets)).length := by
  have hkeys := readInput_keys triplets
  have hlen : (readInput triplets).cities.length = (firstSeen (namesOf triplets)).length := by
    rw [← hkeys, List.length_map]
  refine ⟨hkeys, ?_, firstSeen_nodup _, fun x => mem_firstSeen x _,
    fun x k => readInput_lookup triplets x k, ?_⟩
  · rw [← hlen]
    exact (readInput_ok triplets).2
  · obtain ⟨g, hg, hn, hc, _, _⟩ :=
      buildGraphIn_spec triplets (readInput triplets).adjacency_list (List.Perm.refl _)
    exact ⟨g, (buildGraph_eq_buildGraphIn triplets).trans hg, hc, hn.trans hlen⟩


/-! ## The driver loop from the results of its runs -/

/-- One round of the driver loop, from the value of its minimize run, and the
value and the memo of its maximize run. -/
theorem driverLoop_cons_of_runs (n : Nat) (dist : Table) (curr : Nat) (rest : List Nat)
    (sd ld : Int) (memo : Table) (calls : List TopCall) (v1 v2 : Int) (m2 : Table)
    (h1 : resetOf n (held_karp (n + 1) (1 <<< curr) curr n dist memo INT_MAX less) =
      some (v1, freshMemo n))
    (h2 : resultOf (held_karp (n + 1) (1 <<< curr) curr n dist (freshMemo n) INT_MIN greater) =
      some (v2, m2)) :
    driverLoop n dist (curr :: rest)
        { shortest_distance := sd, longest_distance := ld, memo := memo, calls := calls } =
      driverLoop n dist rest
        { shortest_distance := min sd v1, longest_distance := max ld v2, memo := m2,
          calls := calls ++ [⟨true, curr, memo⟩, ⟨false, curr, freshMemo n⟩] } := by
  cases hr1 : held_karp (n + 1) (1 <<< curr) curr n dist memo INT_MAX less with
  | error e => rw [hr1] at h1; cases h1
  | ok r1 =>
    rw [hr1] at h1
    simp only [resetOf, Option.some.injEq, Prod.mk.injEq] at h1
    obtain ⟨hv1, hm1⟩ := h1
    cases hr2 : held_karp (n + 1) (1 <<< curr) curr n dist (freshMemo n) INT_MIN greater with
    | error e => rw [hr2] at h2; cases h2
    | ok r2 =>
      rw [hr2] at h2
      simp only [resultOf, Option.some.injEq, Prod.mk.injEq] at h2
      obtain ⟨hv2, hm2⟩ := h2
      simp only [driverLoop, driverStep, hr1, hm1, hr2, hv1, hv2, hm2]

/-- The last round of the driver loop, from the values of its two runs. -/
theorem answerOf_driverLoop_last (n : Nat) (dist : Table) (curr : Nat)
    (sd ld : Int) (memo : Table) (calls : List TopCall) (v1 v2 : Int)
    (h1 : resetOf n (held_karp (n + 1) (1 <<< curr) curr n dist memo INT_MAX less) =
      some (v1, freshMemo n))
    (h2 : valueOf (held_karp (n + 1) (1 <<< curr) curr n dist (freshMemo n) INT_MIN greater) =
      some v2) :
    answerOf (driverLoop n dist [curr]
        { shortest_distance := sd, longest_distance := ld, memo := memo, calls := calls }) =
      some (min sd v1, max ld v2) := by
  cases hr1 : held_karp (n + 1) (1 <<< curr) curr n dist memo INT_MAX less with
  | error e => rw [hr1] at h1; cases h1
  | ok r1 =>
    rw [hr1] at h1
    simp only [resetOf, Option.some.injEq, Prod.mk.injEq] at h1
    obtain ⟨hv1, hm1⟩ := h1
    cases hr2 : held_karp (n + 1) (1 <<< curr) curr n dist (freshMemo n) INT_MIN greater with
    | error e => rw [hr2] at h2; cases h2
    | ok r2 =>
      rw [hr2] at h2
      simp only [valueOf, Option.some.injEq] at h2
      simp only [driverLoop, driverStep, hr1, hm1, hr2, answerOf, hv1, h2]


/-! ## The twelve runs of the driver on `distSix` -/

/-- On `distSix`, the minimize run of root 3 as the driver makes it in the order
3, 2, 1, 4, 5, 0 (from the all-unknown memo) returns 56. -/
theorem distSix_minimize_3 :
    resetOf 6 (held_karp (6 + 1) (1 <<< 3) 3 6 distSix (freshMemo 6) INT_MAX less) =
      some (56, freshMemo 6) := by
  decide!

/-- On `distSix`, the maximize run of root 3 returns 47 and leaves the memo
`memoSixAfter3`. -/
theorem distSix_maximize_3 :
    resultOf (held_karp (6 + 1) (1 <<< 3) 3 6 distSix (freshMemo 6) INT_MIN greater) =
      some (47, memoSixAfter3) := by
  decide!

/-- On `distSix`, the minimize run of root 2 as the driver makes it in the order
3, 2, 1, 4, 5, 0 (from the memo left by the maximize run of root 3) returns 57. -/
theorem distSix_minimize_2 :
    resetOf 6 (held_karp (6 + 1) (1 <<< 2) 2 6 distSix (memoSixAfter3) INT_MAX less) =
      some (57, freshMemo 6) := by
  decide!

/-- On `distSix`, the maximize run of root 2 returns 48 and leaves the memo
`memoSixAfter2`. -/
theorem distSix_maximize_2 :
    resultOf (held_karp (6 + 1) (1 <<< 2) 2 6 distSix (freshMemo 6) INT_MIN greater) =
      some (48, memoSixAfter2) := by
  decide!

/-- On `distSix`, the minimize run of root 1 as the driver makes it in the order
3, 2, 1, 4, 5, 0 (from the memo left by the maximize run of root 2) returns 50. -/
theorem distSix_minimize_1 :
    resetOf 6 (held_karp (6 + 1) (1 <<< 1) 1 6 distSix (memoSixAfter2) INT_MAX less) =
      some (50, freshMemo 6) := by
  decide!

/-- On `distSix`, the maximize run of root 1 returns 41 and leaves the memo
`memoSixAfter1`. -/
theorem distSix_maximize_1 :
    resultOf (held_karp (6 + 1) (1 <<< 1) 1 6 distSix (freshMemo 6) INT_MIN greater) =
      some (41, memoSixAfter1) := by
  decide!

/-- On `distSix`, the minimize run of root 4 as the driver makes it in the order
3, 2, 1, 4, 5, 0 (from the memo left by the maximize run of root 1) returns 51. -/
theorem distSix_minimize_4 :
    resetOf 6 (held_karp (6 + 1) (1 <<< 4) 4 6 distSix (memoSixAfter1) INT_MAX less) =
      some (51, freshMemo 6) := by
  decide!

/-- On `distSix`, the maximize run of root 4 returns 48 and leaves the memo
`memoSixAfter4`. -/
theorem distSix_maximize_4 :
    resultOf (held_karp (6 + 1) (1 <<< 4) 4 6 distSix (freshMemo 6) INT_MIN greater) =
      some (48, memoSixAfter4) := by
  decide!

/-- On `distSix`, the minimize run of root 5 as the driver makes it in the order
3, 2, 1, 4, 5, 0 (from the memo left by the maximize run of root 4) returns 49. -/
theorem distSix_minimize_5 :
    resetOf 6 (held_karp (6 + 1) (1 <<< 5) 5 6 distSix (memoSixAfter4) INT_MAX less) =
      some (49, freshMemo 6) := by
  decide!

/-- On `distSix`, the maximize run of root 5 returns 44 and leaves the memo
`memoSixAfter5`. -/
theorem distSix_maximize_5 :
    resultOf (held_karp (6 + 1) (1 <<< 5) 5 6 distSix (freshMemo 6) INT_MIN greater) =
      some (44, memoSixAfter5) := by
  decide!

/-- On `distSix`, the minimize run of root 0 as the driver makes it in the order
3, 2, 1, 4, 5, 0 (from the memo left by the maximize run of root 5) returns 58. -/
theorem distSix_minimize_0 :
    resetOf 6 (held_karp (6 + 1) (1 <<< 0) 0 6 distSix (memoSixAfter5) INT_MAX less) =
      some (58, freshMemo 6) := by
  decide!

/-- On `distSix`, the maximize run of root 0 returns 48. -/
theorem distSix_maximize_0 :
    valueOf (held_karp (6 + 1) (1 <<< 0) 0 6 distSix (freshMemo 6) INT_MIN greater) =
      some 48 := by
  decide!

/-- C12 (fails on the code). On the fully connected graph `distSix` on six
locations (symmetric, positive distances, every path total far below INT_MAX)
with the roots processed in the order 3, 2, 1, 4, 5, 0, the driver reports
shortest_distance = 49 and longest_distance = 48: the shortest exceeds the
longest. -/
theorem driver_shortest_exceeds_longest :
    answerOf (driver 6 distSix [3, 2, 1, 4, 5, 0]) = some (49, 48) := by
  rw [driver,
    driverLoop_cons_of_runs 6 distSix 3 _ _ _ _ _ 56 47 memoSixAfter3
      distSix_minimize_3 distSix_maximize_3,
    driverLoop_cons_of_runs 6 distSix 2 _ _ _ _ _ 57 48 memoSixAfter2
      distSix_minimize_2 distSix_maximize_2,
    driverLoop_cons_of_runs 6 distSix 1 _ _ _ _ _ 50 41 memoSixAfter1
      distSix_minimize_1 distSix_maximize_1,
    driverLoop_cons_of_runs 6 distSix 4 _ _ _ _ _ 51 48 memoSixAfter4
      distSix_minimize_4 distSix_maximize_4,
    driverLoop_cons_of_runs 6 distSix 5 _ _ _ _ _ 49 44 memoSixAfter5
      distSix_minimize_5 distSix_maximize_5,
    answerOf_driverLoop_last 6 distSix 0 _ _ _ _ 58 48
      distSix_minimize_0 distSix_maximize_0]
  decide


/-! ## Index safety -/

theorem mask_pos_of_testBit {mask current : Nat} (h : mask.testBit current = true) :
    0 < mask := by
  rcases Nat.eq_zero_or_pos mask with e | hpos
  · rw [e, Nat.zero_testBit] at h
    exact Bool.noConfusion h
  · exact hpos

theorem hkLoop_trace_inBounds {n : Nat} (recurse : Nat → Nat → Table → Except Fault Outcome)
    {mask current : Nat} (dist : Table) (init_limit : Int) (comparator : Int → Int → Bool)
    (hv : ValidState n mask current)
    (hrec : ∀ i memo r, i < n → mask.testBit i = false →
      recurse (mask ||| (1 <<< i)) i memo = .ok r → ∀ e ∈ r.trace, e.InBounds n) :
    ∀ (rest : List Nat) (st st' : Outcome), (∀ i ∈ rest, i < n) →
      (∀ e ∈ st.trace, e.InBounds n) →
      hkLoop recurse mask current dist init_limit comparator rest st = .ok st' →
      ∀ e ∈ st'.trace, e.InBounds n := by
  intro rest
  induction rest with
  | nil =>
    intro st st' _ hst h
    rw [hkLoop] at h
    cases h
    exact hst
  | cons i rest ih =>
    intro st st' hlt hst h
    have hi : i < n := hlt i (by simp)
    have hlt' : ∀ j ∈ rest, j < n := fun j hj => hlt j (List.mem_cons_of_mem _ hj)
    rw [hkLoop] at h
    by_cases hbit : mask.testBit i = false
    · have hread : Event.InBounds n (Event.distRead current i) := ⟨hv.2.1, hi⟩
      rw [if_pos ((and_bit_eq_zero_iff mask i).mpr hbit)] at h
      cases hd : dist.read current i with
      | error e => rw [hd] at h; cases h
      | ok d =>
        rw [hd] at h
        simp only at h
        by_cases hdv : d ≠ init_limit
        · rw [if_pos hdv] at h
          cases hr : recurse (mask ||| (1 <<< i)) i st.memo with
          | error e => rw [hr] at h; cases h
          | ok r =>
            rw [hr] at h
            simp only at h
            have hrs := hrec i st.memo r hi hbit hr
            by_cases hcond : r.value ≠ init_limit ∧ comparator r.value st.value = true
            · rw [if_pos hcond] at h
              refine ih _ st' hlt' ?_ h
              intro e he
              simp only [List.mem_append, List.mem_singleton] at he
              rcases he with ((he | he) | he) | he
              · exact hst e he
              · exact he ▸ hread
              · exact hrs e he
              · exact he ▸ hread
            · rw [if_neg hcond] at h
              refine ih _ st' hlt' ?_ h
              intro e he
              simp only [List.mem_append, List.mem_singleton] at he
              rcases he with (he | he) | he
              · exact hst e he
              · exact he ▸ hread
              · exact hrs e he
        · rw [if_neg hdv] at h
          refine ih _ st' hlt' ?_ h
          intro e he
          simp only [List.mem_append, List.mem_singleton] at he
          rcases he with he | he
          · exact hst e he
          · exact he ▸ hread
    · rw [if_neg (fun e => hbit ((and_bit_eq_zero_iff mask i).mp e))] at h
      exact ih st st' hlt' hst h

/-- Whatever the matrix, the memo and the direction: in a run that starts on a
valid state, every call is on a valid state and every table access uses
indices inside the `n` by `n` matrix and the `2^n` by `n` memo table. -/
theorem held_karp_trace_inBounds (n : Nat) (dist : Table) (init_limit : Int)
    (comparator : Int → Int → Bool) :
    ∀ (fuel mask current : Nat) (memo : Table) (r : Outcome),
      ValidState n mask current →
      held_karp fuel mask current n dist memo init_limit comparator = .ok r →
      ∀ e ∈ r.trace, e.InBounds n := by
  intro fuel
  induction fuel with
  | zero =>
    intro mask current memo r _ h
    rw [held_karp] at h
    cases h
  | succ fuel ih =>
    intro mask current memo r hv h
    have hcall : Event.InBounds n (Event.call mask current) :=
      ⟨hv.2.1, mask_pos_of_testBit hv.2.2, hv.1⟩
    have hmemo : Event.InBounds n (Event.memoRead mask current) := ⟨hv.1, hv.2.1⟩
    have hwrite : Event.InBounds n (Event.memoWrite mask current) := ⟨hv.1, hv.2.1⟩
    rw [held_karp] at h
    by_cases hfull : mask = (1 <<< n) - 1
    · rw [if_pos hfull] at h
      cases h
      intro e he
      simp only [List.mem_singleton] at he
      exact he ▸ hcall
    · rw [if_neg hfull] at h
      cases hm : memo.read mask current with
      | error e => rw [hm] at h; cases h
      | ok v =>
        rw [hm] at h
        simp only at h
        by_cases hknown : v ≠ -1
        · rw [if_pos hknown] at h
          cases h
          intro e he
          simp only [List.mem_cons, List.mem_singleton, List.not_mem_nil, or_false] at he
          rcases he with he | he | he
          · exact he ▸ hcall
          · exact he ▸ hmemo
          · exact he ▸ hmemo
        · rw [if_neg hknown] at h
          cases hl : hkLoop (fun m c t => held_karp fuel m c n dist t init_limit comparator)
              mask current dist init_limit comparator (List.range n)
              { value := init_limit, memo := memo,
                trace := [Event.call mask current, Event.memoRead mask current] } with
          | error e => rw [hl] at h; cases h
          | ok st =>
            rw [hl] at h
            simp only at h
            have hsafe := hkLoop_trace_inBounds
              (fun m c t => held_karp fuel m c n dist t init_limit comparator)
              dist init_limit comparator hv
              (fun i t r hi _ hr => ih (mask ||| (1 <<< i)) i t r (validState_step hv hi) hr)
              (List.range n) _ st (fun i hi => List.mem_range.mp hi)
              (by
                intro e he
                simp only [List.mem_cons, List.mem_singleton, List.not_mem_nil, or_false] at he
                rcases he with he | he
                · exact he ▸ hcall
                · exact he ▸ hmemo) hl
            cases hw : st.memo.write mask current st.value with
            | error e => rw [hw] at h; cases h
            | ok memo' =>
              rw [hw] at h
              cases h
              intro e he
              simp only [List.mem_append, List.mem_singleton] at he
              rcases he with he | he
              · exact hsafe e he
              · exact he ▸ hwrite

/-- C24 (amended). For every `n <= 30` (where the `int` expressions of the
source are defined), every `n` by `n` matrix, every memo table of `2^n`
rows of `n` entries (whatever the contents of both), every start `s < n` (so
`1 <= n`) and either direction, the call `held_karp(1 << s, s, n, ...)` returns
a value (fuel at least `n`): no access leaves a table. In the run every call of
`held_karp` has `current < n` and `0 < mask < 2^n`, every access
`memo[mask][current]` has `mask < 2^n` and `current < n`, and every read
`dist[current][i]` has `current < n` and `i < n`. -/
theorem held_karp_accesses_in_bounds (n : Nat) (dist memo : Table) (s fuel : Nat)
    (init_limit : Int) (comparator : Int → Int → Bool) (hn30 : n ≤ 30)
    (hd : Table.Dims n n dist) (hm : Table.Dims (2 ^ n) n memo) (hs : s < n)
    (hfuel : n ≤ fuel) :
    ∃ r, held_karp_int fuel (1 <<< s) s n dist memo init_limit comparator = .ok r ∧
      ∀ e ∈ r.trace, e.InBounds n := by
  simp only [held_karp_int_of_le hn30]
  have hv : ValidState n (1 <<< s) s := validState_root hs
  have hclear : clearBits n (1 <<< s) < fuel :=
    Nat.lt_of_lt_of_le (clearBits_lt_of_testBit hs hv.2.2) hfuel
  obtain ⟨r, hr, _, _⟩ :=
    held_karp_total hd init_limit comparator fuel (1 <<< s) s memo hv hclear hm
  exact ⟨r, hr, held_karp_trace_inBounds n dist init_limit comparator fuel (1 <<< s) s memo r
    hv hr⟩

/-- C24 (amended) on the A, B, C matrix from root 2 in minimize mode. -/
theorem held_karp_accesses_in_bounds_witness :
    ∃ r, held_karp_int 3 (1 <<< 2) 2 3 distABC (freshMemo 3) INT_MAX less = .ok r ∧
      ∀ e ∈ r.trace, e.InBounds 3 :=
  held_karp_accesses_in_bounds 3 distABC (freshMemo 3) 2 3 INT_MAX less (by decide)
    (by simp [Table.Dims, distABC]) (Table.filled_dims _ _ _) (by decide) (by decide)

/-- C24 as stated fails from 31 locations on. For `n = 32` and the start
`s = 31` the mask `1 << s` of the root call is `INT_MIN`: it is not positive,
and `memo[mask]` is outside every table. For `n = 31` and the start `s = 30`
the root call has no defined result, because line 155 evaluates
`(1 << 31) - 1`; for `n = 32` the shift `1 << 32` of that line is
undefined. -/
theorem held_karp_accesses_undefined_at_31 :
    shiftOne 31 = some INT_MIN ∧ INT_MIN < 0 ∧
    held_karp_int 31 (1 <<< 30) 30 31 (Table.filled 31 31 1) (freshMemo 31) INT_MAX less =
      .error .undefinedInt ∧
    held_karp_int 32 (1 <<< 30) 30 32 (Table.filled 32 32 1) (freshMemo 32) INT_MAX less =
      .error .undefinedInt ∧
    shiftOne 32 = none :=
  ⟨by decide, by decide, held_karp_int_undefined (by decide) _ _ _ _ _ _ _,
    held_karp_int_undefined (by decide) _ _ _ _ _ _ _, by decide⟩


/-! ## Termination -/

theorem Table.read_ne_outOfFuel (t : Table) (r c : Nat) :
    t.read r c ≠ .error .outOfFuel := by
  unfold Table.read
  split
  · simp
  · split <;> simp

theorem Table.write_ne_outOfFuel (t : Table) (r c : Nat) (v : Int) :
    t.write r c v ≠ .error .outOfFuel := by
  unfold Table.write
  split
  · simp
  · split <;> simp

theorem hkLoop_ne_outOfFuel {n : Nat} (recurse : Nat → Nat → Table → Except Fault Outcome)
    (mask current : Nat) (dist : Table) (init_limit : Int) (comparator : Int → Int → Bool)
    (hrec : ∀ i memo, i < n → mask.testBit i = false →
      recurse (mask ||| (1 <<< i)) i memo ≠ .error .outOfFuel) :
    ∀ (rest : List Nat) (st : Outcome), (∀ i ∈ rest, i < n) →
      hkLoop recurse mask current dist init_limit comparator rest st ≠ .error .outOfFuel := by
  intro rest
  induction rest with
  | nil =>
    intro st _
    simp [hkLoop]
  | cons i rest ih =>
    intro st hlt
    have hi : i < n := hlt i (by simp)
    have hlt' : ∀ j ∈ rest, j < n := fun j hj => hlt j (List.mem_cons_of_mem _ hj)
    rw [hkLoop]
    by_cases hbit : mask.testBit i = false
    · rw [if_pos ((and_bit_eq_zero_iff mask i).mpr hbit)]
      cases hd : dist.read current i with
      | error e =>
        simp only
        intro he
        cases he
        exact Table.read_ne_outOfFuel _ _ _ hd
      | ok d =>
        simp only
        by_cases hdv : d ≠ init_limit
        · rw [if_pos hdv]
          cases hr : recurse (mask ||| (1 <<< i)) i st.memo with
          | error e =>
            simp only
            intro he
            cases he
            exact hrec i st.memo hi hbit hr
          | ok r =>
            simp only
            by_cases hcond : r.value ≠ init_limit ∧ comparator r.value st.value = true
            · rw [if_pos hcond]
              exact ih _ hlt'
            · rw [if_neg hcond]
              exact ih _ hlt'
        · rw [if_neg hdv]
          exact ih _ hlt'
    · rw [if_neg (fun e => hbit ((and_bit_eq_zero_iff mask i).mp e))]
      exact ih st hlt'

/-- Whatever the matrix and the memo table, of whatever sizes: a call with more
fuel than `mask` has clear bits among the low `n` bits does not run out of
fuel. -/
theorem held_karp_ne_outOfFuel (n : Nat) (dist : Table) (init_limit : Int)
    (comparator : Int → Int → Bool) :
    ∀ (fuel mask current : Nat) (memo : Table), clearBits n mask < fuel →
      held_karp fuel mask current n dist memo init_limit comparator ≠ .error .outOfFuel := by
  intro fuel
  induction fuel with
  | zero =>
    intro mask current memo hf
    omega
  | succ fuel ih =>
    intro mask current memo hf
    rw [held_karp]
    by_cases hfull : mask = (1 <<< n) - 1
    · rw [if_pos hfull]
      simp
    · rw [if_neg hfull]
      cases hm : memo.read mask current with
      | error e =>
        simp only
        intro he
        cases he
        exact Table.read_ne_outOfFuel _ _ _ hm
      | ok v =>
        simp only
        by_cases hknown : v ≠ -1
        · rw [if_pos hknown]
          simp
        · rw [if_neg hknown]
          have hloop := hkLoop_ne_outOfFuel
            (fun m c t => held_karp fuel m c n dist t init_limit comparator)
            mask current dist init_limit comparator
            (fun i t hi hbit => ih (mask ||| (1 <<< i)) i t (by
              have := clearBits_or_bit_lt hi hbit
              omega))
            (List.range n)
            { value := init_limit, memo := memo,
              trace := [Event.call mask current, Event.memoRead mask current] }
            (fun i hi => List.mem_range.mp hi)
          cases hl : hkLoop (fun m c t => held_karp fuel m c n dist t init_limit comparator)
              mask current dist init_limit comparator (List.range n)
              { value := init_limit, memo := memo,
                trace := [Event.call mask current, Event.memoRead mask current] } with
          | error e =>
            simp only
            intro he
            cases he
            exact hloop hl
          | ok st =>
            simp only
            cases hw : st.memo.write mask current st.value with
            | error e =>
              simp only
              intro he
              cases he
              exact Table.write_ne_outOfFuel _ _ _ _ hw
            | ok memo' => simp

theorem Table.read_ne_undefinedInt (t : Table) (r c : Nat) :
    t.read r c ≠ .error .undefinedInt := by
  unfold Table.read
  split
  · simp
  · split <;> simp

theorem Table.write_ne_undefinedInt (t : Table) (r c : Nat) (v : Int) :
    t.write r c v ≠ .error .undefinedInt := by
  unfold Table.write
  split
  · simp
  · split <;> simp

theorem hkLoop_ne_undefinedInt {n : Nat} (recurse : Nat → Nat → Table → Except Fault Outcome)
    (mask current : Nat) (dist : Table) (init_limit : Int) (comparator : Int → Int → Bool)
    (hrec : ∀ i memo, i < n → mask.testBit i = false →
      recurse (mask ||| (1 <<< i)) i memo ≠ .error .undefinedInt) :
    ∀ (rest : List Nat) (st : Outcome), (∀ i ∈ rest, i < n) →
      hkLoop recurse mask current dist init_limit comparator rest st ≠ .error .undefinedInt := by
  intro rest
  induction rest with
  | nil =>
    intro st _
    simp [hkLoop]
  | cons i rest ih =>
    intro st hlt
    have hi : i < n := hlt i (by simp)
    have hlt' : ∀ j ∈ rest, j < n := fun j hj => hlt j (List.mem_cons_of_mem _ hj)
    rw [hkLoop]
    by_cases hbit : mask.testBit i = false
    · rw [if_pos ((and_bit_eq_zero_iff mask i).mpr hbit)]
      cases hd : dist.read current i with
      | error e =>
        simp only
        intro he
        cases he
        exact Table.read_ne_undefinedInt _ _ _ hd
      | ok d =>
        simp only
        by_cases hdv : d ≠ init_limit
        · rw [if_pos hdv]
          cases hr : recurse (mask ||| (1 <<< i)) i st.memo with
          | error e =>
            simp only
            intro he
            cases he
            exact hrec i st.memo hi hbit hr
          | ok r =>
            simp only
            by_cases hcond : r.value ≠ init_limit ∧ comparator r.value st.value = true
            · rw [if_pos hcond]
              exact ih _ hlt'
            · rw [if_neg hcond]
              exact ih _ hlt'
        · rw [if_neg hdv]
          exact ih _ hlt'
    · rw [if_neg (fun e => hbit ((and_bit_eq_zero_iff mask i).mp e))]
      exact ih st hlt'

/-- The run of `held_karp` on natural numbers never ends in the fault of an
undefined `int` expression: that fault belongs to the check of line 155 made by
`held_karp_int`. -/
theorem held_karp_ne_undefinedInt (n : Nat) (dist : Table) (init_limit : Int)
    (comparator : Int → Int → Bool) :
    ∀ (fuel mask current : Nat) (memo : Table),
      held_karp fuel mask current n dist memo init_limit comparator ≠ .error .undefinedInt := by
  intro fuel
  induction fuel with
  | zero =>
    intro mask current memo h
    rw [held_karp] at h
    cases h
  | succ fuel ih =>
    intro mask current memo
    rw [held_karp]
    by_cases hfull : mask = (1 <<< n) - 1
    · rw [if_pos hfull]
      simp
    · rw [if_neg hfull]
      cases hm : memo.read mask current with
      | error e =>
        simp only
        intro he
        cases he
        exact Table.read_ne_undefinedInt _ _ _ hm
      | ok v =>
        simp only
        by_cases hknown : v ≠ -1
        · rw [if_pos hknown]
          simp
        · rw [if_neg hknown]
          have hloop := hkLoop_ne_undefinedInt
            (fun m c t => held_karp fuel m c n dist t init_limit comparator)
            mask current dist init_limit comparator
            (fun i t _ _ => ih (mask ||| (1 <<< i)) i t)
            (List.range n)
            { value := init_limit, memo := memo,
              trace := [Event.call mask current, Event.memoRead mask current] }
            (fun i hi => List.mem_range.mp hi)
          cases hl : hkLoop (fun m c t => held_karp fuel m c n dist t init_limit comparator)
              mask current dist init_limit comparator (List.range n)
              { value := init_limit, memo := memo,
                trace := [Event.call mask current, Event.memoRead mask current] } with
          | error e =>
            simp only
            intro he
            cases he
            exact hloop hl
          | ok st =>
            simp only
            cases hw : st.memo.write mask current st.value with
            | error e =>
              simp only
              intro he
              cases he
              exact Table.write_ne_undefinedInt _ _ _ _ hw
            | ok memo' => simp

theorem hkLoop_congr {n : Nat} (rec1 rec2 : Nat → Nat → Table → Except Fault Outcome)
    (mask current : Nat) (dist : Table) (init_limit : Int) (comparator : Int → Int → Bool)
    (hrec : ∀ i memo, i < n → mask.testBit i = false →
      rec1 (mask ||| (1 <<< i)) i memo = rec2 (mask ||| (1 <<< i)) i memo) :
    ∀ (rest : List Nat) (st : Outcome), (∀ i ∈ rest, i < n) →
      hkLoop rec1 mask current dist init_limit comparator rest st =
        hkLoop rec2 mask current dist init_limit comparator rest st := by
  intro rest
  induction rest with
  | nil =>
    intro st _
    simp [hkLoop]
  | cons i rest ih =>
    intro st hlt
    have hi : i < n := hlt i (by simp)
    have hlt' : ∀ j ∈ rest, j < n := fun j hj => hlt j (List.mem_cons_of_mem _ hj)
    rw [hkLoop, hkLoop]
    by_cases hbit : mask.testBit i = false
    · have hz := (and_bit_eq_zero_iff mask i).mpr hbit
      rw [if_pos hz, if_pos hz]
      cases hd : dist.read current i with
      | error e => rfl
      | ok d =>
        simp only
        by_cases hdv : d ≠ init_limit
        · rw [if_pos hdv, if_pos hdv, hrec i st.memo hi hbit]
          cases hr : rec2 (mask ||| (1 <<< i)) i st.memo with
          | error e => rfl
          | ok r =>
            simp only
            by_cases hcond : r.value ≠ init_limit ∧ comparator r.value st.value = true
            · rw [if_pos hcond, if_pos hcond]
              exact ih _ hlt'
            · rw [if_neg hcond, if_neg hcond]
              exact ih _ hlt'
        · rw [if_neg hdv, if_neg hdv]
          exact ih _ hlt'
    · have hz : ¬ mask &&& (1 <<< i) = 0 := fun e => hbit ((and_bit_eq_zero_iff mask i).mp e)
      rw [if_neg hz, if_neg hz]
      exact ih st hlt'

/-- One more unit of fuel than needed changes nothing. -/
theorem held_karp_fuel_succ (n : Nat) (dist : Table) (init_limit : Int)
    (comparator : Int → Int → Bool) :
    ∀ (fuel mask current : Nat) (memo : Table), clearBits n mask < fuel →
      held_karp (fuel + 1) mask current n dist memo init_limit comparator =
        held_karp fuel mask current n dist memo init_limit comparator := by
  intro fuel
  induction fuel with
  | zero =>
    intro mask current memo hf
    omega
  | succ fuel ih =>
    intro mask current memo hf
    rw [held_karp, held_karp]
    by_cases hfull : mask = (1 <<< n) - 1
    · rw [if_pos hfull, if_pos hfull]
    · rw [if_neg hfull, if_neg hfull]
      rw [hkLoop_congr
        (fun m c t => held_karp (fuel + 1) m c n dist t init_limit comparator)
        (fun m c t => held_karp fuel m c n dist t init_limit comparator)
        mask current dist init_limit comparator
        (fun i t hi hbit => ih (mask ||| (1 <<< i)) i t (by
          have := clearBits_or_bit_lt hi hbit
          omega))
        (List.range n) _ (fun i hi => List.mem_range.mp hi)]

/-- The result of a call does not depend on the fuel, once the fuel exceeds the
number of clear bits of `mask` among the low `n` bits. -/
theorem held_karp_fuel_irrelevant (n : Nat) (dist : Table) (init_limit : Int)
    (comparator : Int → Int → Bool) (mask current : Nat) (memo : Table) :
    ∀ k : Nat,
      held_karp (clearBits n mask + 1 + k) mask current n dist memo init_limit comparator =
        held_karp (clearBits n mask + 1) mask current n dist memo init_limit comparator := by
  intro k
  induction k with
  | zero => rfl
  | succ k ih =>
    rw [← ih]
    exact held_karp_fuel_succ n dist init_limit comparator (clearBits n mask + 1 + k)
      mask current memo (by omega)

/-- C25 (amended). For every `n <= 30` (where the `int` expressions of the
source are defined), every matrix and every memo table (of whatever sizes and
contents), every `init_limit` and comparator and every state `(mask, current)`
with `mask < 2^n`: the call has a defined result; a recursive call is made
only for an `i < n` whose bit is clear in `mask`, and it sets that bit, so the
number of clear bits among the low `n` bits, which is at most `n`, drops by
one with each level of the recursion; hence a fuel above that number (`n + 1`
always suffices) is never used up, and the result is the same for every such
fuel: the call terminates with recursion depth at most `n`. -/
theorem held_karp_terminates (n : Nat) (dist memo : Table) (init_limit : Int)
    (comparator : Int → Int → Bool) (mask current fuel : Nat) (hn30 : n ≤ 30)
    (_hmask : mask < 2 ^ n) (hfuel : clearBits n mask < fuel) :
    held_karp_int fuel mask current n dist memo init_limit comparator ≠
      .error .undefinedInt ∧
    held_karp_int fuel mask current n dist memo init_limit comparator ≠ .error .outOfFuel ∧
    held_karp_int fuel mask current n dist memo init_limit comparator =
      held_karp_int (clearBits n mask + 1) mask current n dist memo init_limit comparator ∧
    clearBits n mask ≤ n ∧
    ∀ i, i < n → mask &&& (1 <<< i) = 0 →
      clearBits n (mask ||| (1 <<< i)) + 1 = clearBits n mask := by
  simp only [held_karp_int_of_le hn30]
  refine ⟨held_karp_ne_undefinedInt n dist init_limit comparator fuel mask current memo,
    held_karp_ne_outOfFuel n dist init_limit comparator fuel mask current memo hfuel,
    ?_, clearBits_le n mask,
    fun i hi hbit => clearBits_or_bit_eq hi ((and_bit_eq_zero_iff mask i).mp hbit)⟩
  obtain ⟨k, hk⟩ : ∃ k, fuel = clearBits n mask + 1 + k := ⟨fuel - (clearBits n mask + 1), by omega⟩
  rw [hk]
  exact held_karp_fuel_irrelevant n dist init_limit comparator mask current memo k

/-- C25 (amended) on the A, B, C matrix for the state `(1, 0)` in maximize
mode, with a fuel of 10. -/
theorem held_karp_terminates_witness :
    held_karp_int 10 1 0 3 distABC (freshMemo 3) INT_MIN greater ≠ .error .undefinedInt ∧
    held_karp_int 10 1 0 3 distABC (freshMemo 3) INT_MIN greater ≠ .error .outOfFuel ∧
    held_karp_int 10 1 0 3 distABC (freshMemo 3) INT_MIN greater =
      held_karp_int (clearBits 3 1 + 1) 1 0 3 distABC (freshMemo 3) INT_MIN greater ∧
    clearBits 3 1 ≤ 3 ∧
    ∀ i, i < 3 → 1 &&& (1 <<< i) = 0 → clearBits 3 (1 ||| (1 <<< i)) + 1 = clearBits 3 1 :=
  held_karp_terminates 3 distABC (freshMemo 3) INT_MIN greater 1 0 10 (by decide) (by decide)
    (by decide)

/-- C25 as stated fails from 31 locations on. For `n = 31`, the state `(1, 0)`
(so `mask < 2^n`), a 31 by 31 matrix and the memo table of `2^31` rows, the
call has no defined result: line 155 evaluates `(1 << 31) - 1`, and `1 << 31`
is `INT_MIN`. For `n = 32` the shift `1 << 32` of the same line is
undefined. -/
theorem held_karp_termination_undefined_at_31 :
    held_karp_int 32 1 0 31 (Table.filled 31 31 1) (freshMemo 31) INT_MAX less =
      .error .undefinedInt ∧
    held_karp_int 33 1 0 32 (Table.filled 32 32 1) (freshMemo 32) INT_MAX less =
      .error .undefinedInt ∧
    shiftOne 31 = some INT_MIN ∧ shiftOne 32 = none :=
  ⟨held_karp_int_undefined (by decide) _ _ _ _ _ _ _,
    held_karp_int_undefined (by decide) _ _ _ _ _ _ _, by decide, by decide⟩


/-! ## Achievability on fully connected graphs -/

theorem edge_bounds {n : Nat} {dist : Table} (h : MinInput n dist)
    (hfull : FullyConnected n dist) {a b : Nat} (ha : a < n) (hb : b < n) (hab : a ≠ b) :
    dist.get a b ≠ INT_MAX ∧ 0 ≤ dist.get a b ∧ dist.get a b < INT_MAX := by
  have hedge := hfull a ha b hb hab
  refine ⟨hedge, h.nonneg a ha b hb hab hedge, ?_⟩
  have hb' := h.bound [a, b] (by simp [hab])
    (by
      intro v hv
      simp only [List.mem_cons, List.mem_singleton, List.not_mem_nil, or_false] at hv
      rcases hv with rfl | rfl
      · exact ha
      · exact hb)
    ⟨hedge, trivial⟩
  simpa [pathCost] using hb'

theorem hkLoop_path_spec {n : Nat} {dist : Table} (h : MinInput n dist)
    (hfull : FullyConnected n dist) {init_limit : Int} {comparator : Int → Int → Bool}
    (hdir : IsDirection init_limit comparator)
    (recurse : Nat → Nat → Table → Except Fault Outcome) {mask current : Nat}
    (hv : ValidState n mask current)
    (hrec : ∀ i memo, i < n → mask.testBit i = false → MemoPath n dist memo →
      ∃ r, recurse (mask ||| (1 <<< i)) i memo = .ok r ∧
        (∃ p, Completion n dist (mask ||| (1 <<< i)) i p ∧ r.value = pathCost dist (i :: p)) ∧
        MemoPath n dist r.memo) :
    ∀ (rest : List Nat) (st : Outcome), (∀ i ∈ rest, i < n) → MemoPath n dist st.memo →
      LoopPath n dist mask current init_limit rest st.value →
      ∃ st', hkLoop recurse mask current dist init_limit comparator rest st = .ok st' ∧
        MemoPath n dist st'.memo ∧ LoopPath n dist mask current init_limit [] st'.value := by
  intro rest
  induction rest with
  | nil =>
    intro st _ hm hl
    exact ⟨st, rfl, hm, hl⟩
  | cons i rest ih =>
    intro st hlt hm hl
    have hi : i < n := hlt i (by simp)
    have hlt' : ∀ j ∈ rest, j < n := fun j hj => hlt j (List.mem_cons_of_mem _ hj)
    rw [hkLoop]
    by_cases hbit : mask.testBit i = false
    · have hne : current ≠ i := by
        intro e
        rw [← e, hv.2.2] at hbit
        exact Bool.noConfusion hbit
      obtain ⟨hedge, hd0, hdlt⟩ := edge_bounds h hfull hv.2.1 hi hne
      rw [if_pos ((and_bit_eq_zero_iff mask i).mpr hbit), Table.read_eq_get h.dims hv.2.1 hi]
      simp only
      rw [if_pos (hdir _ hd0 hdlt).1]
      obtain ⟨r, hr, ⟨q, hq, hval⟩, hmemo⟩ := hrec i st.memo hi hbit hm
      have hv' : ValidState n (mask ||| (1 <<< i)) i := validState_step hv hi
      have hc : Completion n dist mask current (i :: q) :=
        (completion_cons_iff n dist mask current i q).mpr ⟨⟨hi, hbit⟩, hedge, hq⟩
      have hr0 := completion_cost_nonneg h hv' hq
      have hrlt := completion_cost_lt h hv' hq
      rw [hr]
      simp only
      by_cases hcond : r.value ≠ init_limit ∧ comparator r.value st.value = true
      · rw [if_pos hcond]
        refine ih _ hlt' (by exact hmemo) ?_
        refine Or.inr ⟨i :: q, hc, ?_⟩
        have h1 := completion_cost_nonneg h hv hc
        have h2 := completion_cost_lt h hv hc
        simp only [pathCost] at h1 h2 ⊢
        simp only [addInt, hval]
        apply wrap32_eq_self
        · unfold INT_MIN; omega
        · omega
      · rw [if_neg hcond]
        refine ih _ hlt' (by exact hmemo) ?_
        rcases hl with ⟨hbest, _⟩ | hex
        · exfalso
          apply hcond
          rw [hbest, hval]
          exact hdir _ hr0 hrlt
        · exact Or.inr hex
    · rw [if_neg (fun e => hbit ((and_bit_eq_zero_iff mask i).mp e))]
      apply ih st hlt' hm
      rcases hl with ⟨hbest, hall⟩ | hex
      · refine Or.inl ⟨hbest, fun j hj hjb => ?_⟩
        rcases List.mem_cons.mp (hall j hj hjb) with e | hjr
        · subst e
          exact absurd hjb hbit
        · exact hjr
      · exact Or.inr hex

/-- On a fully connected graph without overflow, in either direction and from
any memo whose known entries are totals of completions (in particular entries
left by the other direction), the value of a valid state is the total distance
of some completion of that state. -/
theorem held_karp_path_spec {n : Nat} {dist : Table} (h : MinInput n dist)
    (hfull : FullyConnected n dist) {init_limit : Int} {comparator : Int → Int → Bool}
    (hdir : IsDirection init_limit comparator) :
    ∀ (fuel mask current : Nat) (memo : Table), ValidState n mask current →
      clearBits n mask < fuel → MemoPath n dist memo →
      ∃ r, held_karp fuel mask current n dist memo init_limit comparator = .ok r ∧
        (∃ p, Completion n dist mask current p ∧ r.value = pathCost dist (current :: p)) ∧
        MemoPath n dist r.memo := by
  intro fuel
  induction fuel with
  | zero =>
    intro mask current memo _ hf _
    omega
  | succ fuel ih =>
    intro mask current memo hv hf hm
    rw [held_karp]
    by_cases hfullmask : mask = (1 <<< n) - 1
    · rw [if_pos hfullmask]
      refine ⟨_, rfl, ⟨[], ?_, by simp [pathCost]⟩, hm⟩
      rw [hfullmask]
      exact completion_nil_of_full n dist current
    · rw [if_neg hfullmask, Table.read_eq_get hm.1 hv.1 hv.2.1]
      simp only
      by_cases hknown : memo.get mask current ≠ -1
      · rw [if_pos hknown]
        exact ⟨_, rfl, hm.2 mask current hv hknown, hm⟩
      · rw [if_neg hknown]
        have hrec : ∀ i t, i < n → mask.testBit i = false → MemoPath n dist t →
            ∃ r, held_karp fuel (mask ||| (1 <<< i)) i n dist t init_limit comparator = .ok r ∧
              (∃ p, Completion n dist (mask ||| (1 <<< i)) i p ∧
                r.value = pathCost dist (i :: p)) ∧ MemoPath n dist r.memo := by
          intro i t hi hbit ht
          apply ih _ _ _ (validState_step hv hi) _ ht
          have := clearBits_or_bit_lt hi hbit
          omega
        obtain ⟨st, hst, hmemo, hloop⟩ :=
          hkLoop_path_spec h hfull hdir
            (fun m c t => held_karp fuel m c n dist t init_limit comparator) hv hrec
            (List.range n)
            { value := init_limit, memo := memo,
              trace := [Event.call mask current, Event.memoRead mask current] }
            (fun i hi => List.mem_range.mp hi) hm
            (Or.inl ⟨rfl, fun j hj _ => List.mem_range.mpr hj⟩)
        rw [hst]
        simp only
        obtain ⟨memo', hw, hdims, hget, hother⟩ :=
          Table.write_spec hmemo.1 hv.1 hv.2.1 st.value
        rw [hw]
        simp only
        have hgood : ∃ p, Completion n dist mask current p ∧
            st.value = pathCost dist (current :: p) := by
          rcases hloop with ⟨_, hall⟩ | hex
          · exfalso
            obtain ⟨v, hvn, hvb⟩ := exists_clear_of_ne_full hv.1 hfullmask
            have := hall v hvn hvb
            simp at this
          · exact hex
        refine ⟨_, rfl, hgood, hdims, ?_⟩
        intro m c hmc hne
        by_cases e : m = mask ∧ c = current
        · obtain ⟨rfl, rfl⟩ := e
          rw [hget]
          exact hgood
        · have hsame : memo'.get m c = st.memo.get m c :=
            hother m c (by
              by_contra hcon
              push_neg at hcon
              exact e hcon)
          rw [hsame] at hne ⊢
          exact hmemo.2 m c hmc hne

theorem memoPath_fresh (n : Nat) (dist : Table) : MemoPath n dist (freshMemo n) := by
  constructor
  · rw [freshMemo, Nat.one_shiftLeft]
    exact Table.filled_dims _ _ _
  · intro m c hmc hne
    exfalso
    apply hne
    rw [freshMemo, Nat.one_shiftLeft]
    exact Table.filled_get _ hmc.1 hmc.2.1

/-- From an all-unknown memo, in a direction, the value of the root state is
the total of a Hamiltonian path from the root. -/
theorem held_karp_fresh_path {n : Nat} {dist : Table} (h : MinInput n dist)
    (hfull : FullyConnected n dist) {init_limit : Int} {comparator : Int → Int → Bool}
    (hdir : IsDirection init_limit comparator) {s fuel : Nat} (hs : s < n) (hfuel : n ≤ fuel) :
    ∃ r p, held_karp fuel (1 <<< s) s n dist (freshMemo n) init_limit comparator = .ok r ∧
      HamPathFrom n dist s p ∧ r.value = pathCost dist p := by
  have hv : ValidState n (1 <<< s) s := validState_root hs
  have hclear : clearBits n (1 <<< s) < fuel :=
    Nat.lt_of_lt_of_le (clearBits_lt_of_testBit hs hv.2.2) hfuel
  obtain ⟨r, hr, ⟨p, hp, hval⟩, _⟩ :=
    held_karp_path_spec h hfull hdir fuel (1 <<< s) s (freshMemo n) hv hclear
      (memoPath_fresh n dist)
  exact ⟨r, s :: p, hr, (hamPathFrom_iff_completion dist hs (s :: p)).mpr ⟨p, rfl, hp⟩, hval⟩

/-- C22 as stated fails when a path total overflows. The graph `distHuge3` is
fully connected with non-negative distances, every Hamiltonian path from 0 has
the total `2^31`, and the minimize-mode call `held_karp(1 << 0, 0, 3, ...)`
with an all-unknown memo returns `-2^31`. -/
theorem held_karp_value_overflows :
    FullyConnected 3 distHuge3 ∧
    (∀ a, a < 3 → ∀ b, b < 3 → a ≠ b → 0 ≤ distHuge3.get a b) ∧
    valueOf (held_karp 3 (1 <<< 0) 0 3 distHuge3 (freshMemo 3) INT_MAX less) =
      some (-2147483648) ∧
    ∀ p, HamPathFrom 3 distHuge3 0 p → pathCost distHuge3 p = 2147483648 := by
  refine ⟨by decide, by decide, by decide, ?_⟩
  rintro p ⟨hhead, hperm, _⟩
  have hperm' : p.Perm [0, 1, 2] := hperm
  have hmem := perm_three_cases hperm'
  simp only [orders3, List.mem_cons, List.mem_singleton, List.not_mem_nil, or_false] at hmem
  rcases hmem with rfl | rfl | rfl | rfl | rfl | rfl
  · decide
  · decide
  · exact absurd hhead (by decide)
  · exact absurd hhead (by decide)
  · exact absurd hhead (by decide)
  · exact absurd hhead (by decide)

/-- C22 (amended), with the bound on the path totals. For every fully connected
graph on `n <= 30` locations (where the `int` expressions of the source are
defined) with non-negative distances in which the total of every path
that repeats no location is below INT_MAX, every start `s < n` and every fuel
of at least `n`: the call `held_karp(1 << s, s, ...)` with an all-unknown memo
returns in minimize mode and in maximize mode, and in each mode the value is
the total distance of some Hamiltonian path starting at `s`. Hence the
minimize value is at least every lower bound of these totals, and the
maximize value is at most every upper bound of them. -/
theorem held_karp_value_is_path_total (n : Nat) (dist : Table) (s fuel : Nat)
    (hn30 : n ≤ 30) (hin : MinInput n dist) (hfull : FullyConnected n dist) (hs : s < n)
    (hfuel : n ≤ fuel) :
    (∃ r p, held_karp_int fuel (1 <<< s) s n dist (freshMemo n) INT_MAX less = .ok r ∧
      HamPathFrom n dist s p ∧ r.value = pathCost dist p ∧
      ∀ lo : Int, (∀ q, HamPathFrom n dist s q → lo ≤ pathCost dist q) → lo ≤ r.value) ∧
    (∃ r p, held_karp_int fuel (1 <<< s) s n dist (freshMemo n) INT_MIN greater = .ok r ∧
      HamPathFrom n dist s p ∧ r.value = pathCost dist p ∧
      ∀ hi : Int, (∀ q, HamPathFrom n dist s q → pathCost dist q ≤ hi) → r.value ≤ hi) := by
  simp only [held_karp_int_of_le hn30]
  obtain ⟨r1, p1, hr1, hp1, hv1⟩ := held_karp_fresh_path hin hfull isDirection_min hs hfuel
  obtain ⟨r2, p2, hr2, hp2, hv2⟩ := held_karp_fresh_path hin hfull isDirection_max hs hfuel
  exact ⟨⟨r1, p1, hr1, hp1, hv1, fun lo hlo => hv1 ▸ hlo p1 hp1⟩,
    ⟨r2, p2, hr2, hp2, hv2, fun hi hhi => hv2 ▸ hhi p2 hp2⟩⟩

theorem minInput_distABC : MinInput 3 distABC :=
  minInput_of_entries 5 (by simp [Table.Dims, distABC]) (by decide) (by decide) (by decide)

/-- C22 (amended) on the A, B, C matrix from the start 1. -/
theorem held_karp_value_is_path_total_witness :
    (∃ r p, held_karp_int 3 (1 <<< 1) 1 3 distABC (freshMemo 3) INT_MAX less = .ok r ∧
      HamPathFrom 3 distABC 1 p ∧ r.value = pathCost distABC p ∧
      ∀ lo : Int, (∀ q, HamPathFrom 3 distABC 1 q → lo ≤ pathCost distABC q) → lo ≤ r.value) ∧
    (∃ r p, held_karp_int 3 (1 <<< 1) 1 3 distABC (freshMemo 3) INT_MIN greater = .ok r ∧
      HamPathFrom 3 distABC 1 p ∧ r.value = pathCost distABC p ∧
      ∀ hi : Int, (∀ q, HamPathFrom 3 distABC 1 q → pathCost distABC q ≤ hi) → r.value ≤ hi) :=
  held_karp_value_is_path_total 3 distABC 1 3 (by decide) minInput_distABC (by decide)
    (by decide) (by decide)


/-! ## The driver of `main` against a driver with a fresh memo for every run -/

theorem valueOf_of_resultOf {x : Except Fault Outcome} {v : Int} {m : Table}
    (h : resultOf x = some (v, m)) : valueOf x = some v := by
  cases x with
  | error e => cases h
  | ok o =>
    simp only [resultOf, Option.some.injEq, Prod.mk.injEq] at h
    simp only [valueOf, h.1]

theorem valueOf_of_resetOf {n : Nat} {x : Except Fault Outcome} {v : Int} {m : Table}
    (h : resetOf n x = some (v, m)) : valueOf x = some v := by
  cases x with
  | error e => cases h
  | ok o =>
    simp only [resetOf, Option.some.injEq, Prod.mk.injEq] at h
    simp only [valueOf, h.1]

/-- One round of the reference driver, from the values of its two runs. -/
theorem driverFreshLoop_cons_of_runs (n : Nat) (dist : Table) (curr : Nat) (rest : List Nat)
    (acc : Int × Int) (v1 v2 : Int)
    (h1 : valueOf (held_karp (n + 1) (1 <<< curr) curr n dist (freshMemo n) INT_MAX less) =
      some v1)
    (h2 : valueOf (held_karp (n + 1) (1 <<< curr) curr n dist (freshMemo n) INT_MIN greater) =
      some v2) :
    driverFreshLoop n dist (curr :: rest) acc =
      driverFreshLoop n dist rest (min acc.1 v1, max acc.2 v2) := by
  cases hr1 : held_karp (n + 1) (1 <<< curr) curr n dist (freshMemo n) INT_MAX less with
  | error e => rw [hr1] at h1; cases h1
  | ok r1 =>
    rw [hr1] at h1
    simp only [valueOf, Option.some.injEq] at h1
    cases hr2 : held_karp (n + 1) (1 <<< curr) curr n dist (freshMemo n) INT_MIN greater with
    | error e => rw [hr2] at h2; cases h2
    | ok r2 =>
      rw [hr2] at h2
      simp only [valueOf, Option.some.injEq] at h2
      simp only [driverFreshLoop, driverFreshStep, hr1, hr2, h1, h2]

/-- On `distSix`, the minimize run of root 2 from an all-unknown memo returns 57. -/
theorem distSix_fresh_minimize_2 :
    valueOf (held_karp (6 + 1) (1 <<< 2) 2 6 distSix (freshMemo 6) INT_MAX less) =
      some 57 := by
  decide!

/-- On `distSix`, the minimize run of root 1 from an all-unknown memo returns 50. -/
theorem distSix_fresh_minimize_1 :
    valueOf (held_karp (6 + 1) (1 <<< 1) 1 6 distSix (freshMemo 6) INT_MAX less) =
      some 50 := by
  decide!

/-- On `distSix`, the minimize run of root 4 from an all-unknown memo returns 51. -/
theorem distSix_fresh_minimize_4 :
    valueOf (held_karp (6 + 1) (1 <<< 4) 4 6 distSix (freshMemo 6) INT_MAX less) =
      some 51 := by
  decide!

/-- On `distSix`, the minimize run of root 5 from an all-unknown memo returns 48
(from the memo left by the maximize run of root 4 it returns 49). -/
theorem distSix_fresh_minimize_5 :
    valueOf (held_karp (6 + 1) (1 <<< 5) 5 6 distSix (freshMemo 6) INT_MAX less) =
      some 48 := by
  decide!

/-- On `distSix`, the minimize run of root 0 from an all-unknown memo returns 52
(from the memo left by the maximize run of root 5 it returns 58). -/
theorem distSix_fresh_minimize_0 :
    valueOf (held_karp (6 + 1) (1 <<< 0) 0 6 distSix (freshMemo 6) INT_MAX less) =
      some 52 := by
  decide!

/-- C23 (fails on the code). On the fully connected graph `distSix` on six
locations (non-negative distances), with the roots processed in the order
3, 2, 1, 4, 5, 0, the driver of `main` reports the pair (49, 48), while a
driver that gives every run of `held_karp` its own all-unknown memo reports
(48, 48): the entries which the maximize run of root 4 leaves in the memo
change the value of the minimize run of root 5. -/
theorem driver_differs_from_fresh_memo_driver :
    FullyConnected 6 distSix ∧
    (∀ a, a < 6 → ∀ b, b < 6 → a ≠ b → 0 ≤ distSix.get a b) ∧
    answerOf (driver 6 distSix [3, 2, 1, 4, 5, 0]) = some (49, 48) ∧
    driverFresh 6 distSix [3, 2, 1, 4, 5, 0] = some (48, 48) := by
  refine ⟨by decide, by decide, ?_, ?_⟩
  · rw [driver,
      driverLoop_cons_of_runs 6 distSix 3 _ _ _ _ _ 56 47 memoSixAfter3
        distSix_minimize_3 distSix_maximize_3,
      driverLoop_cons_of_runs 6 distSix 2 _ _ _ _ _ 57 48 memoSixAfter2
        distSix_minimize_2 distSix_maximize_2,
      driverLoop_cons_of_runs 6 distSix 1 _ _ _ _ _ 50 41 memoSixAfter1
        distSix_minimize_1 distSix_maximize_1,
      driverLoop_cons_of_runs 6 distSix 4 _ _ _ _ _ 51 48 memoSixAfter4
        distSix_minimize_4 distSix_maximize_4,
      driverLoop_cons_of_runs 6 distSix 5 _ _ _ _ _ 49 44 memoSixAfter5
        distSix_minimize_5 distSix_maximize_5,
      answerOf_driverLoop_last 6 distSix 0 _ _ _ _ 58 48
        distSix_minimize_0 distSix_maximize_0]
    decide
  · rw [driverFresh,
      driverFreshLoop_cons_of_runs 6 distSix 3 _ _ 56 47
        (valueOf_of_resetOf distSix_minimize_3) (valueOf_of_resultOf distSix_maximize_3),
      driverFreshLoop_cons_of_runs 6 distSix 2 _ _ 57 48
        distSix_fresh_minimize_2 (valueOf_of_resultOf distSix_maximize_2),
      driverFreshLoop_cons_of_runs 6 distSix 1 _ _ 50 41
        distSix_fresh_minimize_1 (valueOf_of_resultOf distSix_maximize_1),
      driverFreshLoop_cons_of_runs 6 distSix 4 _ _ 51 48
        distSix_fresh_minimize_4 (valueOf_of_resultOf distSix_maximize_4),
      driverFreshLoop_cons_of_runs 6 distSix 5 _ _ 48 44
        distSix_fresh_minimize_5 (valueOf_of_resultOf distSix_maximize_5),
      driverFreshLoop_cons_of_runs 6 distSix 0 _ _ 52 48
        distSix_fresh_minimize_0 distSix_maximize_0]
    decide

end Day09

namespace Day04

/-- What `check_hash` tests on a 16-byte digest: the first five hexadecimal
digits are zero. -/
theorem check_hash_iff_five_zeros (hash : List Nat) (hlen : hash.length = 16)
    (hbyte : ∀ b ∈ hash, b < 256) :
    check_hash hash = some true ↔ StartsWithZeros 5 hash := by
  match hash, hlen, hbyte with
  | h0 :: h1 :: h2 :: rest, _, hbyte =>
    have b0 : h0 < 256 := hbyte h0 (by simp)
    have b1 : h1 < 256 := hbyte h1 (by simp)
    have b2 : h2 < 256 := hbyte h2 (by simp)
    simp only [check_hash, StartsWithZeros, hexOf, hexDigits, List.flatMap_cons,
      List.getElem?_cons_zero, List.getElem?_cons_succ, List.cons_append, List.nil_append,
      List.take_succ_cons, List.take_zero, List.replicate, List.cons.injEq, and_true]
    have hR : (h0 / 16 % 16 = 0 ∧ h0 % 16 = 0 ∧ h1 / 16 % 16 = 0 ∧ h1 % 16 = 0 ∧
        h2 / 16 % 16 = 0) ↔ (h0 = 0 ∧ h1 = 0 ∧ h2 < 16) := by
      constructor
      · rintro ⟨p1, p2, p3, p4, p5⟩
        exact ⟨by omega, by omega, by omega⟩
      · rintro ⟨p1, p2, p3⟩
        exact ⟨by omega, by omega, by omega, by omega, by omega⟩
    rw [hR]
    by_cases e0 : h0 = 0
    · by_cases e1 : h1 = 0
      · simp [e0, e1]
      · simp [e0, e1]
    · simp [e0]

/-- C19 (fails on the code). On the digest `00 00 01 00 ... 00`, whose
hexadecimal writing starts with five zeros followed by a 1, `check_hash`
returns true although `hash[2]` is not 0 and the writing does not start with
six zeros. -/
theorem check_hash_accepts_five_zeros :
    check_hash hashFiveZeros = some true ∧
    hashFiveZeros.length = 16 ∧
    (hexOf hashFiveZeros).take 6 = [0, 0, 0, 0, 0, 1] ∧
    ¬ StartsWithZeros 6 hashFiveZeros ∧
    hashFiveZeros[2]? = some 1 := by
  decide

end Day04

namespace Day05

theorem lookup_chars_cons_eq (x k : List Char) (v : Nat) (l : List (List Char × Nat)) :
    List.lookup x ((k, v) :: l) = if x = k then some v else List.lookup x l := by
  rw [List.lookup_cons]
  by_cases e : x = k
  · simp [e]
  · have : (x == k) = false := by simpa using e
    simp [this, e]

theorem lookup_append_of_none (x k : List Char) (v : Nat) :
    ∀ l : List (List Char × Nat), List.lookup k l = none →
      List.lookup x (l ++ [(k, v)]) = if x = k then some v else List.lookup x l
  | [], _ => by simp [lookup_chars_cons_eq]
  | (k', v') :: l, h => by
    rw [lookup_chars_cons_eq] at h
    by_cases e : k = k'
    · rw [if_pos e] at h
      cases h
    · rw [if_neg e] at h
      have ih := lookup_append_of_none x k v l h
      rw [List.cons_append, lookup_chars_cons_eq, lookup_chars_cons_eq, ih]
      by_cases e2 : x = k'
      · have : ¬ x = k := fun e3 => e (e3.symm.trans e2)
        rw [if_pos e2, if_neg this, if_pos e2]
      · rw [if_neg e2, if_neg e2]

theorem subSizeT_eq {a b : Nat} (hb : b ≤ a) (ha : a < 18446744073709551616) :
    subSizeT a b = a - b := by
  unfold subSizeT
  omega

theorem niceStep_none (line : List Char) (st : NiceState) (i : Nat)
    (h : st.pair_positions.lookup (substr line (i - 1) 2) = none) :
    niceStep line st i =
      { pair_positions := st.pair_positions ++ [(substr line (i - 1) 2, i - 1)],
        twice_no_overlap := st.twice_no_overlap,
        repeat_with_inbetween :=
          if i + 1 < line.length ∧ (line)[i - 1]? = (line)[i + 1]? then true
          else st.repeat_with_inbetween } := by
  simp only [niceStep, h]

theorem niceStep_some (line : List Char) (st : NiceState) (i first : Nat)
    (h : st.pair_positions.lookup (substr line (i - 1) 2) = some first) :
    niceStep line st i =
      { pair_positions := st.pair_positions,
        twice_no_overlap := if subSizeT (i - 1) first ≥ 2 then true else st.twice_no_overlap,
        repeat_with_inbetween :=
          if i + 1 < line.length ∧ (line)[i - 1]? = (line)[i + 1]? then true
          else st.repeat_with_inbetween } := by
  simp only [niceStep, h]

theorem niceStep_repeat (line : List Char) (st : NiceState) (i : Nat) :
    (niceStep line st i).repeat_with_inbetween =
      if i + 1 < line.length ∧ (line)[i - 1]? = (line)[i + 1]? then true
      else st.repeat_with_inbetween := by
  cases h : st.pair_positions.lookup (substr line (i - 1) 2) with
  | none => rw [niceStep_none line st i h]
  | some first => rw [niceStep_some line st i first h]

theorem niceStep_twice_mono (line : List Char) (st : NiceState) (i : Nat)
    (h : st.twice_no_overlap = true) : (niceStep line st i).twice_no_overlap = true := by
  cases hl : st.pair_positions.lookup (substr line (i - 1) 2) with
  | none =>
    rw [niceStep_none line st i hl]
    exact h
  | some first =>
    rw [niceStep_some line st i first hl]
    simp [h]

theorem niceStep_repeat_mono (line : List Char) (st : NiceState) (i : Nat)
    (h : st.repeat_with_inbetween = true) :
    (niceStep line st i).repeat_with_inbetween = true := by
  rw [niceStep_repeat, h]
  simp

theorem foldl_flags_mono (line : List Char) :
    ∀ (rest : List Nat) (st : NiceState),
      (st.twice_no_overlap = true → (rest.foldl (niceStep line) st).twice_no_overlap = true) ∧
      (st.repeat_with_inbetween = true →
        (rest.foldl (niceStep line) st).repeat_with_inbetween = true)
  | [], _ => ⟨id, id⟩
  | i :: rest, st => by
    have ih := foldl_flags_mono line rest (niceStep line st i)
    rw [List.foldl_cons]
    exact ⟨fun h => ih.1 (niceStep_twice_mono line st i h),
      fun h => ih.2 (niceStep_repeat_mono line st i h)⟩

/-- Breaking out of the loop loses nothing: the returned conjunction is the
one the loop without `break` would give. -/
theorem niceLoop_flags (line : List Char) :
    ∀ (rest : List Nat) (st : NiceState),
      ((niceLoop line rest st).twice_no_overlap = true ∧
        (niceLoop line rest st).repeat_with_inbetween = true) ↔
      ((rest.foldl (niceStep line) st).twice_no_overlap = true ∧
        (rest.foldl (niceStep line) st).repeat_with_inbetween = true)
  | [], _ => Iff.rfl
  | i :: rest, st => by
    rw [niceLoop, List.foldl_cons]
    by_cases h : (niceStep line st i).twice_no_overlap = true ∧
        (niceStep line st i).repeat_with_inbetween = true
    · rw [if_pos h]
      have hm := foldl_flags_mono line rest (niceStep line st i)
      exact ⟨fun _ => ⟨hm.1 h.1, hm.2 h.2⟩, fun _ => h⟩
    · rw [if_neg h]
      exact niceLoop_flags line rest (niceStep line st i)

theorem niceRun_succ (line : List Char) (k : Nat) :
    niceRun line (k + 1) = niceStep line (niceRun line k) (k + 1) := by
  unfold niceRun
  rw [List.range'_concat, List.foldl_append]
  simp [Nat.add_comm]

theorem exists_firstAt (line : List Char) (k : Nat) (key : List Char) :
    ∀ g, g < k → substr line g 2 = key → ∃ f, FirstAt line k key f := by
  intro g
  induction g using Nat.strong_induction_on with
  | _ g ih =>
    intro hg hsub
    by_cases hmin : ∀ g', g' < g → substr line g' 2 ≠ key
    · exact ⟨g, hg, hsub, hmin⟩
    · push_neg at hmin
      obtain ⟨g', hg', hsub'⟩ := hmin
      exact ih g' hg' (by omega) hsub'

/-- The state of the loop without `break` after the indices `1, ..., k`: the
two flags say what has been seen among the start positions below `k`, and the
map holds the first start position of each pair seen. -/
theorem niceRun_inv (line : List Char) (hlen : line.length < 18446744073709551616) :
    ∀ k, k ≤ line.length - 1 →
      ((niceRun line k).repeat_with_inbetween = true ↔
        ∃ j, j < k ∧ j + 2 < line.length ∧ (line)[j]? = (line)[j + 2]?) ∧
      ((niceRun line k).twice_no_overlap = true ↔
        ∃ p q, p + 2 ≤ q ∧ q < k ∧ substr line p 2 = substr line q 2) ∧
      (∀ key f, (niceRun line k).pair_positions.lookup key = some f ↔
        FirstAt line k key f) := by
  intro k
  induction k with
  | zero =>
    intro _
    refine ⟨?_, ?_, ?_⟩
    · simp [niceRun]
    · simp [niceRun]
    · intro key f
      simp [niceRun, FirstAt]
  | succ k ih =>
    intro hk
    obtain ⟨hrep, htwice, hmap⟩ := ih (by omega)
    rw [niceRun_succ]
    have hk1 : k + 1 - 1 = k := by omega
    have hk64 : k < 18446744073709551616 :=
      lt_of_le_of_lt (le_trans (Nat.le_succ k) (le_trans hk (Nat.sub_le _ _))) hlen
    refine ⟨?_, ?_, ?_⟩
    · rw [niceStep_repeat, hk1]
      by_cases hc : k + 1 + 1 < line.length ∧ (line)[k]? = (line)[k + 1 + 1]?
      · rw [if_pos hc]
        exact ⟨fun _ => ⟨k, by omega, hc.1, hc.2⟩, fun _ => rfl⟩
      · rw [if_neg hc, hrep]
        constructor
        · rintro ⟨j, hj, h1, h2⟩
          exact ⟨j, by omega, h1, h2⟩
        · rintro ⟨j, hj, h1, h2⟩
          by_cases hjk : j = k
          · subst hjk
            exact absurd ⟨h1, h2⟩ hc
          · exact ⟨j, by omega, h1, h2⟩
    · cases hl : (niceRun line k).pair_positions.lookup (substr line (k + 1 - 1) 2) with
      | none =>
        rw [niceStep_none line _ _ hl]
        rw [hk1] at hl
        have hnone : ∀ g, g < k → substr line g 2 ≠ substr line k 2 := by
          intro g hg hsub
          obtain ⟨f, hf⟩ := exists_firstAt line k _ g hg hsub
          rw [← hmap, hl] at hf
          cases hf
        show (niceRun line k).twice_no_overlap = true ↔ _
        rw [htwice]
        constructor
        · rintro ⟨p, q, h1, h2, h3⟩
          exact ⟨p, q, h1, by omega, h3⟩
        · rintro ⟨p, q, h1, h2, h3⟩
          by_cases hqk : q = k
          · subst hqk
            exact absurd h3 (hnone p (by omega))
          · exact ⟨p, q, h1, by omega, h3⟩
      | some first =>
        rw [niceStep_some line _ _ first hl]
        rw [hk1] at hl ⊢
        obtain ⟨hf1, hf2, hf3⟩ := (hmap _ first).mp hl
        show (if subSizeT k first ≥ 2 then true else (niceRun line k).twice_no_overlap) = true ↔ _
        rw [subSizeT_eq (Nat.le_of_lt hf1) hk64]
        by_cases hfar : k - first ≥ 2
        · rw [if_pos hfar]
          exact ⟨fun _ => ⟨first, k, by omega, by omega, hf2⟩, fun _ => rfl⟩
        · rw [if_neg hfar, htwice]
          constructor
          · rintro ⟨p, q, h1, h2, h3⟩
            exact ⟨p, q, h1, by omega, h3⟩
          · rintro ⟨p, q, h1, h2, h3⟩
            by_cases hqk : q = k
            · subst hqk
              exfalso
              by_cases hpf : p < first
              · exact hf3 p hpf h3
              · omega
            · exact ⟨p, q, h1, by omega, h3⟩
    · intro key f
      cases hl : (niceRun line k).pair_positions.lookup (substr line (k + 1 - 1) 2) with
      | none =>
        rw [niceStep_none line _ _ hl]
        rw [hk1] at hl ⊢
        have hnone : ∀ g, g < k → substr line g 2 ≠ substr line k 2 := by
          intro g hg hsub
          obtain ⟨f', hf'⟩ := exists_firstAt line k _ g hg hsub
          rw [← hmap, hl] at hf'
          cases hf'
        show List.lookup key ((niceRun line k).pair_positions ++ [(substr line k 2, k)]) =
          some f ↔ _
        rw [lookup_append_of_none key _ k _ hl]
        by_cases hkey : key = substr line k 2
        · subst hkey
          rw [if_pos rfl]
          constructor
          · intro h
            have hfk : f = k := (Option.some.inj h).symm
            subst hfk
            exact ⟨by omega, rfl, hnone⟩
          · rintro ⟨h1, h2, _⟩
            by_cases hfk : f = k
            · rw [hfk]
            · exact absurd h2 (hnone f (by omega))
        · rw [if_neg hkey, hmap]
          constructor
          · rintro ⟨h1, h2, h3⟩
            exact ⟨by omega, h2, h3⟩
          · rintro ⟨h1, h2, h3⟩
            by_cases hfk : f = k
            · subst hfk
              exact absurd h2.symm hkey
            · exact ⟨by omega, h2, h3⟩
      | some first =>
        rw [niceStep_some line _ _ first hl]
        rw [hk1] at hl
        obtain ⟨hf1, hf2, hf3⟩ := (hmap _ first).mp hl
        show List.lookup key (niceRun line k).pair_positions = some f ↔ _
        rw [hmap]
        constructor
        · rintro ⟨h1, h2, h3⟩
          exact ⟨by omega, h2, h3⟩
        · rintro ⟨h1, h2, h3⟩
          by_cases hfk : f = k
          · rw [hfk] at h2 h3
            exact absurd (hf2.trans h2) (h3 first hf1)
          · exact ⟨by omega, h2, h3⟩

/-- C20. For every string (shorter than `2^64` characters), `is_nice` returns
true if and only if some two-character pair occurs at two start positions at
least 2 apart and some character repeats with exactly one character between:
keeping only the first position of each pair and breaking out of the loop
early loses no case. -/
theorem is_nice_iff (line : List Char) (hlen : line.length < 18446744073709551616) :
    is_nice line = true ↔ PairTwice line ∧ RepeatBetween line := by
  obtain ⟨hrep, htwice, _⟩ := niceRun_inv line hlen (line.length - 1) (Nat.le_refl _)
  unfold is_nice
  rw [Bool.and_eq_true, niceLoop_flags]
  change (niceRun line (line.length - 1)).twice_no_overlap = true ∧
    (niceRun line (line.length - 1)).repeat_with_inbetween = true ↔ _
  rw [hrep, htwice]
  constructor
  · rintro ⟨⟨p, q, h1, h2, h3⟩, ⟨j, h4, h5, h6⟩⟩
    exact ⟨⟨p, q, h1, by omega, h3⟩, ⟨j, h5, h6⟩⟩
  · rintro ⟨⟨p, q, h1, h2, h3⟩, ⟨j, h5, h6⟩⟩
    exact ⟨⟨p, q, h1, by omega, h3⟩, ⟨j, by omega, h5, h6⟩⟩

/-- C20 on the string `xyxy`. -/
theorem is_nice_iff_witness :
    is_nice ['x', 'y', 'x', 'y'] = true ↔
      PairTwice ['x', 'y', 'x', 'y'] ∧ RepeatBetween ['x', 'y', 'x', 'y'] :=
  is_nice_iff ['x', 'y', 'x', 'y'] (by decide)

end Day05

namespace Day08

theorem lastIndex_eq {line : List Char} (h1 : 1 ≤ line.length)
    (hlen : line.length < 18446744073709551616) : lastIndex line = line.length - 1 := by
  unfold lastIndex wrap64
  omega

/-- One iteration of the scan on a line of at least one character, at a
position below `line.size() - 1`: both reads are inside the line, exactly one
in-memory character is counted, and `i` advances by 1, 2 or 4 unless the
position holds a stray backslash, in which case `i` stays where it is. -/
theorem scanBody_advance (line : List Char) (st : ScanState) (h1 : 1 ≤ line.length)
    (hlen : line.length + 4 ≤ 18446744073709551616) (hi : st.i < lastIndex line) :
    ∃ st', scanBody line st = some st' ∧
      st'.total_in_memory = wrap32 (st.total_in_memory + 1) ∧
      (((st'.i = st.i + 1 ∨ st'.i = st.i + 2 ∨ st'.i = st.i + 4) ∧ ¬ Stray line st.i) ∨
        (st'.i = st.i ∧ Stray line st.i)) := by
  rw [lastIndex_eq h1 (by omega)] at hi
  have hi0 : st.i < line.length := by omega
  have hi1 : st.i + 1 < line.length := by omega
  have w1 : wrap64 (st.i + 1) = st.i + 1 := by unfold wrap64; omega
  have w2 : wrap64 (st.i + 2) = st.i + 2 := by unfold wrap64; omega
  have w4 : wrap64 (st.i + 4) = st.i + 4 := by unfold wrap64; omega
  have hc : (line)[st.i]? = some (line.get ⟨st.i, hi0⟩) := List.getElem?_eq_getElem hi0
  have hd : (line)[st.i + 1]? = some (line.get ⟨st.i + 1, hi1⟩) := List.getElem?_eq_getElem hi1
  generalize line.get ⟨st.i, hi0⟩ = c at hc
  generalize line.get ⟨st.i + 1, hi1⟩ = d at hd
  unfold scanBody
  rw [hc, w1, hd, w2, w4]
  simp only
  by_cases e1 : c = '\\'
  · rw [if_pos e1]
    by_cases e2 : d = '\\' ∨ d = '"'
    · rw [if_pos e2]
      refine ⟨_, rfl, rfl, Or.inl ⟨Or.inr (Or.inl rfl), ?_⟩⟩
      rintro ⟨_, d', hd', n1, n2, _⟩
      rw [hd] at hd'
      cases hd'
      rcases e2 with e2 | e2
      · exact n1 e2
      · exact n2 e2
    · rw [if_neg e2]
      by_cases e3 : d = 'x'
      · rw [if_pos e3]
        refine ⟨_, rfl, rfl, Or.inl ⟨Or.inr (Or.inr rfl), ?_⟩⟩
        rintro ⟨_, d', hd', _, _, n3⟩
        rw [hd] at hd'
        cases hd'
        exact n3 e3
      · rw [if_neg e3]
        refine ⟨_, rfl, rfl, Or.inr ⟨rfl, ?_, d, hd, ?_, ?_, e3⟩⟩
        · rw [hc, e1]
        · exact fun e => e2 (Or.inl e)
        · exact fun e => e2 (Or.inr e)
  · rw [if_neg e1]
    refine ⟨_, rfl, rfl, Or.inl ⟨Or.inl rfl, ?_⟩⟩
    rintro ⟨hc', _⟩
    rw [hc] at hc'
    cases hc'
    exact e1 rfl

/-- On a line of at least one character without any backslash followed by a
character other than a backslash, a quote and `x`, the scan ends: from the
position `i` it needs at most `line.size() - 1 - i` iterations. -/
theorem scan_terminates (line : List Char) (h1 : 1 ≤ line.length)
    (hlen : line.length + 4 ≤ 18446744073709551616) (hno : ∀ p, ¬ Stray line p) :
    ∀ (fuel : Nat) (st : ScanState), lastIndex line - st.i < fuel →
      ∃ st', scan fuel line st = .ok st' := by
  intro fuel
  induction fuel with
  | zero =>
    intro st hf
    omega
  | succ fuel ih =>
    intro st hf
    rw [scan]
    by_cases hi : st.i < lastIndex line
    · rw [if_pos hi]
      obtain ⟨st', hbody, _, hadv⟩ := scanBody_advance line st h1 hlen hi
      rw [hbody]
      simp only
      apply ih
      rcases hadv with ⟨hstep, _⟩ | ⟨_, hstray⟩
      · omega
      · exact absurd hstray (hno _)
    · rw [if_neg hi]
      exact ⟨st, rfl⟩

/-- At a stray backslash the scan never ends: every iteration leaves `i` where
it is, so every fuel is used up. -/
theorem scan_stuck (line : List Char) (h1 : 1 ≤ line.length)
    (hlen : line.length + 4 ≤ 18446744073709551616) :
    ∀ (fuel : Nat) (st : ScanState), st.i < lastIndex line → Stray line st.i →
      scan fuel line st = .error .outOfFuel := by
  intro fuel
  induction fuel with
  | zero =>
    intro st _ _
    rfl
  | succ fuel ih =>
    intro st hi hs
    rw [scan, if_pos hi]
    obtain ⟨st', hbody, _, hadv⟩ := scanBody_advance line st h1 hlen hi
    rw [hbody]
    simp only
    rcases hadv with ⟨_, hns⟩ | ⟨hsame, _⟩
    · exact absurd hs hns
    · exact ih st' (hsame ▸ hi) (hsame ▸ hs)

/-- The scan from any state of a line of at least one character either ends,
within `line.size() - 1 - i` iterations and with the same final state for every
larger fuel, or it never ends because it meets a stray backslash. -/
theorem scan_ends_or_never (line : List Char) (h1 : 1 ≤ line.length)
    (hlen : line.length + 4 ≤ 18446744073709551616) :
    ∀ (k : Nat) (st : ScanState), lastIndex line - st.i ≤ k →
      (∃ st', ∀ fuel, k < fuel → scan fuel line st = .ok st') ∨
      ((∃ p, st.i ≤ p ∧ p < lastIndex line ∧ Stray line p) ∧
        ∀ fuel, scan fuel line st = .error .outOfFuel) := by
  intro k
  induction k with
  | zero =>
    intro st hk
    refine Or.inl ⟨st, fun fuel hf => ?_⟩
    obtain ⟨f, rfl⟩ : ∃ f, fuel = f + 1 := ⟨fuel - 1, by omega⟩
    rw [scan, if_neg (by omega)]
  | succ k ih =>
    intro st hk
    by_cases hi : st.i < lastIndex line
    · obtain ⟨st', hbody, _, hadv⟩ := scanBody_advance line st h1 hlen hi
      rcases hadv with ⟨hstep, _⟩ | ⟨_, hstray⟩
      · rcases ih st' (by omega) with ⟨fin, hfin⟩ | ⟨⟨p, hp1, hp2, hp3⟩, hnever⟩
        · refine Or.inl ⟨fin, fun fuel hf => ?_⟩
          obtain ⟨f, rfl⟩ : ∃ f, fuel = f + 1 := ⟨fuel - 1, by omega⟩
          rw [scan, if_pos hi, hbody]
          exact hfin f (by omega)
        · refine Or.inr ⟨⟨p, by omega, hp2, hp3⟩, fun fuel => ?_⟩
          cases fuel with
          | zero => rfl
          | succ f =>
            rw [scan, if_pos hi, hbody]
            exact hnever f
      · exact Or.inr ⟨⟨st.i, le_refl _, hi, hstray⟩,
          fun fuel => scan_stuck line h1 hlen fuel st hi hstray⟩
    · refine Or.inl ⟨st, fun fuel hf => ?_⟩
      obtain ⟨f, rfl⟩ : ∃ f, fuel = f + 1 := ⟨fuel - 1, by omega⟩
      rw [scan, if_neg hi]

/-- On the line `"\\b\x41"` the scan ends after three iterations, which advance
`i` by 2, 1 and 4 and count three in-memory characters. -/
theorem scan_escapedLine :
    scan 9 escapedLine { i := 1, total_in_memory := 0, total_to_encode := 0 } =
      .ok { i := 8, total_in_memory := 3, total_to_encode := 3 } := rfl

/-- On the empty line the condition `i < line.size() - 1` holds for `i = 1`,
because the subtraction wraps, and the first iteration reads `line[1]` outside
the line. -/
theorem scan_empty_line (fuel : Nat) (m e : Int) :
    lastIndex [] = 18446744073709551615 ∧
    scan (fuel + 1) [] { i := 1, total_in_memory := m, total_to_encode := e } =
      .error .outOfBounds := by
  constructor
  · decide
  · rw [scan, if_pos (show (1 : Nat) < lastIndex [] by decide)]
    rfl

/-- C21 (fails on the code). On the line `"\a"` (a quote, a backslash, the
letter `a`, a quote) the first iteration of the scan, at `i = 1`, counts one
in-memory character and leaves `i` at 1: a backslash followed by a character
other than a backslash, a quote and `x` advances `i` by 0, not by 1. The scan
therefore never ends: for every fuel, and whatever the counters, it runs out
of fuel. -/
theorem scan_stray_backslash_never_ends :
    scanBody strayLine { i := 1, total_in_memory := 0, total_to_encode := 0 } =
      some { i := 1, total_in_memory := 1, total_to_encode := 0 } ∧
    ∀ (fuel : Nat) (m e : Int),
      scan fuel strayLine { i := 1, total_in_memory := m, total_to_encode := e } =
        .error .outOfFuel := by
  refine ⟨by decide, fun fuel m e => ?_⟩
  exact scan_stuck strayLine (by decide) (by decide) fuel _
    (show (1 : Nat) < lastIndex strayLine by decide)
    (show Stray strayLine 1 from ⟨by decide, 'a', by decide, by decide, by decide, by decide⟩)

end Day08
